import Mathlib

/-!
# Shared-memory relaxation (`CM30225CW1.c`): embedding and verification

The program relaxes the interior of a square grid with a pool of worker threads
(`row_calc`) that share one `struct args`.  The embedding below follows the C source:

* `long unsigned int` values are natural numbers below `ULONG = 2 ^ 64`; the three
  arithmetic operations that can wrap are `uadd`, `usub`, `umul`;
* `double` cells are exact rationals;
* a matrix (`double **`) is a list of rows; every access is bounds checked and an
  access outside the allocated rows or columns is a fault (`none`);
* the barrier protocol is modelled by phases: inside an iteration the compute steps of
  the workers are run one after the other in an arbitrary order (they touch disjoint
  data whenever they all succeed), then the coordinator code runs, then every worker
  flips its buffer flag `i`.
-/

namespace CM30225CW1

/-! ## Machine integers -/

/-- Number of values of a `long unsigned int` (64 bits): `2 ^ 64`. -/
def ULONG : Nat := 18446744073709551616

/-- Unsigned addition `a + b`. -/
def uadd (a b : Nat) : Nat := (a + b) % ULONG

/-- Unsigned subtraction `a - b` (for `b ≤ ULONG`): wraps around below zero. -/
def usub (a b : Nat) : Nat := (a + ULONG - b) % ULONG

/-- Unsigned multiplication `a * b`. -/
def umul (a b : Nat) : Nat := (a * b) % ULONG

/-! ## Data model -/

/-- A matrix `double **`: a list of rows of cells. -/
abbrev Grid := List (List ℚ)

/-- The shared `struct args` (the lock and the barrier are modelled by the phase
structure of `iteration`). -/
structure args where
  arr : Grid
  arr2 : Grid
  length : Nat
  minimal_difference : ℚ
  stop : Nat
  final_array : Nat
  available : List Nat
  largest_difference : List ℚ
  thread_count : Nat
deriving DecidableEq

/-- Read `g[x][y]`; `none` when the row or the column does not exist. -/
def readCell (g : Grid) (x y : Nat) : Option ℚ :=
  match g[x]? with
  | none => none
  | some row => row[y]?

/-- Store `g[x][y] = v`; `none` when the row or the column does not exist. -/
def writeCell (g : Grid) (x y : Nat) (v : ℚ) : Option Grid :=
  match g[x]? with
  | none => none
  | some row => if y < row.length then some (g.set x (row.set y v)) else none

/-! ## `row_calc`: the row band of a section index (lines 54-68) -/

/-- The pair `(start_row, last_row)` that `row_calc` computes for section index `i`
(`thread_num = i`), in unsigned arithmetic as in the source. -/
def row_calc_band (length thread_count i : Nat) : Nat × Nat :=
  if usub length 2 % thread_count = 0 then
    let start_row := uadd 1 (umul i (usub length 2 / thread_count))
    (start_row, uadd start_row (usub length 2 / thread_count))
  else if usub (usub length 2 % thread_count) i > 0 then
    let start_row := uadd (uadd 1 (umul i (usub length 2 / thread_count))) i
    (start_row, uadd (uadd start_row (usub length 2 / thread_count)) 1)
  else
    let start_row :=
      uadd (uadd 1 (umul i (usub length 2 / thread_count))) (usub length 2 % thread_count)
    (start_row, uadd start_row (usub length 2 / thread_count))

/-- Rows visited by `for (x = start_row; x < last_row; ++x)`. -/
def row_range (start_row last_row : Nat) : List Nat :=
  List.range' start_row (last_row - start_row)

/-- Columns visited by `for (y = 1; y < length - 1; ++y)`. -/
def col_range (length : Nat) : List Nat :=
  List.range' 1 (usub length 1 - 1)

/-- Rows of the band of section `i`. -/
def band_rows (length thread_count i : Nat) : List Nat :=
  row_range (row_calc_band length thread_count i).1 (row_calc_band length thread_count i).2

/-! ## `row_calc`: the compute step (lines 81-107) -/

/-- Body of the inner loop when `i == 0` (lines 86-91): `arr` is written from `arr2`. -/
def relax_cell_arr (m : args) (thread_num x y : Nat) : Option args := do
  let a ← readCell m.arr2 (x + 1) y
  let b ← readCell m.arr2 (usub x 1) y
  let c ← readCell m.arr2 x (y + 1)
  let d ← readCell m.arr2 x (y - 1)
  let arr ← writeCell m.arr x y ((a + b + c + d) / 4)
  let n ← readCell arr x y
  let o ← readCell m.arr2 x y
  let cur ← m.largest_difference[thread_num]?
  if |n - o| > cur then
    some { m with arr := arr, largest_difference := m.largest_difference.set thread_num |n - o| }
  else
    some { m with arr := arr }

/-- Body of the inner loop when `i != 0` (lines 99-104): `arr2` is written from `arr`. -/
def relax_cell_arr2 (m : args) (thread_num x y : Nat) : Option args := do
  let a ← readCell m.arr (x + 1) y
  let b ← readCell m.arr (usub x 1) y
  let c ← readCell m.arr x (y + 1)
  let d ← readCell m.arr x (y - 1)
  let arr2 ← writeCell m.arr2 x y ((a + b + c + d) / 4)
  let o ← readCell m.arr x y
  let n ← readCell arr2 x y
  let cur ← m.largest_difference[thread_num]?
  if |o - n| > cur then
    some { m with arr2 := arr2, largest_difference := m.largest_difference.set thread_num |o - n| }
  else
    some { m with arr2 := arr2 }

/-- The compute step of one worker (lines 81-107) on the band `[start_row, last_row)`. -/
def compute_step (m : args) (i thread_num start_row last_row : Nat) : Option args :=
  if i = 0 then
    (row_range start_row last_row).foldlM
      (fun m x => (col_range m.length).foldlM (fun m y => relax_cell_arr m thread_num x y) m) m
  else
    (row_range start_row last_row).foldlM
      (fun m x => (col_range m.length).foldlM (fun m y => relax_cell_arr2 m thread_num x y) m) m

/-- The compute step of the worker that claimed section `thread_num`. -/
def worker_compute (m : args) (i thread_num : Nat) : Option args :=
  compute_step m i thread_num (row_calc_band m.length m.thread_count thread_num).1
    (row_calc_band m.length m.thread_count thread_num).2

/-! ## `row_calc`: the coordinator (lines 112-124) and the loop (lines 76-130) -/

/-- Body of the coordinator loop (lines 118-122) for index `j`. -/
def coordinator_body (m : args) (j : Nat) : Option args := do
  let d ← m.largest_difference[j]?
  let m1 := if d > m.minimal_difference then { m with stop := 0 } else m
  some { m1 with largest_difference := m1.largest_difference.set j 0 }

/-- The coordinator code (lines 114-123), run by a worker whose `start_row` is 1. -/
def coordinator (m : args) (i : Nat) : Option args :=
  (List.range m.thread_count).foldlM coordinator_body { m with stop := 1, final_array := i }

/-- Lines 112-124 for the worker that claimed section `thread_num`. -/
def worker_decide (m : args) (i thread_num : Nat) : Option args :=
  if (row_calc_band m.length m.thread_count thread_num).1 = 1 then coordinator m i else some m

/-- Lines 126-127: swap matrices. -/
def flip (i : Nat) : Nat := if i = 0 then 1 else 0

/-- Between the first and the second barrier: every worker of `order` does its compute step. -/
def compute_phase (order : List Nat) (i : Nat) (m : args) : Option args :=
  order.foldlM (fun m thread_num => worker_compute m i thread_num) m

/-- Between the second and the third barrier: the workers whose band starts at row 1 run
the coordinator code. -/
def decide_phase (order : List Nat) (i : Nat) (m : args) : Option args :=
  order.foldlM (fun m thread_num => worker_decide m i thread_num) m

/-- One trip of all workers through the loop body (lines 79-129). -/
def iteration (order : List Nat) (i : Nat) (m : args) : Option args :=
  (compute_phase order i m).bind (decide_phase order i)

/-- Result of running the worker loop. -/
inductive Outcome where
  | fault : Outcome
  | out_of_fuel : Outcome
  | finished : Nat → args → Outcome
deriving DecidableEq

/-- The loop `while (matrices->stop != 1)` of all workers, at most `fuel` iterations;
`schedule k` is the order of the workers inside iteration `k`, `done` counts the
iterations performed and `i` is the buffer flag of the workers. -/
def worker_loop (schedule : Nat → List Nat) : Nat → Nat → Nat → args → Outcome
  | fuel, done, i, m =>
    if m.stop = 1 then Outcome.finished done m
    else
      match fuel with
      | 0 => Outcome.out_of_fuel
      | fuel + 1 =>
        match iteration (schedule done) i m with
        | none => Outcome.fault
        | some m1 => worker_loop schedule fuel (done + 1) (flip i) m1

/-! ## `main`: validation and start-up (lines 180-278) -/

/-- Return value of `pthread_barrier_init(&barrier, NULL, count)`: POSIX prescribes the
error `EINVAL` for a count of zero; otherwise `rc` is what the system answers. -/
def pthread_barrier_init (count rc : Nat) : Nat := if count = 0 then 22 else rc

/-- How far `main` gets before the workers run. -/
inductive main_result where
  | mutex_failed : main_result
  | too_many_threads : main_result
  | invalid_length : main_result
  | barrier_failed : main_result
  | threads_created : Nat → main_result
deriving DecidableEq

/-- Lines 180-278 of `main` for the configured `length` and `thread_count` (the constants
set at the top of `main`); `mutex_rc` is the answer of `pthread_mutex_init` and `barrier_rc`
that of the system to the barrier set-up; every `pthread_create` is taken to succeed. -/
def main (mutex_rc barrier_rc length thread_count : Nat) : main_result :=
  if mutex_rc ≠ 0 then main_result.mutex_failed
  else if thread_count > usub length 2 then main_result.too_many_threads
  else if length < 3 then main_result.invalid_length
  else if pthread_barrier_init thread_count barrier_rc ≠ 0 then main_result.barrier_failed
  else main_result.threads_created thread_count

/-- Value returned by `main` on the error paths (nothing is returned before the workers
have been joined otherwise). -/
def main_result.exit_code : main_result → Option Nat
  | main_result.threads_created _ => none
  | _ => some 1

/-- Whether the matrices were allocated (lines 202-245 are reached). -/
def main_result.buffers_allocated : main_result → Bool
  | main_result.barrier_failed => true
  | main_result.threads_created _ => true
  | _ => false

/-- Number of `pthread_create` calls made. -/
def main_result.threads : main_result → Nat
  | main_result.threads_created n => n
  | _ => 0

/-- Matrix B of `main` (lines 208-220): ones on row 0 and column 0, zeros elsewhere. -/
def matrix_B (length : Nat) : Grid :=
  (List.range length).map fun r => (List.range length).map fun c => if r = 0 ∨ c = 0 then 1 else 0

/-- Matrix A of `main` (lines 223-244): a chequerboard of ones and zeros. -/
def matrix_A (length : Nat) : Grid :=
  (List.range length).map fun r => (List.range length).map fun c =>
    if r % 2 = 1 then (if c % 2 = 0 then 0 else 1) else (if c % 2 = 0 then 1 else 0)

/-- The shared state when `main` creates the workers: both matrices hold the same initial
content `g` (lines 206-245), `available` and `largest_difference` are zeroed (lines 252-255);
`main` never assigns `stop` and `final_array`, whose initial contents are parameters. -/
def start_state (length thread_count : Nat) (g : Grid) (minimal_difference : ℚ)
    (stop final_array : Nat) : args :=
  { arr := g, arr2 := g, length := length, minimal_difference := minimal_difference,
    stop := stop, final_array := final_array, available := List.replicate thread_count 0,
    largest_difference := List.replicate thread_count 0, thread_count := thread_count }

/-! ## `row_calc`: claiming a section (lines 37-50) -/

/-- The scan of lines 42-50 over the section indices still to be tried: the first index whose
slot of `available` holds 0 is returned and its slot is set to 1.  `none` when no slot is
free (the worker then keeps an unassigned `thread_num` and never releases the lock) or
when an index lies outside the table. -/
def claim_scan (available : List Nat) : List Nat → Option (Nat × List Nat)
  | [] => none
  | i :: rest =>
    match available[i]? with
    | none => none
    | some a => if a = 0 then some (i, available.set i 1) else claim_scan available rest

/-- Lines 37-50, executed under the lock as one step: the worker claims a section index. -/
def claim_section (m : args) : Option (Nat × args) :=
  (claim_scan m.available (List.range m.thread_count)).map
    fun p => (p.1, { m with available := p.2 })

/-- The claims of `n` workers one after the other, with the indices they obtain. -/
def claim_sections : Nat → args → Option (List Nat × args)
  | 0, m => some ([], m)
  | n + 1, m =>
    match claim_section m with
    | none => none
    | some p => (claim_sections n p.2).map fun q => (p.1 :: q.1, q.2)

/-! ## `row_calc`: the matrix cells accessed by the compute step (lines 83-106) -/

/-- A cell of one of the two matrices: `(0, x, y)` is `arr[x][y]` and `(1, x, y)` is
`arr2[x][y]`. -/
abbrev Loc := Nat × Nat × Nat

/-- The cells read by the inner loop body at `(x, y)`: lines 86-90 when `i == 0`, lines
99-103 otherwise. -/
def cell_reads (i x y : Nat) : List Loc :=
  if i = 0 then
    [(1, x + 1, y), (1, usub x 1, y), (1, x, y + 1), (1, x, y - 1), (0, x, y), (1, x, y)]
  else
    [(0, x + 1, y), (0, usub x 1, y), (0, x, y + 1), (0, x, y - 1), (0, x, y), (1, x, y)]

/-- The cell written by the inner loop body at `(x, y)`: line 86 when `i == 0`, line 99
otherwise. -/
def cell_writes (i x y : Nat) : List Loc :=
  if i = 0 then [(0, x, y)] else [(1, x, y)]

/-- All cells read by the compute step of the worker of section `thread_num`. -/
def worker_reads (length thread_count i thread_num : Nat) : List Loc :=
  (band_rows length thread_count thread_num).flatMap fun x =>
    (col_range length).flatMap fun y => cell_reads i x y

/-- All cells written by the compute step of the worker of section `thread_num`. -/
def worker_writes (length thread_count i thread_num : Nat) : List Loc :=
  (band_rows length thread_count thread_num).flatMap fun x =>
    (col_range length).flatMap fun y => cell_writes i x y

/-! ## Notions used to state and prove the properties -/

/-- Lines 297-302 of `main`: the matrix that is printed as the final one. -/
def reported_matrix (m : args) : Grid := if m.final_array = 0 then m.arr else m.arr2

/-- Size `last_row - start_row` of the band of section `i`, in unsigned arithmetic. -/
def band_size (length thread_count i : Nat) : Nat :=
  usub (row_calc_band length thread_count i).2 (row_calc_band length thread_count i).1

/-- Start row of band `k` in the scheme of the specification (4.1): the base size is
`(length - 2) / thread_count` and the first `(length - 2) % thread_count` bands get one extra
row. -/
def spec_start_row (length thread_count k : Nat) : Nat :=
  1 + k * ((length - 2) / thread_count) + min k ((length - 2) % thread_count)

/-- The remainder is `0` or `thread_count - 1`: no section index lies above the remainder. -/
def exact_split (length thread_count : Nat) : Prop :=
  (length - 2) % thread_count = 0 ∨ (length - 2) % thread_count = thread_count - 1

/-- All of the first `k` entries are at most `t`. -/
def prefix_le (ld : List ℚ) (t : ℚ) (k : Nat) : Prop :=
  ∀ j d, j < k → ld[j]? = some d → d ≤ t

/-- A matrix with `N` rows of `N` cells. -/
def wf_grid (N : Nat) (g : Grid) : Prop := g.length = N ∧ ∀ row ∈ g, row.length = N

/-- Content of a cell (`0` outside the matrix). -/
def cell (g : Grid) (x y : Nat) : ℚ := (readCell g x y).getD 0

/-- Mean of the four neighbours of a cell. -/
def neighbour_mean (g : Grid) (x y : Nat) : ℚ :=
  (cell g (x + 1) y + cell g (x - 1) y + cell g x (y + 1) + cell g x (y - 1)) / 4

/-- Absolute difference between the relaxed value of a cell and its value in `src`. -/
def change (src : Grid) (x y : Nat) : ℚ := |neighbour_mean src x y - cell src x y|

/-- The inner loop body for a source matrix `src`, acting on the pair of the destination
matrix and `largest_difference`; both bodies of the source are instances of it. -/
def relax_cell (src : Grid) (tn x y : Nat) (p : Grid × List ℚ) : Option (Grid × List ℚ) := do
  let a ← readCell src (x + 1) y
  let b ← readCell src (usub x 1) y
  let c ← readCell src x (y + 1)
  let d ← readCell src x (y - 1)
  let dst ← writeCell p.1 x y ((a + b + c + d) / 4)
  let n ← readCell dst x y
  let o ← readCell src x y
  let cur ← p.2[tn]?
  if |n - o| > cur then some (dst, p.2.set tn |n - o|) else some (dst, p.2)

/-- The inner loop over the columns of row `x`. -/
def relax_row (N : Nat) (src : Grid) (tn x : Nat) (p : Grid × List ℚ) :
    Option (Grid × List ℚ) :=
  (col_range N).foldlM (fun p y => relax_cell src tn x y p) p

/-- The loop nest over a band. -/
def relax_band (N : Nat) (src : Grid) (tn start_row last_row : Nat) (p : Grid × List ℚ) :
    Option (Grid × List ℚ) :=
  (row_range start_row last_row).foldlM (fun p x => relax_row N src tn x p) p

/-- The compute steps of the workers of `order`. -/
def relax_phase (N T : Nat) (src : Grid) (order : List Nat) (p : Grid × List ℚ) :
    Option (Grid × List ℚ) :=
  order.foldlM (fun p tn =>
    relax_band N src tn (row_calc_band N T tn).1 (row_calc_band N T tn).2 p) p

/-- The matrix read when the buffer flag is `i`. -/
def src_of (i : Nat) (m : args) : Grid := if i = 0 then m.arr2 else m.arr

/-- The matrix written when the buffer flag is `i`. -/
def dst_of (i : Nat) (m : args) : Grid := if i = 0 then m.arr else m.arr2

/-- Put a destination matrix and a `largest_difference` array back into the shared state. -/
def with_dst (i : Nat) (m : args) (p : Grid × List ℚ) : args :=
  if i = 0 then { m with arr := p.1, largest_difference := p.2 }
  else { m with arr2 := p.1, largest_difference := p.2 }

/-- A destination matrix with `N` rows of `N` cells and `n` scratch values. -/
def wf_state (N n : Nat) (p : Grid × List ℚ) : Prop := wf_grid N p.1 ∧ p.2.length = n

/-- The pair `p1` results from `p` by relaxing, from `src`, the cells `(a, b)` with `C j a b`
on behalf of worker `j`. -/
structure relaxed (N : Nat) (src : Grid) (C : Nat → Nat → Nat → Prop)
    (p p1 : Grid × List ℚ) : Prop where
  wf : wf_grid N p1.1
  cell_in : ∀ j a b, C j a b → cell p1.1 a b = neighbour_mean src a b
  cell_out : ∀ a b, (∀ j, ¬ C j a b) → cell p1.1 a b = cell p.1 a b
  ld_len : p1.2.length = p.2.length
  ld_le : ∀ j d, p.2[j]? = some d → ∃ d1, p1.2[j]? = some d1 ∧
    ∀ t, d1 ≤ t ↔ d ≤ t ∧ ∀ a b, C j a b → change src a b ≤ t
  ld_attained : ∀ j d1, p1.2[j]? = some d1 →
    p.2[j]? = some d1 ∨ ∃ a b, C j a b ∧ d1 = change src a b

/-- The cells relaxed by the workers of `order` in one compute phase. -/
def phase_cells (N T : Nat) (order : List Nat) (j a b : Nat) : Prop :=
  j ∈ order ∧ a ∈ band_rows N T j ∧ 1 ≤ b ∧ b + 1 < N

/-- The cell `(x, y)` is an interior cell of a grid of dimension `N`. -/
def interior (N x y : Nat) : Prop := 1 ≤ x ∧ x + 1 < N ∧ 1 ≤ y ∧ y + 1 < N

/-- The shared state is well formed for dimension `length` and `thread_count` workers. -/
structure wf_args (m : args) : Prop where
  arr : wf_grid m.length m.arr
  arr2 : wf_grid m.length m.arr2
  ld : m.largest_difference.length = m.thread_count

/-- A configuration accepted by `main` whose allocation sizes fit a machine word. -/
structure accepted (length thread_count : Nat) : Prop where
  three : 3 ≤ length
  fits : 8 * length < ULONG
  one : 1 ≤ thread_count
  le : thread_count ≤ length - 2

/-- The state `m2` results from `m` by one relaxation of all interior cells from the matrix
`src_of i m` into `dst_of i m`, followed by the decision of the coordinator. -/
structure iterated (i : Nat) (m m2 : args) : Prop where
  src : src_of i m2 = src_of i m
  wf : wf_args m2
  length : m2.length = m.length
  thread_count : m2.thread_count = m.thread_count
  minimal_difference : m2.minimal_difference = m.minimal_difference
  available : m2.available = m.available
  cell_in : ∀ a b, interior m.length a b →
    cell (dst_of i m2) a b = neighbour_mean (src_of i m) a b
  cell_out : ∀ a b, ¬ interior m.length a b → cell (dst_of i m2) a b = cell (dst_of i m) a b
  ld : m2.largest_difference = List.replicate m.thread_count 0
  final_array : m2.final_array = i
  stop_iff : m2.stop = 1 ↔ (∀ d ∈ m.largest_difference, d ≤ m.minimal_difference) ∧
    ∀ a b, interior m.length a b → change (src_of i m) a b ≤ m.minimal_difference
  stop_cases : m2.stop = 1 ∨ m2.stop = 0

/-- What is observed of a run of the worker loop: whether it faulted, whether it stopped
within the fuel and, if so, the number of iterations performed, `final_array` and both
matrices. -/
def Outcome.observe : Outcome → Option (Option (Nat × Nat × Grid × Grid))
  | Outcome.fault => none
  | Outcome.out_of_fuel => some none
  | Outcome.finished k m => some (some (k, m.final_array, m.arr, m.arr2))

/-- The states of a run with one worker and of a run with two workers correspond. -/
structure sim_1_2 (N : Nat) (m1 m2 : args) : Prop where
  arr : m1.arr = m2.arr
  arr2 : m1.arr2 = m2.arr2
  len1 : m1.length = N
  len2 : m2.length = N
  md : m1.minimal_difference = m2.minimal_difference
  stop : m1.stop = m2.stop
  final_array : m1.final_array = m2.final_array
  tc1 : m1.thread_count = 1
  tc2 : m2.thread_count = 2
  ld1 : m1.largest_difference = [0]
  ld2 : m2.largest_difference = [0, 0]
  wf_arr : wf_grid N m1.arr
  wf_arr2 : wf_grid N m1.arr2

/-- Weight of row `x` in a grid of dimension `N`: zero on the rows `0` and `N - 1`. -/
def weight (N x : Nat) : ℚ := (x : ℚ) * ((N : ℚ) - 1 - x)

/-- Contraction factor of one relaxation with respect to `weight`. -/
def rho (N : Nat) : ℚ := 1 - 1 / (2 * (N : ℚ) ^ 2)

/-- Sum of the changes of a first relaxation over all cells. -/
def total_change (N : Nat) (g : Grid) : ℚ :=
  ∑ x in Finset.range N, ∑ y in Finset.range N, change g x y

/-- The state before an iteration with buffer flag `i`, in a run that has started: the
matrix to be read is the relaxation of the other one and differs from it by at most
`B * weight` on the interior. -/
structure settling (N T : Nat) (t B : ℚ) (i : Nat) (m : args) : Prop where
  wf : wf_args m
  length : m.length = N
  thread_count : m.thread_count = T
  md : m.minimal_difference = t
  ld : m.largest_difference = List.replicate T 0
  nonneg : 0 ≤ B
  boundary : ∀ x y, x < N → y < N → ¬ interior N x y →
    cell (dst_of i m) x y = cell (src_of i m) x y
  bound : ∀ a b, interior N a b → change (src_of i m) a b ≤ B * weight N a


/-- The matrix that `main` does not report. -/
def other_matrix (m : args) : Grid := if m.final_array = 0 then m.arr2 else m.arr

/-- Band of section `i` in the scheme of the specification (4.1). -/
def spec_band (length thread_count i : Nat) : Nat × Nat :=
  (spec_start_row length thread_count i, spec_start_row length thread_count (i + 1))

/-- Width of the slots in which `row_calc` places the bands: the base size when the
division is exact, one more otherwise. -/
def slot_width (length thread_count : Nat) : Nat :=
  if (length - 2) % thread_count = 0 then (length - 2) / thread_count
  else (length - 2) / thread_count + 1

/-- The cell lies inside a matrix of dimension `N`. -/
def Loc.in_bounds (N : Nat) (c : Loc) : Prop := c.2.1 < N ∧ c.2.2 < N

/-- The state of a finished run, `m0` for a run that did not finish. -/
def Outcome.final_state (m0 : args) : Outcome → args
  | Outcome.finished _ m => m
  | _ => m0

/-- The buffer flag of a worker `n` iterations after it held `i`. -/
def nth_flag (i : Nat) : Nat → Nat
  | 0 => i
  | n + 1 => nth_flag (flip i) n

/-- The states `m` and `n` differ at most in `stop` and `final_array`. -/
structure same_data (m n : args) : Prop where
  arr : m.arr = n.arr
  arr2 : m.arr2 = n.arr2
  length : m.length = n.length
  minimal_difference : m.minimal_difference = n.minimal_difference
  available : m.available = n.available
  largest_difference : m.largest_difference = n.largest_difference
  thread_count : m.thread_count = n.thread_count

/-- The matrix `arr` at the end of the run on matrix B of dimension 5 with the threshold
`1 / 10000`. -/
def scenario_arr : Grid :=
  [[1, 1, 1, 1, 1],
   [1, 29447010011 / 34359738368, 49072757613 / 68719476736, 4095 / 8192, 0],
   [1, 49072757613 / 68719476736, 2047 / 4096, 19621553299 / 68719476736, 0],
   [1, 4095 / 8192, 19621553299 / 68719476736, 4904339749 / 34359738368, 0],
   [1, 0, 0, 0, 0]]

/-- The matrix `arr2` at the end of that run, the one `main` reports. -/
def scenario_arr2 : Grid :=
  [[1, 1, 1, 1, 1],
   [1, 117792234349 / 137438953472, 98153903835 / 137438953472, 16381 / 32768, 0],
   [1, 98153903835 / 137438953472, 8189 / 16384, 39251495205 / 137438953472, 0],
   [1, 16381 / 32768, 39251495205 / 137438953472, 19621553299 / 137438953472, 0],
   [1, 0, 0, 0, 0]]

/-! ## Arithmetic of the bands -/

theorem usub_eq_sub {a b : Nat} (ha : a < ULONG) (hb : b ≤ a) : usub a b = a - b := by
  unfold usub ULONG at *; omega

theorem band_size_cases (length thread_count i : Nat) (hN : length < ULONG) (h3 : 3 ≤ length) :
    band_size length thread_count i = (length - 2) / thread_count ∨
    band_size length thread_count i = (length - 2) / thread_count + 1 := by
  have hR : usub length 2 = length - 2 := usub_eq_sub hN (by omega)
  have hb : (length - 2) / thread_count ≤ length - 2 := Nat.div_le_self _ _
  unfold band_size row_calc_band
  rw [hR]
  generalize (length - 2) / thread_count = b at *
  generalize (length - 2) % thread_count = r at *
  generalize umul i b = u at *
  split_ifs <;> simp only [uadd, usub] <;> unfold ULONG at * <;> omega

theorem mul_div_facts (R T i : Nat) (hi : i < T) :
    T * (R / T) + R % T = R ∧ i * (R / T) + R / T ≤ T * (R / T) := by
  refine ⟨Nat.div_add_mod R T, ?_⟩
  have h := Nat.mul_le_mul_right (R / T) (Nat.succ_le_of_lt hi)
  rw [Nat.succ_mul] at h
  exact h

theorem row_calc_band_exact (length thread_count i : Nat) (hN : length < ULONG)
    (hT : thread_count ≤ length - 2) (hi : i < thread_count)
    (hg : exact_split length thread_count) :
    row_calc_band length thread_count i
      = (spec_start_row length thread_count i, spec_start_row length thread_count (i + 1)) := by
  have hR : usub length 2 = length - 2 := usub_eq_sub hN (by omega)
  obtain ⟨h1, h2⟩ := mul_div_facts (length - 2) thread_count i hi
  have hrem : (length - 2) % thread_count < thread_count := Nat.mod_lt _ (by omega)
  unfold row_calc_band spec_start_row exact_split at *
  rw [hR, Nat.succ_mul]
  generalize (length - 2) / thread_count = b at *
  generalize (length - 2) % thread_count = r at *
  generalize hu : i * b = u at *
  generalize thread_count * b = w at *
  have hum : umul i b = u := by
    unfold umul; rw [hu]; apply Nat.mod_eq_of_lt; omega
  rw [hum]
  split_ifs <;> simp only [uadd, usub, Prod.mk.injEq] at * <;> unfold ULONG at * <;> omega

theorem spec_start_row_zero (length thread_count : Nat) : spec_start_row length thread_count 0 = 1 := by
  simp [spec_start_row]

theorem spec_start_row_last (length thread_count : Nat) (h3 : 3 ≤ length) (hT : 1 ≤ thread_count) :
    spec_start_row length thread_count thread_count = length - 1 := by
  have h1 := Nat.div_add_mod (length - 2) thread_count
  have hrem : (length - 2) % thread_count < thread_count := Nat.mod_lt _ (by omega)
  unfold spec_start_row
  rw [Nat.min_eq_right (le_of_lt hrem)]
  omega

theorem spec_start_row_mono (length thread_count k : Nat) :
    spec_start_row length thread_count k ≤ spec_start_row length thread_count (k + 1) := by
  unfold spec_start_row
  rw [Nat.succ_mul]
  generalize (length - 2) / thread_count = b
  generalize k * b = u
  omega

theorem spec_start_row_le_of_le (length thread_count : Nat) {j k : Nat} (h : j ≤ k) :
    spec_start_row length thread_count j ≤ spec_start_row length thread_count k := by
  induction k with
  | zero => simp_all
  | succ n ih =>
    rcases Nat.eq_or_lt_of_le h with h1 | h1
    · rw [h1]
    · exact le_trans (ih (by omega)) (spec_start_row_mono _ _ n)

theorem spec_start_row_cover (length thread_count x n : Nat) (h1 : 1 ≤ x) (hx : x < spec_start_row length thread_count n) :
    ∃ i, i < n ∧ spec_start_row length thread_count i ≤ x ∧ x < spec_start_row length thread_count (i + 1) := by
  induction n with
  | zero => rw [spec_start_row_zero] at hx; omega
  | succ n ih =>
    by_cases h : x < spec_start_row length thread_count n
    · obtain ⟨i, hi, h2⟩ := ih h
      exact ⟨i, by omega, h2⟩
    · exact ⟨n, by omega, by omega, hx⟩

theorem coordinator_body_spec (m : args) (j : Nat) (d : ℚ) (hd : m.largest_difference[j]? = some d) :
    coordinator_body m j = some
      { m with stop := if d > m.minimal_difference then 0 else m.stop,
               largest_difference := m.largest_difference.set j 0 } := by
  unfold coordinator_body
  rw [hd]
  by_cases h : d > m.minimal_difference <;> simp [h]

theorem prefix_le_succ (ld : List ℚ) (t : ℚ) (k : Nat) (hk : k < ld.length) :
    prefix_le ld t (k + 1) ↔ prefix_le ld t k ∧ ld[k] ≤ t := by
  constructor
  · intro h
    exact ⟨fun j d hj => h j d (Nat.lt_succ_of_lt hj),
      h k _ (Nat.lt_succ_self k) (List.getElem?_eq_getElem hk)⟩
  · rintro ⟨h1, h2⟩ j d hj hjd
    rcases Nat.lt_succ_iff_lt_or_eq.1 hj with h | h
    · exact h1 j d h hjd
    · subst h
      rw [List.getElem?_eq_getElem hk] at hjd
      injection hjd with hjd
      rw [← hjd]; exact h2

theorem coordinator_fold (m : args) (k : Nat) (hk : k ≤ m.largest_difference.length) :
    ∃ m1, (List.range k).foldlM coordinator_body m = some m1 ∧
      m1.largest_difference.length = m.largest_difference.length ∧
      (∀ j, m1.largest_difference[j]? = if j < k then some 0 else m.largest_difference[j]?) ∧
      (prefix_le m.largest_difference m.minimal_difference k → m1.stop = m.stop) ∧
      (¬ prefix_le m.largest_difference m.minimal_difference k → m1.stop = 0) ∧
      m1.arr = m.arr ∧ m1.arr2 = m.arr2 ∧ m1.length = m.length ∧
      m1.minimal_difference = m.minimal_difference ∧ m1.final_array = m.final_array ∧
      m1.available = m.available ∧ m1.thread_count = m.thread_count := by
  induction k with
  | zero =>
    refine ⟨m, by simp, rfl, by simp, fun _ => rfl, fun h => ?_, rfl, rfl, rfl, rfl, rfl, rfl, rfl⟩
    exact absurd (fun j d hj => absurd hj (Nat.not_lt_zero j)) h
  | succ k ih =>
    obtain ⟨m1, h1, hlen, hld, hs1, hs0, ha, ha2, hl, hmd, hf, hav, htc⟩ := ih (by omega)
    have hk1 : k < m.largest_difference.length := by omega
    have hget : m1.largest_difference[k]? = some (m.largest_difference[k]) := by
      rw [hld k]; simp [hk1]
    refine ⟨{ m1 with
        stop := (if m.largest_difference[k] > m1.minimal_difference then 0 else m1.stop)
        largest_difference := m1.largest_difference.set k 0 },
      ?_, ?_, ?_, ?_, ?_, ha, ha2, hl, hmd, hf, hav, htc⟩
    · rw [List.range_succ, List.foldlM_append, h1]
      simp [coordinator_body_spec m1 k _ hget]
    · simp [hlen]
    · intro j
      simp only [List.getElem?_set]
      by_cases hjk : k = j
      · subst hjk; simp [hlen, hk1]
      · rw [if_neg hjk, hld j]
        by_cases hj : j < k
        · simp [hj, Nat.lt_succ_of_lt hj]
        · have : ¬ j < k + 1 := by omega
          simp [hj, this]
    · intro hp
      rw [prefix_le_succ _ _ _ hk1] at hp
      simp only [hmd]
      rw [if_neg (not_lt.2 hp.2)]
      exact hs1 hp.1
    · intro hp
      rw [prefix_le_succ _ _ _ hk1] at hp
      simp only [hmd]
      by_cases hkd : m.largest_difference[k] > m.minimal_difference
      · rw [if_pos hkd]
      · rw [if_neg hkd]
        exact hs0 (fun h => hp ⟨h, not_lt.1 hkd⟩)



/-! ## Matrices -/

theorem readCell_some_lt {g : Grid} {x y : Nat} {v : ℚ} (h : readCell g x y = some v) :
    x < g.length := by
  unfold readCell at h
  cases hx : g[x]? with
  | none => rw [hx] at h; cases h
  | some row => exact (List.getElem?_eq_some.1 hx).1

theorem readCell_some_lt_col {N : Nat} {g : Grid} {x y : Nat} {v : ℚ} (hg : wf_grid N g)
    (h : readCell g x y = some v) : y < N := by
  unfold readCell at h
  cases hx : g[x]? with
  | none => rw [hx] at h; cases h
  | some row =>
    rw [hx] at h
    have hmem : row ∈ g := List.getElem?_mem hx
    have := (List.getElem?_eq_some.1 h).1
    rw [hg.2 row hmem] at this
    exact this

theorem readCell_eq_cell {N : Nat} {g : Grid} {x y : Nat} (hg : wf_grid N g) (hx : x < N)
    (hy : y < N) : readCell g x y = some (cell g x y) := by
  have hx1 : x < g.length := by rw [hg.1]; exact hx
  have hrow : (g[x]).length = N := hg.2 _ (List.getElem_mem _)
  have hy1 : y < (g[x]).length := by rw [hrow]; exact hy
  have : readCell g x y = some ((g[x])[y]) := by
    unfold readCell
    rw [List.getElem?_eq_getElem hx1]
    exact List.getElem?_eq_getElem hy1
  rw [cell, this]; rfl

theorem writeCell_some_lt {N : Nat} {g g1 : Grid} {x y : Nat} {v : ℚ} (hg : wf_grid N g)
    (h : writeCell g x y v = some g1) : x < N ∧ y < N := by
  unfold writeCell at h
  cases hx : g[x]? with
  | none => rw [hx] at h; cases h
  | some row =>
    rw [hx] at h
    have hmem : row ∈ g := List.getElem?_mem hx
    have hx1 := (List.getElem?_eq_some.1 hx).1
    rw [hg.1] at hx1
    by_cases hy : y < row.length
    · rw [hg.2 row hmem] at hy; exact ⟨hx1, hy⟩
    · simp only [if_neg hy] at h; cases h

theorem writeCell_spec {N : Nat} {g : Grid} {x y : Nat} (v : ℚ) (hg : wf_grid N g) (hx : x < N)
    (hy : y < N) : ∃ g1, writeCell g x y v = some g1 ∧ wf_grid N g1 ∧
      ∀ a b, cell g1 a b = if a = x ∧ b = y then v else cell g a b := by
  have hx1 : x < g.length := by rw [hg.1]; exact hx
  have hrow : (g[x]).length = N := hg.2 _ (List.getElem_mem _)
  have hy1 : y < (g[x]).length := by rw [hrow]; exact hy
  refine ⟨g.set x ((g[x]).set y v), ?_, ?_, ?_⟩
  · unfold writeCell
    rw [List.getElem?_eq_getElem hx1]
    simp [hy1]
  · refine ⟨by simp [hg.1], ?_⟩
    intro row hrow1
    rcases List.mem_or_eq_of_mem_set hrow1 with h | h
    · exact hg.2 row h
    · rw [h]; simp [hrow]
  · intro a b
    unfold cell readCell
    by_cases ha : a = x
    · subst ha
      simp only [List.getElem?_set, hx1, if_true, true_and]
      by_cases hb : b = y
      · subst hb; simp [hy1]
      · have hb1 : ¬ y = b := fun h => hb h.symm
        simp [hb, hb1, List.getElem?_eq_getElem hx1]
    · have ha1 : ¬ x = a := fun h => ha h.symm
      simp [List.getElem?_set, ha, ha1]

theorem grid_ext {N : Nat} {g1 g2 : Grid} (h1 : wf_grid N g1) (h2 : wf_grid N g2)
    (h : ∀ x y, x < N → y < N → cell g1 x y = cell g2 x y) : g1 = g2 := by
  apply List.ext_getElem (by rw [h1.1, h2.1])
  intro x hx1 hx2
  have hxN : x < N := by rw [← h1.1]; exact hx1
  have hr1 : (g1[x]).length = N := h1.2 _ (List.getElem_mem _)
  have hr2 : (g2[x]).length = N := h2.2 _ (List.getElem_mem _)
  apply List.ext_getElem (by rw [hr1, hr2])
  intro y hy1 hy2
  have hyN : y < N := by rw [← hr1]; exact hy1
  have e1 := readCell_eq_cell h1 hxN hyN
  have e2 := readCell_eq_cell h2 hxN hyN
  rw [h x y hxN hyN] at e1
  unfold readCell at e1 e2
  rw [List.getElem?_eq_getElem hx1] at e1
  rw [List.getElem?_eq_getElem hx2] at e2
  simp only at e1 e2
  rw [List.getElem?_eq_getElem hy1] at e1
  rw [List.getElem?_eq_getElem hy2] at e2
  rw [← e2] at e1
  exact Option.some.inj e1


/-! ## Relaxation of cells -/

theorem usub_one {x : Nat} (h1 : 1 ≤ x) (hx : x < ULONG) : usub x 1 = x - 1 := by
  unfold usub ULONG at *; omega

theorem relax_cell_some_bounds {N : Nat} {src : Grid} {tn x y : Nat} {p p1 : Grid × List ℚ}
    (hN : N < ULONG) (hs : wf_grid N src) (h : relax_cell src tn x y p = some p1) :
    1 ≤ x ∧ x + 1 < N ∧ y + 1 < N := by
  unfold relax_cell at h
  cases ha : readCell src (x + 1) y with
  | none => simp [ha] at h
  | some a =>
    cases hb : readCell src (usub x 1) y with
    | none => simp [ha, hb] at h
    | some b =>
      cases hc : readCell src x (y + 1) with
      | none => simp [ha, hb, hc] at h
      | some c =>
        have h1 := readCell_some_lt ha
        have h2 := readCell_some_lt hb
        have h3 := readCell_some_lt_col hs hc
        rw [hs.1] at h1 h2
        refine ⟨?_, h1, h3⟩
        by_contra h0
        have hx0 : x = 0 := by omega
        rw [hx0] at h2
        unfold usub ULONG at *
        omega

theorem relax_cell_spec {N n : Nat} {src : Grid} {tn x y : Nat} {p : Grid × List ℚ}
    (hN : N < ULONG) (hs : wf_grid N src) (hp : wf_state N n p) (hx1 : 1 ≤ x) (hx2 : x + 1 < N)
    (hy1 : 1 ≤ y) (hy2 : y + 1 < N) (htn : tn < n) :
    ∃ p1, relax_cell src tn x y p = some p1 ∧
      relaxed N src (fun j a b => j = tn ∧ a = x ∧ b = y) p p1 := by
  obtain ⟨g1, hw, hwf, hcell⟩ :=
    writeCell_spec (g := p.1) (x := x) (y := y) (neighbour_mean src x y) hp.1 (by omega) (by omega)
  have htn1 : tn < p.2.length := by rw [hp.2]; exact htn
  have hn : readCell g1 x y = some (neighbour_mean src x y) := by
    rw [readCell_eq_cell hwf (by omega) (by omega), hcell]; simp
  have hstep : relax_cell src tn x y p =
      some (g1, if change src x y > p.2[tn] then p.2.set tn (change src x y) else p.2) := by
    unfold relax_cell
    rw [readCell_eq_cell hs (show x + 1 < N by omega) (show y < N by omega),
      usub_one hx1 (by omega), readCell_eq_cell hs (show x - 1 < N by omega) (show y < N by omega),
      readCell_eq_cell hs (show x < N by omega) (show y + 1 < N by omega),
      readCell_eq_cell hs (show x < N by omega) (show y - 1 < N by omega),
      readCell_eq_cell hs (show x < N by omega) (show y < N by omega)]
    simp only [Option.bind_eq_bind, Option.some_bind]
    change (writeCell p.1 x y (neighbour_mean src x y)).bind _ = _
    rw [hw]
    simp only [Option.some_bind, hn, List.getElem?_eq_getElem htn1]
    by_cases hc : change src x y > p.2[tn]
    · simp only [change] at hc ⊢
      simp [hc]
    · simp only [change] at hc ⊢
      simp [hc]
  refine ⟨_, hstep, ?_⟩
  constructor
  · exact hwf
  · rintro j a b ⟨-, rfl, rfl⟩
    simp [hcell]
  · intro a b hnot
    rw [hcell]
    have : ¬ (a = x ∧ b = y) := fun h => hnot tn ⟨rfl, h.1, h.2⟩
    simp [this]
  · by_cases hc : change src x y > p.2[tn] <;> simp [hc]
  · intro j d hd
    by_cases hj : j = tn
    · subst hj
      have hdj : d = p.2[j] := by
        rw [List.getElem?_eq_getElem htn1] at hd
        exact (Option.some.inj hd).symm
      by_cases hc : change src x y > p.2[j]
      · refine ⟨change src x y, by simp [hc, htn1], ?_⟩
        intro t
        constructor
        · intro ht
          refine ⟨?_, ?_⟩
          · rw [hdj]; exact le_trans (le_of_lt hc) ht
          · rintro a b ⟨-, rfl, rfl⟩; exact ht
        · rintro ⟨-, h2⟩; exact h2 x y ⟨rfl, rfl, rfl⟩
      · refine ⟨d, by simp [hc, hd], ?_⟩
        intro t
        constructor
        · intro ht
          refine ⟨ht, ?_⟩
          rintro a b ⟨-, rfl, rfl⟩
          exact le_trans (not_lt.1 hc) (by rw [← hdj]; exact ht)
        · rintro ⟨h1, -⟩; exact h1
    · refine ⟨d, ?_, ?_⟩
      · by_cases hc : change src x y > p.2[tn]
        · have : ¬ tn = j := fun h => hj h.symm
          simp [hc, List.getElem?_set, this, hd]
        · simp [hc, hd]
      · intro t
        constructor
        · intro ht; exact ⟨ht, fun a b h => absurd h.1 hj⟩
        · rintro ⟨h1, -⟩; exact h1
  · intro j d1 hd1
    by_cases hc : change src x y > p.2[tn]
    · simp only [hc, if_true, List.getElem?_set] at hd1
      by_cases hj : tn = j
      · subst hj
        simp only [if_true, htn1] at hd1
        right
        exact ⟨x, y, ⟨rfl, rfl, rfl⟩, (Option.some.inj hd1).symm⟩
      · rw [if_neg hj] at hd1
        exact Or.inl hd1
    · simp only [hc, if_false] at hd1
      exact Or.inl hd1


theorem relaxed_refl {N : Nat} (src : Grid) {p : Grid × List ℚ} (hp : wf_grid N p.1) :
    relaxed N src (fun _ _ _ => False) p p where
  wf := hp
  cell_in := fun _ _ _ h => h.elim
  cell_out := fun _ _ _ => rfl
  ld_len := rfl
  ld_le := fun _ d hd => ⟨d, hd, fun _ => ⟨fun h => ⟨h, fun _ _ h => h.elim⟩, fun h => h.1⟩⟩
  ld_attained := fun _ _ h => Or.inl h

theorem relaxed_trans {N : Nat} {src : Grid} {C1 C2 : Nat → Nat → Nat → Prop}
    {p p1 p2 : Grid × List ℚ} (h1 : relaxed N src C1 p p1) (h2 : relaxed N src C2 p1 p2) :
    relaxed N src (fun j a b => C1 j a b ∨ C2 j a b) p p2 where
  wf := h2.wf
  cell_in := by
    intro j a b h
    by_cases hc : ∃ k, C2 k a b
    · obtain ⟨k, hk⟩ := hc
      exact h2.cell_in k a b hk
    · rw [h2.cell_out a b (fun k hk => hc ⟨k, hk⟩)]
      rcases h with h | h
      · exact h1.cell_in j a b h
      · exact absurd ⟨j, h⟩ hc
  cell_out := by
    intro a b h
    rw [h2.cell_out a b (fun j hj => h j (Or.inr hj)), h1.cell_out a b (fun j hj => h j (Or.inl hj))]
  ld_len := by rw [h2.ld_len, h1.ld_len]
  ld_le := by
    intro j d hd
    obtain ⟨d1, hd1, e1⟩ := h1.ld_le j d hd
    obtain ⟨d2, hd2, e2⟩ := h2.ld_le j d1 hd1
    refine ⟨d2, hd2, fun t => ?_⟩
    rw [e2 t, e1 t]
    constructor
    · rintro ⟨⟨ha, hb⟩, hc⟩
      exact ⟨ha, fun a b h => h.elim (hb a b) (hc a b)⟩
    · rintro ⟨ha, hb⟩
      exact ⟨⟨ha, fun a b h => hb a b (Or.inl h)⟩, fun a b h => hb a b (Or.inr h)⟩
  ld_attained := by
    intro j d2 hd2
    rcases h2.ld_attained j d2 hd2 with h | ⟨a, b, hc, he⟩
    · rcases h1.ld_attained j d2 h with h | ⟨a, b, hc, he⟩
      · exact Or.inl h
      · exact Or.inr ⟨a, b, Or.inl hc, he⟩
    · exact Or.inr ⟨a, b, Or.inr hc, he⟩

theorem relaxed_congr {N : Nat} {src : Grid} {C1 C2 : Nat → Nat → Nat → Prop}
    {p p1 : Grid × List ℚ} (h : relaxed N src C1 p p1) (hC : ∀ j a b, C1 j a b ↔ C2 j a b) :
    relaxed N src C2 p p1 := by
  have : C1 = C2 := by
    funext j a b
    exact propext (hC j a b)
  rw [← this]; exact h

theorem relaxed_wf_state {N n : Nat} {src : Grid} {C : Nat → Nat → Nat → Prop}
    {p p1 : Grid × List ℚ} (h : relaxed N src C p p1) (hp : wf_state N n p) : wf_state N n p1 :=
  ⟨h.wf, by rw [h.ld_len, hp.2]⟩

theorem foldlM_relaxed {α : Type} (N n : Nat) (src : Grid)
    (f : Grid × List ℚ → α → Option (Grid × List ℚ)) (C : α → Nat → Nat → Nat → Prop)
    (l : List α)
    (hf : ∀ a ∈ l, ∀ p, wf_state N n p → ∃ p1, f p a = some p1 ∧ relaxed N src (C a) p p1) :
    ∀ p, wf_state N n p → ∃ p1, l.foldlM f p = some p1 ∧
      relaxed N src (fun j x y => ∃ a ∈ l, C a j x y) p p1 := by
  induction l with
  | nil =>
    intro p hp
    exact ⟨p, rfl, relaxed_congr (relaxed_refl src hp.1) (by simp)⟩
  | cons a l ih =>
    intro p hp
    obtain ⟨p1, h1, r1⟩ := hf a (List.mem_cons_self a l) p hp
    obtain ⟨p2, h2, r2⟩ := ih (fun b hb => hf b (List.mem_cons_of_mem a hb)) p1
      (relaxed_wf_state r1 hp)
    refine ⟨p2, ?_, relaxed_congr (relaxed_trans r1 r2) ?_⟩
    · rw [List.foldlM_cons, h1]; exact h2
    · intro j x y
      simp

theorem foldlM_some_mem {α σ : Type} (f : σ → α → Option σ) (I : σ → Prop)
    (hI : ∀ s a s1, I s → f s a = some s1 → I s1) :
    ∀ (l : List α) (s s1 : σ), I s → l.foldlM f s = some s1 →
      I s1 ∧ ∀ a ∈ l, ∃ q q1, I q ∧ f q a = some q1 := by
  intro l
  induction l with
  | nil =>
    intro s s1 hs h
    simp only [List.foldlM_nil] at h
    cases h
    exact ⟨hs, by simp⟩
  | cons a l ih =>
    intro s s1 hs h
    rw [List.foldlM_cons] at h
    cases h1 : f s a with
    | none => rw [h1] at h; cases h
    | some s2 =>
      rw [h1] at h
      obtain ⟨h3, h4⟩ := ih s2 s1 (hI s a s2 hs h1) h
      refine ⟨h3, ?_⟩
      intro b hb
      rcases List.mem_cons.1 hb with rfl | hb
      · exact ⟨s, s2, hs, h1⟩
      · exact h4 b hb

/-! ## The loops of the compute step -/

theorem mem_col_range {N y : Nat} (h1 : 1 ≤ N) (hN : N < ULONG) :
    y ∈ col_range N ↔ 1 ≤ y ∧ y + 1 < N := by
  unfold col_range
  rw [usub_eq_sub hN h1, List.mem_range'_1]
  omega

theorem mem_row_range {s l x : Nat} : x ∈ row_range s l ↔ s ≤ x ∧ x < l := by
  unfold row_range
  rw [List.mem_range'_1]
  omega

theorem relax_row_spec {N n : Nat} {src : Grid} {tn x : Nat} (hN : N < ULONG)
    (hs : wf_grid N src) (hx1 : 1 ≤ x) (hx2 : x + 1 < N) (htn : tn < n)
    (p : Grid × List ℚ) (hp : wf_state N n p) :
    ∃ p1, relax_row N src tn x p = some p1 ∧
      relaxed N src (fun j a b => j = tn ∧ a = x ∧ 1 ≤ b ∧ b + 1 < N) p p1 := by
  obtain ⟨p1, h1, r1⟩ := foldlM_relaxed N n src
    (fun p y => relax_cell src tn x y p) (fun y j a b => j = tn ∧ a = x ∧ b = y) (col_range N)
    (fun y hy p hp => by
      rw [mem_col_range (by omega) hN] at hy
      exact relax_cell_spec hN hs hp hx1 hx2 hy.1 hy.2 htn) p hp
  refine ⟨p1, h1, relaxed_congr r1 ?_⟩
  intro j a b
  constructor
  · rintro ⟨y, hy, rfl, rfl, rfl⟩
    rw [mem_col_range (by omega) hN] at hy
    exact ⟨rfl, rfl, hy⟩
  · rintro ⟨rfl, rfl, hb⟩
    exact ⟨b, (mem_col_range (by omega) hN).2 hb, rfl, rfl, rfl⟩

theorem relax_band_spec {N n : Nat} {src : Grid} {tn s l : Nat} (hN : N < ULONG)
    (hs : wf_grid N src) (hrows : ∀ x ∈ row_range s l, 1 ≤ x ∧ x + 1 < N) (htn : tn < n)
    (p : Grid × List ℚ) (hp : wf_state N n p) :
    ∃ p1, relax_band N src tn s l p = some p1 ∧
      relaxed N src (fun j a b => j = tn ∧ a ∈ row_range s l ∧ 1 ≤ b ∧ b + 1 < N) p p1 := by
  obtain ⟨p1, h1, r1⟩ := foldlM_relaxed N n src
    (fun p x => relax_row N src tn x p)
    (fun x j a b => j = tn ∧ a = x ∧ 1 ≤ b ∧ b + 1 < N) (row_range s l)
    (fun x hx p hp => relax_row_spec hN hs (hrows x hx).1 (hrows x hx).2 htn p hp) p hp
  refine ⟨p1, h1, relaxed_congr r1 ?_⟩
  intro j a b
  constructor
  · rintro ⟨x, hx, rfl, rfl, hb⟩
    exact ⟨rfl, hx, hb⟩
  · rintro ⟨rfl, ha, hb⟩
    exact ⟨a, ha, rfl, rfl, hb⟩

theorem relax_phase_spec {N T n : Nat} {src : Grid} {order : List Nat} (hN : N < ULONG)
    (hs : wf_grid N src)
    (hrows : ∀ tn ∈ order, tn < n ∧ ∀ x ∈ band_rows N T tn, 1 ≤ x ∧ x + 1 < N)
    (p : Grid × List ℚ) (hp : wf_state N n p) :
    ∃ p1, relax_phase N T src order p = some p1 ∧ relaxed N src (phase_cells N T order) p p1 := by
  obtain ⟨p1, h1, r1⟩ := foldlM_relaxed N n src
    (fun p tn => relax_band N src tn (row_calc_band N T tn).1 (row_calc_band N T tn).2 p)
    (fun tn j a b => j = tn ∧ a ∈ band_rows N T tn ∧ 1 ≤ b ∧ b + 1 < N) order
    (fun tn htn p hp => relax_band_spec hN hs (hrows tn htn).2 (hrows tn htn).1 p hp) p hp
  refine ⟨p1, h1, relaxed_congr r1 ?_⟩
  intro j a b
  unfold phase_cells
  constructor
  · rintro ⟨tn, htn, rfl, ha, hb⟩
    exact ⟨htn, ha, hb⟩
  · rintro ⟨hj, ha, hb⟩
    exact ⟨j, hj, rfl, ha, hb⟩

/-! ### A step that succeeds stays inside the matrix -/

theorem relax_row_some_bounds {N : Nat} {src : Grid} {tn x : Nat} {p p1 : Grid × List ℚ}
    (h3 : 3 ≤ N) (hN : N < ULONG) (hs : wf_grid N src) (h : relax_row N src tn x p = some p1) :
    1 ≤ x ∧ x + 1 < N := by
  obtain ⟨-, hm⟩ := foldlM_some_mem (fun p y => relax_cell src tn x y p) (fun _ => True)
    (fun _ _ _ _ _ => trivial) (col_range N) p p1 trivial h
  obtain ⟨q, q1, -, hq⟩ := hm 1 ((mem_col_range (by omega) hN).2 (by omega))
  have := relax_cell_some_bounds hN hs hq
  exact ⟨this.1, this.2.1⟩

theorem relax_band_some_bounds {N : Nat} {src : Grid} {tn s l : Nat} {p p1 : Grid × List ℚ}
    (h3 : 3 ≤ N) (hN : N < ULONG) (hs : wf_grid N src) (h : relax_band N src tn s l p = some p1) :
    ∀ x ∈ row_range s l, 1 ≤ x ∧ x + 1 < N := by
  obtain ⟨-, hm⟩ := foldlM_some_mem (fun p x => relax_row N src tn x p) (fun _ => True)
    (fun _ _ _ _ _ => trivial) (row_range s l) p p1 trivial h
  intro x hx
  obtain ⟨q, q1, -, hq⟩ := hm x hx
  exact relax_row_some_bounds h3 hN hs hq

theorem relax_phase_some_bounds {N T : Nat} {src : Grid} {order : List Nat}
    {p p1 : Grid × List ℚ} (h3 : 3 ≤ N) (hN : N < ULONG) (hs : wf_grid N src)
    (h : relax_phase N T src order p = some p1) :
    ∀ tn ∈ order, ∀ x ∈ band_rows N T tn, 1 ≤ x ∧ x + 1 < N := by
  obtain ⟨-, hm⟩ := foldlM_some_mem
    (fun p tn => relax_band N src tn (row_calc_band N T tn).1 (row_calc_band N T tn).2 p)
    (fun _ => True) (fun _ _ _ _ _ => trivial) order p p1 trivial h
  intro tn htn
  obtain ⟨q, q1, -, hq⟩ := hm tn htn
  exact relax_band_some_bounds h3 hN hs hq

/-- A compute phase that succeeds relaxes exactly the cells of its bands. -/
theorem relax_phase_relaxed {N T n : Nat} {src : Grid} {order : List Nat}
    {p p1 : Grid × List ℚ} (h3 : 3 ≤ N) (hN : N < ULONG) (hs : wf_grid N src)
    (ho : ∀ tn ∈ order, tn < n) (hp : wf_state N n p)
    (h : relax_phase N T src order p = some p1) :
    relaxed N src (phase_cells N T order) p p1 := by
  have hb := relax_phase_some_bounds h3 hN hs h
  obtain ⟨p2, h2, r2⟩ := relax_phase_spec (T := T) hN hs
    (fun tn htn => ⟨ho tn htn, hb tn htn⟩) p hp
  rw [h] at h2
  cases h2
  exact r2

theorem relax_band_relaxed {N n : Nat} {src : Grid} {tn s l : Nat}
    {p p1 : Grid × List ℚ} (h3 : 3 ≤ N) (hN : N < ULONG) (hs : wf_grid N src)
    (htn : tn < n) (hp : wf_state N n p) (h : relax_band N src tn s l p = some p1) :
    relaxed N src (fun j a b => j = tn ∧ a ∈ row_range s l ∧ 1 ≤ b ∧ b + 1 < N) p p1 := by
  have hb := relax_band_some_bounds h3 hN hs h
  obtain ⟨p2, h2, r2⟩ := relax_band_spec hN hs hb htn p hp
  rw [h] at h2
  cases h2
  exact r2

/-! ## The compute step of the source as a relaxation from `src_of` into `dst_of` -/

theorem foldlM_map_emb {σ τ α : Type} (emb : τ → σ) (f : σ → α → Option σ)
    (g : τ → α → Option τ) (h : ∀ p a, f (emb p) a = (g p a).map emb) (l : List α) :
    ∀ p : τ, l.foldlM f (emb p) = (l.foldlM g p).map emb := by
  induction l with
  | nil => intro p; rfl
  | cons a l ih =>
    intro p
    rw [List.foldlM_cons, List.foldlM_cons, h]
    cases hg : g p a with
    | none => rfl
    | some q => exact ih q

theorem with_dst_self (i : Nat) (m : args) : with_dst i m (dst_of i m, m.largest_difference) = m := by
  unfold with_dst dst_of
  by_cases h : i = 0 <;> simp [h]

theorem with_dst_length (i : Nat) (m : args) (p : Grid × List ℚ) :
    (with_dst i m p).length = m.length := by
  unfold with_dst; by_cases h : i = 0 <;> simp [h]

theorem with_dst_thread_count (i : Nat) (m : args) (p : Grid × List ℚ) :
    (with_dst i m p).thread_count = m.thread_count := by
  unfold with_dst; by_cases h : i = 0 <;> simp [h]

theorem with_dst_src (i : Nat) (m : args) (p : Grid × List ℚ) :
    src_of i (with_dst i m p) = src_of i m := by
  unfold with_dst src_of; by_cases h : i = 0 <;> simp [h]

theorem with_dst_dst (i : Nat) (m : args) (p : Grid × List ℚ) :
    dst_of i (with_dst i m p) = p.1 := by
  unfold with_dst dst_of; by_cases h : i = 0 <;> simp [h]

theorem with_dst_ld (i : Nat) (m : args) (p : Grid × List ℚ) :
    (with_dst i m p).largest_difference = p.2 := by
  unfold with_dst; by_cases h : i = 0 <;> simp [h]

theorem with_dst_with_dst (i : Nat) (m : args) (p q : Grid × List ℚ) :
    with_dst i (with_dst i m p) q = with_dst i m q := by
  unfold with_dst; by_cases h : i = 0 <;> simp [h]

theorem relax_cell_arr_eq (m : args) (tn x y : Nat) (p : Grid × List ℚ) :
    relax_cell_arr (with_dst 0 m p) tn x y = (relax_cell m.arr2 tn x y p).map (with_dst 0 m) := by
  unfold relax_cell_arr relax_cell with_dst
  simp only [if_true, Option.bind_eq_bind]
  cases readCell m.arr2 (x + 1) y <;> simp only [Option.none_bind, Option.some_bind, Option.map_none']
  cases readCell m.arr2 (usub x 1) y <;> simp only [Option.none_bind, Option.some_bind, Option.map_none']
  cases readCell m.arr2 x (y + 1) <;> simp only [Option.none_bind, Option.some_bind, Option.map_none']
  cases readCell m.arr2 x (y - 1) <;> simp only [Option.none_bind, Option.some_bind, Option.map_none']
  rename_i a b c d
  cases writeCell p.1 x y ((a + b + c + d) / 4) <;> simp only [Option.none_bind, Option.some_bind, Option.map_none']
  rename_i g
  cases readCell g x y <;> simp only [Option.none_bind, Option.some_bind, Option.map_none']
  cases readCell m.arr2 x y <;> simp only [Option.none_bind, Option.some_bind, Option.map_none']
  cases p.2[tn]? <;> simp only [Option.none_bind, Option.some_bind, Option.map_none']
  rename_i n o cur
  by_cases hc : |n - o| > cur <;> simp [hc]

theorem relax_cell_arr2_eq (m : args) (tn x y : Nat) (p : Grid × List ℚ) :
    relax_cell_arr2 (with_dst 1 m p) tn x y = (relax_cell m.arr tn x y p).map (with_dst 1 m) := by
  unfold relax_cell_arr2 relax_cell with_dst
  simp only [one_ne_zero, if_false, Option.bind_eq_bind]
  cases readCell m.arr (x + 1) y <;> simp only [Option.none_bind, Option.some_bind, Option.map_none']
  cases readCell m.arr (usub x 1) y <;> simp only [Option.none_bind, Option.some_bind, Option.map_none']
  cases readCell m.arr x (y + 1) <;> simp only [Option.none_bind, Option.some_bind, Option.map_none']
  cases readCell m.arr x (y - 1) <;> simp only [Option.none_bind, Option.some_bind, Option.map_none']
  rename_i a b c d
  cases writeCell p.1 x y ((a + b + c + d) / 4) <;> simp only [Option.none_bind, Option.some_bind, Option.map_none']
  rename_i g
  cases readCell m.arr x y <;> cases readCell g x y <;>
    simp only [Option.none_bind, Option.some_bind, Option.map_none']
  cases p.2[tn]? <;> simp only [Option.none_bind, Option.some_bind, Option.map_none']
  rename_i o n cur
  rw [abs_sub_comm o n]
  by_cases hc : |n - o| > cur <;> simp [hc]

theorem compute_step_eq (m : args) (i tn s l : Nat) :
    compute_step m i tn s l =
      (relax_band m.length (src_of i m) tn s l (dst_of i m, m.largest_difference)).map
        (with_dst i m) := by
  by_cases hi : i = 0
  · subst hi
    have h := foldlM_map_emb (with_dst 0 m)
      (fun m1 x => (col_range m1.length).foldlM (fun m2 y => relax_cell_arr m2 tn x y) m1)
      (fun p x => relax_row m.length m.arr2 tn x p)
      (fun p x => by
        simp only [with_dst_length]
        exact foldlM_map_emb (with_dst 0 m) (fun m2 y => relax_cell_arr m2 tn x y)
          (fun p y => relax_cell m.arr2 tn x y p)
          (fun p y => relax_cell_arr_eq m tn x y p) (col_range m.length) p)
      (row_range s l) (dst_of 0 m, m.largest_difference)
    rw [with_dst_self] at h
    unfold compute_step relax_band
    simp only [if_true]
    exact h
  · have hw : with_dst i m = with_dst 1 m := by
      funext p; unfold with_dst; simp [hi]
    have hsrc : src_of i m = m.arr := by unfold src_of; simp [hi]
    have hdst : dst_of i m = dst_of 1 m := by unfold dst_of; simp [hi]
    have h := foldlM_map_emb (with_dst 1 m)
      (fun m1 x => (col_range m1.length).foldlM (fun m2 y => relax_cell_arr2 m2 tn x y) m1)
      (fun p x => relax_row m.length m.arr tn x p)
      (fun p x => by
        simp only [with_dst_length]
        exact foldlM_map_emb (with_dst 1 m) (fun m2 y => relax_cell_arr2 m2 tn x y)
          (fun p y => relax_cell m.arr tn x y p)
          (fun p y => relax_cell_arr2_eq m tn x y p) (col_range m.length) p)
      (row_range s l) (dst_of 1 m, m.largest_difference)
    rw [with_dst_self] at h
    unfold compute_step relax_band
    rw [if_neg hi, hw, hsrc, hdst]
    exact h

theorem compute_phase_eq (order : List Nat) (i : Nat) (m : args) :
    compute_phase order i m =
      (relax_phase m.length m.thread_count (src_of i m) order
        (dst_of i m, m.largest_difference)).map (with_dst i m) := by
  have h := foldlM_map_emb (with_dst i m)
    (fun m1 tn => worker_compute m1 i tn)
    (fun p tn => relax_band m.length (src_of i m) tn
      (row_calc_band m.length m.thread_count tn).1 (row_calc_band m.length m.thread_count tn).2 p)
    (fun p tn => by
      show worker_compute (with_dst i m p) i tn = Option.map (with_dst i m)
        (relax_band m.length (src_of i m) tn (row_calc_band m.length m.thread_count tn).1
          (row_calc_band m.length m.thread_count tn).2 p)
      unfold worker_compute
      rw [compute_step_eq]
      simp only [with_dst_length, with_dst_thread_count, with_dst_src, with_dst_dst, with_dst_ld]
      cases relax_band m.length (src_of i m) tn (row_calc_band m.length m.thread_count tn).1
        (row_calc_band m.length m.thread_count tn).2 p with
      | none => rfl
      | some q => simp [with_dst_with_dst])
    order (dst_of i m, m.largest_difference)
  rw [with_dst_self] at h
  unfold compute_phase relax_phase
  exact h

/-! ## The compute step of a worker -/

theorem prefix_le_length (ld : List ℚ) (t : ℚ) :
    prefix_le ld t ld.length ↔ ∀ d ∈ ld, d ≤ t := by
  constructor
  · intro h d hd
    obtain ⟨j, hj, e⟩ := List.getElem_of_mem hd
    exact h j d hj (by rw [List.getElem?_eq_getElem hj, e])
  · intro h j d _ hjd
    exact h d (List.getElem?_mem hjd)

theorem compute_step_src {m m1 : args} {i tn s l : Nat} (h : compute_step m i tn s l = some m1) :
    src_of i m1 = src_of i m := by
  rw [compute_step_eq] at h
  cases hr : relax_band m.length (src_of i m) tn s l (dst_of i m, m.largest_difference) with
  | none => rw [hr] at h; cases h
  | some p =>
    rw [hr] at h
    simp only [Option.map_some', Option.some.injEq] at h
    rw [← h, with_dst_src]

theorem wf_grid_matrix_B (N : Nat) : wf_grid N (matrix_B N) := by
  unfold wf_grid matrix_B
  refine ⟨by simp, ?_⟩
  intro row hrow
  rw [List.mem_map] at hrow
  obtain ⟨r, -, rfl⟩ := hrow
  simp

theorem compute_step_relaxed {m m1 : args} {i tn s l : Nat} (h3 : 3 ≤ m.length)
    (hN : m.length < ULONG) (ha : wf_grid m.length m.arr) (ha2 : wf_grid m.length m.arr2)
    (htn : tn < m.largest_difference.length) (h : compute_step m i tn s l = some m1) :
    m1 = with_dst i m (dst_of i m1, m1.largest_difference) ∧
    relaxed m.length (src_of i m)
      (fun j a b => j = tn ∧ a ∈ row_range s l ∧ 1 ≤ b ∧ b + 1 < m.length)
      (dst_of i m, m.largest_difference) (dst_of i m1, m1.largest_difference) := by
  have hs : wf_grid m.length (src_of i m) := by
    unfold src_of; by_cases hi : i = 0 <;> simp [hi, ha, ha2]
  have hd : wf_grid m.length (dst_of i m) := by
    unfold dst_of; by_cases hi : i = 0 <;> simp [hi, ha, ha2]
  rw [compute_step_eq] at h
  cases hr : relax_band m.length (src_of i m) tn s l (dst_of i m, m.largest_difference) with
  | none => rw [hr] at h; cases h
  | some p =>
    rw [hr] at h
    simp only [Option.map_some', Option.some.injEq] at h
    have r := relax_band_relaxed (n := m.largest_difference.length) h3 hN hs htn ⟨hd, rfl⟩ hr
    rw [← h, with_dst_dst, with_dst_ld]
    exact ⟨rfl, r⟩

theorem compute_step_total {m : args} {i tn s l : Nat}
    (hN : m.length < ULONG) (ha : wf_grid m.length m.arr) (ha2 : wf_grid m.length m.arr2)
    (htn : tn < m.largest_difference.length) (hs1 : 1 ≤ s) (hl : l < m.length) :
    ∃ m1, compute_step m i tn s l = some m1 := by
  have hs : wf_grid m.length (src_of i m) := by
    unfold src_of; by_cases hi : i = 0 <;> simp [hi, ha, ha2]
  have hd : wf_grid m.length (dst_of i m) := by
    unfold dst_of; by_cases hi : i = 0 <;> simp [hi, ha, ha2]
  obtain ⟨p, hp, -⟩ := @relax_band_spec m.length m.largest_difference.length (src_of i m) tn s l
    hN hs (fun x hx => by rw [mem_row_range] at hx; omega) htn
    (dst_of i m, m.largest_difference) ⟨hd, rfl⟩
  exact ⟨with_dst i m p, by rw [compute_step_eq, hp]; rfl⟩


theorem coordinator_spec (m : args) (i : Nat)
    (hlen : m.largest_difference.length = m.thread_count) :
    ∃ m1, coordinator m i = some m1 ∧
      (m1.stop = 1 ↔ ∀ d ∈ m.largest_difference, d ≤ m.minimal_difference) ∧
      ((¬ ∀ d ∈ m.largest_difference, d ≤ m.minimal_difference) → m1.stop = 0) ∧
      m1.final_array = i ∧
      m1.largest_difference = List.replicate m.thread_count 0 ∧
      m1.arr = m.arr ∧ m1.arr2 = m.arr2 ∧ m1.length = m.length ∧
      m1.minimal_difference = m.minimal_difference ∧ m1.available = m.available ∧
      m1.thread_count = m.thread_count := by
  obtain ⟨m1, h1, hl, hld, hs1, hs0, ha, ha2, hlen1, hmd, hf, hav, htc⟩ :=
    coordinator_fold { m with stop := 1, final_array := i } m.thread_count (by simp [hlen])
  simp only at hl hld hs1 hs0 ha ha2 hf hlen1 hmd hav htc
  rw [← hlen, prefix_le_length] at hs1 hs0
  refine ⟨m1, h1, ?_, hs0, hf, ?_, ha, ha2, hlen1, hmd, hav, htc⟩
  · constructor
    · intro hstop
      by_contra hall
      rw [hs0 hall] at hstop
      exact absurd hstop (by decide)
    · exact hs1
  · apply List.ext_getElem?
    intro j
    rw [hld j, List.getElem?_replicate]
    by_cases hj : j < m.thread_count
    · simp [hj]
    · rw [if_neg hj, if_neg hj]
      exact List.getElem?_eq_none (by omega)

/-! ## One compute phase of all workers -/

theorem accepted.lt {N T : Nat} (h : accepted N T) : N < ULONG := by
  have := h.fits
  unfold ULONG at *; omega

theorem wf_src_of {m : args} (h : wf_args m) (i : Nat) : wf_grid m.length (src_of i m) := by
  unfold src_of; by_cases hi : i = 0 <;> simp [hi, h.arr, h.arr2]

theorem wf_dst_of {m : args} (h : wf_args m) (i : Nat) : wf_grid m.length (dst_of i m) := by
  unfold dst_of; by_cases hi : i = 0 <;> simp [hi, h.arr, h.arr2]

theorem compute_phase_relaxed {m m1 : args} {order : List Nat} {i : Nat}
    (hacc : accepted m.length m.thread_count) (hm : wf_args m)
    (ho : ∀ tn ∈ order, tn < m.thread_count) (h : compute_phase order i m = some m1) :
    m1 = with_dst i m (dst_of i m1, m1.largest_difference) ∧
    relaxed m.length (src_of i m) (phase_cells m.length m.thread_count order)
      (dst_of i m, m.largest_difference) (dst_of i m1, m1.largest_difference) ∧
    ∀ tn ∈ order, ∀ x ∈ band_rows m.length m.thread_count tn, 1 ≤ x ∧ x + 1 < m.length := by
  rw [compute_phase_eq] at h
  cases hr : relax_phase m.length m.thread_count (src_of i m) order
      (dst_of i m, m.largest_difference) with
  | none => rw [hr] at h; cases h
  | some p =>
    rw [hr] at h
    simp only [Option.map_some', Option.some.injEq] at h
    have r := relax_phase_relaxed (n := m.thread_count) hacc.three hacc.lt (wf_src_of hm i) ho
      ⟨wf_dst_of hm i, hm.ld⟩ hr
    have hb := relax_phase_some_bounds hacc.three hacc.lt (wf_src_of hm i) hr
    rw [← h, with_dst_dst, with_dst_ld]
    exact ⟨rfl, r, hb⟩

theorem compute_phase_total {m : args} {order : List Nat} {i : Nat}
    (hacc : accepted m.length m.thread_count) (hm : wf_args m)
    (ho : ∀ tn ∈ order, tn < m.thread_count)
    (hb : ∀ tn ∈ order, ∀ x ∈ band_rows m.length m.thread_count tn, 1 ≤ x ∧ x + 1 < m.length) :
    ∃ m1, compute_phase order i m = some m1 := by
  obtain ⟨p, hp, -⟩ := relax_phase_spec (T := m.thread_count) (n := m.thread_count) hacc.lt
    (wf_src_of hm i) (fun tn htn => ⟨ho tn htn, hb tn htn⟩)
    (dst_of i m, m.largest_difference) ⟨wf_dst_of hm i, hm.ld⟩
  exact ⟨with_dst i m p, by rw [compute_phase_eq, hp]; rfl⟩

theorem mem_band_rows_exact {N T j x : Nat} (hacc : accepted N T) (hg : exact_split N T)
    (hj : j < T) : x ∈ band_rows N T j ↔ spec_start_row N T j ≤ x ∧ x < spec_start_row N T (j + 1) := by
  unfold band_rows
  rw [row_calc_band_exact N T j hacc.lt hacc.le hj hg, mem_row_range]

theorem band_rows_interior {N T j x : Nat} (hacc : accepted N T) (hg : exact_split N T)
    (hj : j < T) (hx : x ∈ band_rows N T j) : 1 ≤ x ∧ x + 1 < N := by
  rw [mem_band_rows_exact hacc hg hj] at hx
  have h0 : spec_start_row N T 0 ≤ spec_start_row N T j := spec_start_row_le_of_le N T (Nat.zero_le j)
  have h1 : spec_start_row N T (j + 1) ≤ spec_start_row N T T := spec_start_row_le_of_le N T hj
  rw [spec_start_row_zero] at h0
  rw [spec_start_row_last N T hacc.three hacc.one] at h1
  have := hacc.three
  omega

theorem phase_cells_exact {N T : Nat} {order : List Nat} (hacc : accepted N T)
    (hg : exact_split N T) (ho : ∀ tn, tn ∈ order ↔ tn < T) (a b : Nat) :
    (∃ j, phase_cells N T order j a b) ↔ interior N a b := by
  unfold phase_cells interior
  constructor
  · rintro ⟨j, hj, ha, hb⟩
    have := band_rows_interior hacc hg ((ho j).1 hj) ha
    exact ⟨this.1, this.2, hb⟩
  · rintro ⟨h1, h2, hb⟩
    obtain ⟨j, hj, hc⟩ := spec_start_row_cover N T a T h1 (by
      rw [spec_start_row_last N T hacc.three hacc.one]; omega)
    exact ⟨j, (ho j).2 hj, (mem_band_rows_exact hacc hg hj).2 hc, hb⟩

/-- In a configuration without a section above the remainder, the compute phase returns and
relaxes exactly the interior cells. -/
theorem compute_phase_spec {m : args} {order : List Nat} (i : Nat)
    (hacc : accepted m.length m.thread_count) (hg : exact_split m.length m.thread_count)
    (hm : wf_args m) (ho : ∀ tn, tn ∈ order ↔ tn < m.thread_count) :
    ∃ m1, compute_phase order i m = some m1 ∧
      m1 = with_dst i m (dst_of i m1, m1.largest_difference) ∧
      wf_grid m.length (dst_of i m1) ∧
      m1.largest_difference.length = m.thread_count ∧
      (∀ a b, interior m.length a b →
        cell (dst_of i m1) a b = neighbour_mean (src_of i m) a b) ∧
      (∀ a b, ¬ interior m.length a b → cell (dst_of i m1) a b = cell (dst_of i m) a b) ∧
      ∀ t, (∀ d ∈ m1.largest_difference, d ≤ t) ↔
        (∀ d ∈ m.largest_difference, d ≤ t) ∧
          ∀ a b, interior m.length a b → change (src_of i m) a b ≤ t := by
  have ho1 : ∀ tn ∈ order, tn < m.thread_count := fun tn h => (ho tn).1 h
  obtain ⟨m1, h1⟩ := compute_phase_total (i := i) hacc hm ho1
    (fun tn htn x hx => band_rows_interior hacc hg (ho1 tn htn) hx)
  obtain ⟨e, r, -⟩ := compute_phase_relaxed hacc hm ho1 h1
  have hlen : m1.largest_difference.length = m.largest_difference.length := r.ld_len
  refine ⟨m1, h1, e, r.wf, by rw [hlen, hm.ld], ?_, ?_, ?_⟩
  · intro a b hab
    obtain ⟨j, hj⟩ := (phase_cells_exact hacc hg ho a b).2 hab
    exact r.cell_in j a b hj
  · intro a b hab
    exact r.cell_out a b (fun j hj => hab ((phase_cells_exact hacc hg ho a b).1 ⟨j, hj⟩))
  · intro t
    constructor
    · intro h
      constructor
      · intro d hd
        obtain ⟨j, hj, e⟩ := List.getElem_of_mem hd
        obtain ⟨d1, hd1, hle⟩ := r.ld_le j d (by
          show m.largest_difference[j]? = some d
          rw [List.getElem?_eq_getElem hj, e])
        exact ((hle t).1 (h d1 (List.getElem?_mem hd1))).1
      · intro a b hab
        obtain ⟨j, hj⟩ := (phase_cells_exact hacc hg ho a b).2 hab
        have hjT : j < m.largest_difference.length := by rw [hm.ld]; exact (ho j).1 hj.1
        obtain ⟨d1, hd1, hle⟩ := r.ld_le j (m.largest_difference[j])
          (List.getElem?_eq_getElem hjT)
        exact ((hle t).1 (h d1 (List.getElem?_mem hd1))).2 a b hj
    · rintro ⟨h1, h2⟩ d hd
      obtain ⟨j, hj, e⟩ := List.getElem_of_mem hd
      have hjT : j < m.largest_difference.length := by rw [← hlen]; exact hj
      obtain ⟨d1, hd1, hle⟩ := r.ld_le j (m.largest_difference[j])
        (List.getElem?_eq_getElem hjT)
      have hdd : d1 = d := by
        have : m1.largest_difference[j]? = some d := by rw [List.getElem?_eq_getElem hj, e]
        have hd1 : m1.largest_difference[j]? = some d1 := hd1
        rw [this] at hd1
        exact (Option.some.inj hd1).symm
      rw [← hdd, hle t]
      exact ⟨h1 _ (List.getElem_mem _), fun a b hab =>
        h2 a b ((phase_cells_exact hacc hg ho a b).1 ⟨j, hab⟩)⟩

/-! ## The decision phase and one whole iteration -/

theorem start_row_eq_one_iff {N T tn : Nat} (hacc : accepted N T) (hg : exact_split N T)
    (htn : tn < T) : (row_calc_band N T tn).1 = 1 ↔ tn = 0 := by
  rw [row_calc_band_exact N T tn hacc.lt hacc.le htn hg]
  have hb : 1 ≤ (N - 2) / T := (Nat.one_le_div_iff (by have := hacc.one; omega)).2 hacc.le
  show spec_start_row N T tn = 1 ↔ tn = 0
  unfold spec_start_row
  constructor
  · intro h
    by_contra h0
    have : tn * 1 ≤ tn * ((N - 2) / T) := Nat.mul_le_mul_left tn hb
    omega
  · intro h
    subst h
    simp

theorem decide_phase_not_mem {N T : Nat} (hacc : accepted N T) (hg : exact_split N T) (i : Nat) :
    ∀ (order : List Nat) (m : args), m.length = N → m.thread_count = T →
      (∀ tn ∈ order, tn < T) → 0 ∉ order → decide_phase order i m = some m := by
  intro order
  induction order with
  | nil => intro m _ _ _ _; rfl
  | cons a l ih =>
    intro m hN hT ho h0
    have ha : a < T := ho a (List.mem_cons_self a l)
    have ha0 : a ≠ 0 := fun h => h0 (by rw [h]; exact List.mem_cons_self 0 l)
    have hw : worker_decide m i a = some m := by
      unfold worker_decide
      rw [hN, hT, if_neg (fun h => ha0 ((start_row_eq_one_iff hacc hg ha).1 h))]
    unfold decide_phase
    rw [List.foldlM_cons, hw]
    exact ih m hN hT (fun tn h => ho tn (List.mem_cons_of_mem a h))
      (fun h => h0 (List.mem_cons_of_mem a h))

theorem decide_phase_mem {N T : Nat} (hacc : accepted N T) (hg : exact_split N T) (i : Nat) :
    ∀ (order : List Nat) (m : args), m.length = N → m.thread_count = T →
      m.largest_difference.length = T →
      (∀ tn ∈ order, tn < T) → order.Nodup → 0 ∈ order →
      decide_phase order i m = coordinator m i := by
  intro order
  induction order with
  | nil => intro m _ _ _ _ _ h0; cases h0
  | cons a l ih =>
    intro m hN hT hld ho hnd h0
    have ha : a < T := ho a (List.mem_cons_self a l)
    rw [List.nodup_cons] at hnd
    by_cases ha0 : a = 0
    · subst ha0
      have hw : worker_decide m i 0 = coordinator m i := by
        unfold worker_decide
        rw [hN, hT, if_pos ((start_row_eq_one_iff hacc hg ha).2 rfl)]
      obtain ⟨m1, h1, -, -, -, -, -, -, hl1, -, -, ht1⟩ := coordinator_spec m i (by rw [hld, hT])
      unfold decide_phase
      rw [List.foldlM_cons, hw, h1]
      exact decide_phase_not_mem hacc hg i l m1 (by rw [hl1, hN]) (by rw [ht1, hT])
        (fun tn h => ho tn (List.mem_cons_of_mem 0 h)) hnd.1
    · have hw : worker_decide m i a = some m := by
        unfold worker_decide
        rw [hN, hT, if_neg (fun h => ha0 ((start_row_eq_one_iff hacc hg ha).1 h))]
      have h0l : 0 ∈ l := by
        rcases List.mem_cons.1 h0 with h | h
        · exact absurd h.symm ha0
        · exact h
      unfold decide_phase
      rw [List.foldlM_cons, hw]
      exact ih m hN hT hld (fun tn h => ho tn (List.mem_cons_of_mem a h)) hnd.2 h0l

theorem perm_range_mem {T : Nat} {order : List Nat} (ho : order.Perm (List.range T)) (tn : Nat) :
    tn ∈ order ↔ tn < T := by
  rw [ho.mem_iff, List.mem_range]

theorem perm_range_nodup {T : Nat} {order : List Nat} (ho : order.Perm (List.range T)) :
    order.Nodup :=
  ho.nodup_iff.2 (List.nodup_range T)

/-- In an accepted configuration without a section above the remainder, one iteration returns
and is one relaxation of all interior cells followed by the decision of the coordinator. -/
theorem iteration_spec {m : args} {order : List Nat} (i : Nat)
    (hacc : accepted m.length m.thread_count) (hg : exact_split m.length m.thread_count)
    (hm : wf_args m) (ho : order.Perm (List.range m.thread_count)) :
    ∃ m2, iteration order i m = some m2 ∧ iterated i m m2 := by
  obtain ⟨m1, h1, e1, hwf1, hlen1, hin, hout, hle⟩ :=
    compute_phase_spec i hacc hg hm (perm_range_mem ho)
  have hN1 : m1.length = m.length := by rw [e1, with_dst_length]
  have hT1 : m1.thread_count = m.thread_count := by rw [e1, with_dst_thread_count]
  have hsrc1 : src_of i m1 = src_of i m := by rw [e1, with_dst_src]
  have hmd1 : m1.minimal_difference = m.minimal_difference := by
    rw [e1]; unfold with_dst; by_cases h : i = 0 <;> simp [h]
  have hav1 : m1.available = m.available := by
    rw [e1]; unfold with_dst; by_cases h : i = 0 <;> simp [h]
  have hd : decide_phase order i m1 = coordinator m1 i :=
    decide_phase_mem hacc hg i order m1 hN1 hT1 hlen1
      (fun tn h => (perm_range_mem ho tn).1 h) (perm_range_nodup ho)
      ((perm_range_mem ho 0).2 hacc.one)
  obtain ⟨m2, h2, hs1, hs0, hf, hld, ha, ha2, hl2, hmd2, hav2, ht2⟩ :=
    coordinator_spec m1 i (by rw [hlen1, hT1])
  have hsrc2 : src_of i m2 = src_of i m1 := by
    unfold src_of; by_cases h : i = 0 <;> simp [h, ha, ha2]
  have hdst2 : dst_of i m2 = dst_of i m1 := by
    unfold dst_of; by_cases h : i = 0 <;> simp [h, ha, ha2]
  have hwfs : wf_grid m.length (src_of i m2) := by
    rw [hsrc2, hsrc1]; exact wf_src_of hm i
  have hwfd : wf_grid m.length (dst_of i m2) := by rw [hdst2]; exact hwf1
  refine ⟨m2, ?_, ?_⟩
  · unfold iteration
    rw [h1]
    show decide_phase order i m1 = some m2
    rw [hd, h2]
  · constructor
    · rw [hsrc2, hsrc1]
    · constructor
      · rw [hl2, hN1]
        unfold src_of at hwfs
        unfold dst_of at hwfd
        by_cases h : i = 0
        · simp only [h, if_true] at hwfs hwfd; exact hwfd
        · simp only [h, if_false] at hwfs hwfd; exact hwfs
      · rw [hl2, hN1]
        unfold src_of at hwfs
        unfold dst_of at hwfd
        by_cases h : i = 0
        · simp only [h, if_true] at hwfs hwfd; exact hwfs
        · simp only [h, if_false] at hwfs hwfd; exact hwfd
      · rw [hld, ht2]; simp
    · rw [hl2, hN1]
    · rw [ht2, hT1]
    · rw [hmd2, hmd1]
    · rw [hav2, hav1]
    · intro a b hab; rw [hdst2]; exact hin a b hab
    · intro a b hab; rw [hdst2]; exact hout a b hab
    · rw [hld, hT1]
    · exact hf
    · rw [hs1, hmd1]; exact hle _
    · by_cases hall : ∀ d ∈ m1.largest_difference, d ≤ m1.minimal_difference
      · exact Or.inl (hs1.2 hall)
      · exact Or.inr (hs0 hall)

/-! ## One worker against two workers -/

theorem exact_split_one (N : Nat) : exact_split N 1 := by
  unfold exact_split; left; exact Nat.mod_one _

theorem exact_split_two (N : Nat) : exact_split N 2 := by
  unfold exact_split; omega

theorem iterated_src_dst {i : Nat} {m1 m2 m1' m2' : args} {N : Nat}
    (hs : src_of i m1 = src_of i m2) (hd : dst_of i m1 = dst_of i m2)
    (hN1 : m1.length = N) (hN2 : m2.length = N)
    (h1 : iterated i m1 m1') (h2 : iterated i m2 m2') :
    src_of i m1' = src_of i m2' ∧ dst_of i m1' = dst_of i m2' := by
  refine ⟨by rw [h1.src, h2.src, hs], ?_⟩
  have w1 := wf_dst_of h1.wf i
  have w2 := wf_dst_of h2.wf i
  rw [h1.length, hN1] at w1
  rw [h2.length, hN2] at w2
  apply grid_ext w1 w2
  intro x y _ _
  by_cases hin : interior N x y
  · rw [h1.cell_in x y (by rw [hN1]; exact hin), h2.cell_in x y (by rw [hN2]; exact hin), hs]
  · rw [h1.cell_out x y (by rw [hN1]; exact hin), h2.cell_out x y (by rw [hN2]; exact hin), hd]

theorem arr_eq_of_src_dst {i : Nat} {m1 m2 : args}
    (hs : src_of i m1 = src_of i m2) (hd : dst_of i m1 = dst_of i m2) :
    m1.arr = m2.arr ∧ m1.arr2 = m2.arr2 := by
  unfold src_of at hs
  unfold dst_of at hd
  by_cases h : i = 0
  · simp only [h, if_true] at hs hd; exact ⟨hd, hs⟩
  · simp only [h, if_false] at hs hd; exact ⟨hs, hd⟩

theorem src_dst_of_arr_eq (i : Nat) {m1 m2 : args} (ha : m1.arr = m2.arr)
    (ha2 : m1.arr2 = m2.arr2) : src_of i m1 = src_of i m2 ∧ dst_of i m1 = dst_of i m2 := by
  unfold src_of dst_of
  by_cases h : i = 0 <;> simp [h, ha, ha2]

theorem sim_1_2_iteration {N : Nat} {m1 m2 : args} {order : List Nat} (i : Nat) (h4 : 4 ≤ N)
    (h8 : 8 * N < ULONG) (hs : sim_1_2 N m1 m2) (ho : order.Perm [0, 1]) :
    ∃ m1' m2', iteration [0] i m1 = some m1' ∧ iteration order i m2 = some m2' ∧
      sim_1_2 N m1' m2' := by
  have hacc1 : accepted m1.length m1.thread_count := by
    rw [hs.len1, hs.tc1]; exact ⟨by omega, h8, le_refl 1, by omega⟩
  have hacc2 : accepted m2.length m2.thread_count := by
    rw [hs.len2, hs.tc2]; exact ⟨by omega, h8, by decide, by omega⟩
  have hwf1 : wf_args m1 :=
    ⟨by rw [hs.len1]; exact hs.wf_arr, by rw [hs.len1]; exact hs.wf_arr2, by rw [hs.ld1, hs.tc1]; rfl⟩
  have hwf2 : wf_args m2 :=
    ⟨by rw [hs.len2, ← hs.arr]; exact hs.wf_arr, by rw [hs.len2, ← hs.arr2]; exact hs.wf_arr2,
      by rw [hs.ld2, hs.tc2]; rfl⟩
  obtain ⟨m1', e1, r1⟩ := @iteration_spec m1 [0] i hacc1
    (by rw [hs.tc1]; exact exact_split_one _) hwf1 (by rw [hs.tc1]; exact List.Perm.refl _)
  obtain ⟨m2', e2, r2⟩ := @iteration_spec m2 order i hacc2
    (by rw [hs.tc2]; exact exact_split_two _) hwf2 (by rw [hs.tc2]; exact ho)
  obtain ⟨hsrc, hdst⟩ := src_dst_of_arr_eq i hs.arr hs.arr2
  obtain ⟨hsrc', hdst'⟩ := iterated_src_dst hsrc hdst hs.len1 hs.len2 r1 r2
  obtain ⟨ha, ha2⟩ := arr_eq_of_src_dst hsrc' hdst'
  have hstop : m1'.stop = 1 ↔ m2'.stop = 1 := by
    rw [r1.stop_iff, r2.stop_iff, hs.ld1, hs.ld2, hs.len1, hs.len2, hsrc, hs.md]
    simp
  refine ⟨m1', m2', e1, e2, ?_⟩
  constructor
  · exact ha
  · exact ha2
  · rw [r1.length, hs.len1]
  · rw [r2.length, hs.len2]
  · rw [r1.minimal_difference, r2.minimal_difference, hs.md]
  · rcases r1.stop_cases with h1 | h1
    · rw [h1, hstop.1 h1]
    · rcases r2.stop_cases with h2 | h2
      · rw [hstop.2 h2, h2]
      · rw [h1, h2]
  · rw [r1.final_array, r2.final_array]
  · rw [r1.thread_count, hs.tc1]
  · rw [r2.thread_count, hs.tc2]
  · rw [r1.ld, hs.tc1]; rfl
  · rw [r2.ld, hs.tc2]; rfl
  · have := r1.wf.arr; rw [r1.length, hs.len1] at this; exact this
  · have := r1.wf.arr2; rw [r1.length, hs.len1] at this; exact this

theorem sim_1_2_loop {N : Nat} (schedule : Nat → List Nat) (h4 : 4 ≤ N) (h8 : 8 * N < ULONG)
    (ho : ∀ k, (schedule k).Perm [0, 1]) :
    ∀ (fuel done i : Nat) (m1 m2 : args), sim_1_2 N m1 m2 →
      (worker_loop schedule fuel done i m2).observe =
        (worker_loop (fun _ => [0]) fuel done i m1).observe ∧
      worker_loop schedule fuel done i m2 ≠ Outcome.fault := by
  intro fuel
  induction fuel with
  | zero =>
    intro done i m1 m2 hs
    unfold worker_loop
    rw [← hs.stop]
    by_cases h : m1.stop = 1
    · simp only [h, if_true, Outcome.observe, hs.final_array, hs.arr, hs.arr2]
      exact ⟨trivial, fun h => by cases h⟩
    · simp only [h, if_false, Outcome.observe]
      exact ⟨trivial, fun h => by cases h⟩
  | succ fuel ih =>
    intro done i m1 m2 hs
    unfold worker_loop
    rw [← hs.stop]
    by_cases h : m1.stop = 1
    · simp only [h, if_true, Outcome.observe, hs.final_array, hs.arr, hs.arr2]
      exact ⟨trivial, fun h => by cases h⟩
    · obtain ⟨m1', m2', e1, e2, hs'⟩ := sim_1_2_iteration i h4 h8 hs (ho done)
      simp only [h, if_false, e1, e2]
      exact ih (done + 1) (flip i) m1' m2' hs'

/-! ## Two successive relaxations -/

theorem src_of_flip (i : Nat) (m : args) : src_of (flip i) m = dst_of i m := by
  unfold src_of dst_of flip
  by_cases h : i = 0 <;> simp [h]

theorem dst_of_flip (i : Nat) (m : args) : dst_of (flip i) m = src_of i m := by
  unfold src_of dst_of flip
  by_cases h : i = 0 <;> simp [h]

theorem weight_nonneg {N x : Nat} (hx : x + 1 ≤ N) : 0 ≤ weight N x := by
  unfold weight
  have h1 : (0 : ℚ) ≤ x := Nat.cast_nonneg x
  have h2 : ((x : ℚ)) + 1 ≤ N := by exact_mod_cast hx
  exact mul_nonneg h1 (by linarith)

theorem weight_le_sq {N x : Nat} (hx : x + 1 ≤ N) : weight N x ≤ (N : ℚ) ^ 2 := by
  unfold weight
  have h1 : (0 : ℚ) ≤ x := Nat.cast_nonneg x
  have h2 : ((x : ℚ)) + 1 ≤ N := by exact_mod_cast hx
  nlinarith

theorem one_le_weight {N x : Nat} (h1 : 1 ≤ x) (hx : x + 2 ≤ N) : 1 ≤ weight N x := by
  unfold weight
  have h1 : (1 : ℚ) ≤ x := by exact_mod_cast h1
  have h2 : ((x : ℚ)) + 2 ≤ N := by exact_mod_cast hx
  nlinarith

theorem weight_neighbours {N a : Nat} (h1 : 1 ≤ a) :
    weight N (a + 1) + weight N (a - 1) + 2 * weight N a = 4 * weight N a - 2 := by
  unfold weight
  rw [Nat.cast_sub h1]
  push_cast
  ring

theorem rho_nonneg {N : Nat} (hN : 1 ≤ N) : 0 ≤ rho N := by
  unfold rho
  have h1 : (1 : ℚ) ≤ N := by exact_mod_cast hN
  have h2 : (1 : ℚ) ≤ 2 * (N : ℚ) ^ 2 := by nlinarith
  have : 1 / (2 * (N : ℚ) ^ 2) ≤ 1 := by
    rw [div_le_one (by linarith)]; exact h2
  linarith

theorem rho_lt_one {N : Nat} (hN : 1 ≤ N) : rho N < 1 := by
  unfold rho
  have h1 : (1 : ℚ) ≤ N := by exact_mod_cast hN
  have : 0 < 1 / (2 * (N : ℚ) ^ 2) := by positivity
  linarith

theorem contraction {N a : Nat} {B : ℚ} (hB : 0 ≤ B) (hN : 1 ≤ N) (ha : a + 1 ≤ N) :
    B * (weight N a - 1 / 2) ≤ rho N * B * weight N a := by
  have hw := weight_le_sq ha
  have h1 : (1 : ℚ) ≤ N := by exact_mod_cast hN
  have hpos : (0 : ℚ) < 2 * (N : ℚ) ^ 2 := by positivity
  have h2 : B * weight N a / (2 * (N : ℚ) ^ 2) ≤ B / 2 := by
    rw [div_le_div_iff₀ hpos (by norm_num)]
    nlinarith [mul_le_mul_of_nonneg_left hw hB]
  have h3 : rho N * B * weight N a = B * weight N a - B * weight N a / (2 * (N : ℚ) ^ 2) := by
    unfold rho; ring
  rw [h3]
  linarith

theorem neighbour_mean_sub_weight (S D : Grid) {N a b : Nat} {B : ℚ} (h1 : 1 ≤ a)
    (hu : |cell S (a + 1) b - cell D (a + 1) b| ≤ B * weight N (a + 1))
    (hd : |cell S (a - 1) b - cell D (a - 1) b| ≤ B * weight N (a - 1))
    (hr : |cell S a (b + 1) - cell D a (b + 1)| ≤ B * weight N a)
    (hl : |cell S a (b - 1) - cell D a (b - 1)| ≤ B * weight N a) :
    |neighbour_mean S a b - neighbour_mean D a b| ≤ B * (weight N a - 1 / 2) := by
  have hs : B * weight N (a + 1) + B * weight N (a - 1) + 2 * (B * weight N a)
      = 4 * (B * weight N a) - 2 * B := by
    have := congrArg (fun z => B * z) (weight_neighbours (N := N) h1)
    simp only at this
    linarith
  rw [abs_le] at *
  unfold neighbour_mean
  constructor <;> linarith [hu.1, hu.2, hd.1, hd.2, hr.1, hr.2, hl.1, hl.2]

/-- When the matrix `S` is the relaxation of `D` and differs from it by at most `B * weight`,
relaxing `S` changes a cell by at most `rho * B * weight`. -/
theorem change_contracts {N : Nat} {S D : Grid} {B : ℚ} (hB : 0 ≤ B)
    (hbd : ∀ x y, x < N → y < N → ¬ interior N x y → cell S x y = cell D x y)
    (hmean : ∀ a b, interior N a b → cell S a b = neighbour_mean D a b)
    (hbound : ∀ a b, interior N a b → change D a b ≤ B * weight N a)
    (a b : Nat) (hab : interior N a b) : change S a b ≤ rho N * B * weight N a := by
  have key : ∀ x y, x < N → y < N → |cell S x y - cell D x y| ≤ B * weight N x := by
    intro x y hx hy
    by_cases hxy : interior N x y
    · rw [hmean x y hxy]; exact hbound x y hxy
    · rw [hbd x y hx hy hxy, sub_self, abs_zero]
      exact mul_nonneg hB (weight_nonneg (by omega))
  obtain ⟨ha1, ha2, hb1, hb2⟩ := hab
  have h := neighbour_mean_sub_weight S D (N := N) (B := B) (b := b) ha1
    (key _ _ (by omega) (by omega)) (key _ _ (by omega) (by omega))
    (key _ _ (by omega) (by omega)) (key _ _ (by omega) (by omega))
  unfold change
  rw [hmean a b ⟨ha1, ha2, hb1, hb2⟩]
  exact le_trans h (contraction hB (by omega) (by omega))

theorem settling_step {N T : Nat} {t B : ℚ} {i : Nat} {m m1 : args}
    (hs : settling N T t B i m) (r : iterated i m m1) (h3 : 3 ≤ N) :
    settling N T t (rho N * B) (flip i) m1 where
  wf := r.wf
  length := by rw [r.length, hs.length]
  thread_count := by rw [r.thread_count, hs.thread_count]
  md := by rw [r.minimal_difference, hs.md]
  ld := by rw [r.ld, hs.thread_count]
  nonneg := mul_nonneg (rho_nonneg (by omega)) hs.nonneg
  boundary := by
    intro x y hx hy hxy
    rw [dst_of_flip, src_of_flip, r.src, r.cell_out x y (by rw [hs.length]; exact hxy)]
    exact (hs.boundary x y hx hy hxy).symm
  bound := by
    intro a b hab
    rw [src_of_flip]
    have hin : ∀ a b, interior N a b → cell (dst_of i m1) a b = neighbour_mean (src_of i m) a b :=
      fun a b h => r.cell_in a b (by rw [hs.length]; exact h)
    have hout : ∀ x y, x < N → y < N → ¬ interior N x y →
        cell (dst_of i m1) x y = cell (src_of i m) x y := by
      intro x y hx hy hxy
      rw [r.cell_out x y (by rw [hs.length]; exact hxy)]
      exact hs.boundary x y hx hy hxy
    exact change_contracts hs.nonneg hout hin hs.bound a b hab

theorem settling_change_le {N T : Nat} {t B : ℚ} {i : Nat} {m : args}
    (hs : settling N T t B i m) (a b : Nat) (hab : interior N a b) :
    change (src_of i m) a b ≤ B * (N : ℚ) ^ 2 :=
  le_trans (hs.bound a b hab)
    (mul_le_mul_of_nonneg_left (weight_le_sq (by unfold interior at hab; omega)) hs.nonneg)

theorem settling_loop {N T : Nat} {t : ℚ} (schedule : Nat → List Nat) (hacc : accepted N T)
    (hg : exact_split N T) (ht : 0 ≤ t) (ho : ∀ k, (schedule k).Perm (List.range T)) :
    ∀ (n : Nat) (B : ℚ) (i done : Nat) (m : args), settling N T t B i m →
      B * rho N ^ n * (N : ℚ) ^ 2 ≤ t →
      ∃ fuel k m1, worker_loop schedule fuel done i m = Outcome.finished k m1 ∧ m1.stop = 1 := by
  intro n
  induction n with
  | zero =>
    intro B i done m hs hB
    by_cases hstop : m.stop = 1
    · exact ⟨0, done, m, by unfold worker_loop; rw [if_pos hstop], hstop⟩
    · obtain ⟨m1, e1, r⟩ := @iteration_spec m (schedule done) i
        (by rw [hs.length, hs.thread_count]; exact hacc)
        (by rw [hs.length, hs.thread_count]; exact hg) hs.wf
        (by rw [hs.thread_count]; exact ho done)
      have hstop1 : m1.stop = 1 := by
        rw [r.stop_iff, hs.ld, hs.md, hs.length]
        refine ⟨fun d hd => by rw [List.eq_of_mem_replicate hd]; exact ht, ?_⟩
        intro a b hab
        refine le_trans (settling_change_le hs a b hab) ?_
        simpa using hB
      refine ⟨1, done + 1, m1, ?_, hstop1⟩
      unfold worker_loop
      rw [if_neg hstop]
      simp only [e1]
      unfold worker_loop
      rw [if_pos hstop1]
  | succ n ih =>
    intro B i done m hs hB
    by_cases hstop : m.stop = 1
    · exact ⟨0, done, m, by unfold worker_loop; rw [if_pos hstop], hstop⟩
    · obtain ⟨m1, e1, r⟩ := @iteration_spec m (schedule done) i
        (by rw [hs.length, hs.thread_count]; exact hacc)
        (by rw [hs.length, hs.thread_count]; exact hg) hs.wf
        (by rw [hs.thread_count]; exact ho done)
      obtain ⟨fuel, k, m2, e2, h2⟩ := ih (rho N * B) (flip i) (done + 1) m1
        (settling_step hs r hacc.three) (by
          have : rho N * B * rho N ^ n * (N : ℚ) ^ 2 = B * rho N ^ (n + 1) * (N : ℚ) ^ 2 := by
            ring
          rw [this]; exact hB)
      refine ⟨fuel + 1, k, m2, ?_, h2⟩
      unfold worker_loop
      rw [if_neg hstop]
      simp only [e1]
      exact e2

theorem change_le_total {N : Nat} (g : Grid) {a b : Nat} (ha : a < N) (hb : b < N) :
    change g a b ≤ total_change N g := by
  unfold total_change
  have h1 : change g a b ≤ ∑ y in Finset.range N, change g a y :=
    Finset.single_le_sum (f := fun y => change g a y) (fun y _ => abs_nonneg _)
      (Finset.mem_range.2 hb)
  have h2 : (∑ y in Finset.range N, change g a y)
      ≤ ∑ x in Finset.range N, ∑ y in Finset.range N, change g x y :=
    Finset.single_le_sum (f := fun x => ∑ y in Finset.range N, change g x y)
      (fun x _ => Finset.sum_nonneg (fun y _ => abs_nonneg _)) (Finset.mem_range.2 ha)
  exact le_trans h1 h2

theorem total_change_nonneg (N : Nat) (g : Grid) : 0 ≤ total_change N g :=
  Finset.sum_nonneg (fun _ _ => Finset.sum_nonneg (fun _ _ => abs_nonneg _))

theorem exists_pow_le {B r t W : ℚ} (hB : 0 ≤ B) (hW : 0 ≤ W) (hr1 : r < 1)
    (ht : 0 < t) : ∃ n : Nat, B * r ^ n * W ≤ t := by
  by_cases hz : B * W = 0
  · exact ⟨0, by
      have : B * r ^ 0 * W = B * W := by ring
      rw [this, hz]; exact le_of_lt ht⟩
  · have hpos : 0 < B * W := lt_of_le_of_ne (mul_nonneg hB hW) (Ne.symm hz)
    obtain ⟨n, hn⟩ := exists_pow_lt_of_lt_one (div_pos ht hpos) hr1
    refine ⟨n, ?_⟩
    have h1 : r ^ n * (B * W) < t := (lt_div_iff₀ hpos).1 hn
    have : B * r ^ n * W = r ^ n * (B * W) := by ring
    rw [this]; exact le_of_lt h1

/-- In an accepted configuration whose bands are exact, the worker loop started by `main`
with a positive threshold stops after finitely many iterations. -/
theorem exact_split_terminates {N T : Nat} (g : Grid) {t : ℚ} (stop final_array : Nat)
    (schedule : Nat → List Nat) (hacc : accepted N T) (hg : exact_split N T)
    (hwf : wf_grid N g) (ht : 0 < t) (ho : ∀ k, (schedule k).Perm (List.range T)) :
    ∃ fuel k m1, worker_loop schedule fuel 0 0 (start_state N T g t stop final_array)
      = Outcome.finished k m1 ∧ m1.stop = 1 := by
  have hs : settling N T t (total_change N g) 0 (start_state N T g t stop final_array) := by
    constructor
    · exact ⟨hwf, hwf, by simp [start_state]⟩
    · rfl
    · rfl
    · rfl
    · rfl
    · exact total_change_nonneg N g
    · intro x y _ _ _; rfl
    · intro a b hab
      have h1 : change g a b ≤ total_change N g :=
        change_le_total g (by unfold interior at hab; omega) (by unfold interior at hab; omega)
      have h2 : (1 : ℚ) ≤ weight N a := one_le_weight hab.1 (by unfold interior at hab; omega)
      show change g a b ≤ total_change N g * weight N a
      nlinarith [total_change_nonneg N g]
  obtain ⟨n, hn⟩ := exists_pow_le (total_change_nonneg N g) (sq_nonneg (N : ℚ))
    (rho_lt_one (N := N) (by have := hacc.three; omega)) ht
  exact settling_loop schedule hacc hg (le_of_lt ht) ho n _ 0 0 _ hs hn

/-! ## Where the bands are exact they partition the interior rows; the boundary is never
written by an iteration that returns -/

theorem spec_start_row_lt_cut {N T j k : Nat} (hacc : accepted N T) (hjk : j < k) :
    spec_start_row N T j < spec_start_row N T k := by
  have hb : 1 ≤ (N - 2) / T := (Nat.one_le_div_iff (by have := hacc.one; omega)).2 hacc.le
  have h1 : spec_start_row N T j < spec_start_row N T (j + 1) := by
    unfold spec_start_row
    rw [Nat.succ_mul]
    generalize (N - 2) / T = b at *
    generalize j * b = u
    omega
  exact lt_of_lt_of_le h1 (spec_start_row_le_of_le N T hjk)

/-- With exact bands every interior row lies in the band of exactly one section, and the
bands hold interior rows only. -/
theorem bands_partition_of_exact_split {N T : Nat} (hacc : accepted N T)
    (hg : exact_split N T) :
    (∀ x, 1 ≤ x → x ≤ N - 2 → ∃ i, (i < T ∧ x ∈ band_rows N T i) ∧
      ∀ j, j < T ∧ x ∈ band_rows N T j → j = i) ∧
    ∀ i x, i < T → x ∈ band_rows N T i → 1 ≤ x ∧ x ≤ N - 2 := by
  constructor
  · intro x h1 h2
    obtain ⟨i, hi, hc⟩ := spec_start_row_cover N T x T h1 (by
      rw [spec_start_row_last N T hacc.three hacc.one]; have := hacc.three; omega)
    refine ⟨i, ⟨hi, (mem_band_rows_exact hacc hg hi).2 hc⟩, ?_⟩
    rintro j ⟨hj, hxj⟩
    rw [mem_band_rows_exact hacc hg hj] at hxj
    by_contra hne
    rcases Nat.lt_or_gt_of_ne hne with h | h
    · have := spec_start_row_le_of_le N T (show j + 1 ≤ i from h)
      omega
    · have := spec_start_row_le_of_le N T (show i + 1 ≤ j from h)
      omega
  · intro i x hi hx
    have := band_rows_interior hacc hg hi hx
    omega

theorem coordinator_body_matrices {m m1 : args} {j : Nat} (h : coordinator_body m j = some m1) :
    m1.arr = m.arr ∧ m1.arr2 = m.arr2 := by
  unfold coordinator_body at h
  cases hd : m.largest_difference[j]? with
  | none => simp [hd] at h
  | some d =>
    simp only [hd, Option.bind_eq_bind, Option.some_bind, Option.some.injEq] at h
    rw [← h]
    by_cases hc : d > m.minimal_difference <;> simp [hc]

theorem coordinator_matrices {m m1 : args} {i : Nat} (h : coordinator m i = some m1) :
    m1.arr = m.arr ∧ m1.arr2 = m.arr2 := by
  unfold coordinator at h
  exact (foldlM_some_mem coordinator_body (fun s => s.arr = m.arr ∧ s.arr2 = m.arr2)
    (fun s a s1 hs hsa => by
      obtain ⟨h1, h2⟩ := coordinator_body_matrices hsa
      exact ⟨h1.trans hs.1, h2.trans hs.2⟩)
    (List.range m.thread_count) { m with stop := 1, final_array := i } m1 ⟨rfl, rfl⟩ h).1

theorem decide_phase_matrices {order : List Nat} {m m1 : args} {i : Nat}
    (h : decide_phase order i m = some m1) : m1.arr = m.arr ∧ m1.arr2 = m.arr2 := by
  unfold decide_phase at h
  exact (foldlM_some_mem (fun s tn => worker_decide s i tn)
    (fun s => s.arr = m.arr ∧ s.arr2 = m.arr2)
    (fun s a s1 hs hsa => by
      change worker_decide s i a = some s1 at hsa
      unfold worker_decide at hsa
      by_cases hc : (row_calc_band s.length s.thread_count a).1 = 1
      · rw [if_pos hc] at hsa
        obtain ⟨h1, h2⟩ := coordinator_matrices hsa
        exact ⟨h1.trans hs.1, h2.trans hs.2⟩
      · rw [if_neg hc] at hsa
        cases hsa
        exact hs)
    order m m1 ⟨rfl, rfl⟩ h).1

/-- An iteration that returns has left every cell outside the interior of both matrices as
it was, in every accepted configuration. -/
theorem iteration_boundary {m m2 : args} {order : List Nat} {i : Nat}
    (hacc : accepted m.length m.thread_count) (hm : wf_args m)
    (ho : ∀ tn ∈ order, tn < m.thread_count) (h : iteration order i m = some m2) :
    ∀ x y, ¬ interior m.length x y →
      cell m2.arr x y = cell m.arr x y ∧ cell m2.arr2 x y = cell m.arr2 x y := by
  unfold iteration at h
  cases h1 : compute_phase order i m with
  | none => rw [h1] at h; cases h
  | some m1 =>
    rw [h1] at h
    obtain ⟨e, r, hb⟩ := compute_phase_relaxed hacc hm ho h1
    obtain ⟨ha, ha2⟩ := decide_phase_matrices h
    intro x y hxy
    have hd : cell (dst_of i m1) x y = cell (dst_of i m) x y := by
      apply r.cell_out x y
      rintro j ⟨hj, hx, hy⟩
      have := hb j hj x hx
      exact hxy ⟨this.1, this.2, hy⟩
    have hs : src_of i m1 = src_of i m := by rw [e, with_dst_src]
    rw [ha, ha2]
    unfold dst_of at hd
    unfold src_of at hs
    by_cases h0 : i = 0
    · simp only [h0, if_true] at hd hs
      rw [hs]; exact ⟨hd, rfl⟩
    · simp only [h0, if_false] at hd hs
      rw [hs]; exact ⟨rfl, hd⟩

/-! ## Claiming the sections -/

theorem claim_scan_range' (available : List Nat) (i : Nat) :
    ∀ (n a : Nat), a ≤ i → i < a + n → available[i]? = some 0 →
      (∀ j, a ≤ j → j < i → ∃ v, available[j]? = some v ∧ v ≠ 0) →
      claim_scan available (List.range' a n) = some (i, available.set i 1) := by
  intro n
  induction n with
  | zero => intro a h1 h2; omega
  | succ n ih =>
    intro a h1 h2 h0 hlt
    rw [List.range'_succ]
    unfold claim_scan
    by_cases hai : a = i
    · subst hai
      simp [h0]
    · obtain ⟨v, hv, hv0⟩ := hlt a (le_refl a) (by omega)
      simp only [hv, if_neg hv0]
      exact ih (a + 1) (by omega) (by omega) h0 (fun j hj1 hj2 => hlt j (by omega) hj2)

/-- A claim returns the smallest index whose slot is 0 and sets this slot to 1. -/
theorem claim_section_spec (m : args) (i : Nat) (hi : i < m.thread_count)
    (h0 : m.available[i]? = some 0)
    (hlt : ∀ j, j < i → ∃ v, m.available[j]? = some v ∧ v ≠ 0) :
    claim_section m = some (i, { m with available := m.available.set i 1 }) := by
  unfold claim_section
  rw [List.range_eq_range', claim_scan_range' m.available i m.thread_count 0 (Nat.zero_le i)
    (by omega) h0 (fun j _ hj => hlt j hj)]
  rfl

theorem set_replicate_append (k n : Nat) :
    (List.replicate k 1 ++ List.replicate (n + 1) 0).set k 1
      = List.replicate (k + 1) 1 ++ List.replicate n (0 : Nat) := by
  apply List.ext_getElem?
  intro j
  simp only [List.getElem?_set, List.getElem?_append, List.getElem?_replicate, List.length_append,
    List.length_replicate]
  by_cases h1 : j < k
  · have : ¬ k = j := by omega
    have h2 : j < k + 1 := by omega
    simp [h1, this, h2]
  · by_cases h2 : j = k
    · subst h2; simp
    · have h3 : ¬ k = j := fun h => h2 h.symm
      have h4 : ¬ j < k + 1 := by omega
      simp only [h1, h3, h4, if_false, List.length_replicate]
      have : j - k - 1 = j - (k + 1) := by omega
      by_cases h5 : j - k < n + 1
      · have h6 : j - (k + 1) < n := by omega
        simp [h5, h6]
      · have h6 : ¬ j - (k + 1) < n := by omega
        simp [h5, h6]

theorem claim_sections_spec :
    ∀ (n k : Nat) (m : args), m.thread_count = k + n →
      m.available = List.replicate k 1 ++ List.replicate n 0 →
      claim_sections n m = some (List.range' k n,
        { m with available := List.replicate (k + n) 1 }) := by
  intro n
  induction n with
  | zero =>
    intro k m _ hav
    unfold claim_sections
    simp only [List.replicate_zero, List.append_nil] at hav
    simp only [List.range'_zero, add_zero, ← hav]
  | succ n ih =>
    intro k m hT hav
    have hk : m.available[k]? = some 0 := by
      rw [hav, List.getElem?_append_right (by simp)]
      simp
    have hlt : ∀ j, j < k → ∃ v, m.available[j]? = some v ∧ v ≠ 0 := by
      intro j hj
      refine ⟨1, ?_, by decide⟩
      rw [hav, List.getElem?_append_left (by simpa using hj)]
      simp [hj]
    have h1 := claim_section_spec m k (by omega) hk hlt
    unfold claim_sections
    rw [h1]
    simp only
    rw [ih (k + 1) { m with available := m.available.set k 1 } (by simp only; omega)
      (by simp only; rw [hav, set_replicate_append])]
    simp only [Option.map_some', List.range'_succ]
    have : k + 1 + n = k + (n + 1) := by omega
    rw [this]

/-! ## The bands of every accepted configuration -/

/-- In every accepted configuration the band of section `i` starts at `1 + i * slot_width`,
is not empty and ends at most where the next slot starts. -/
theorem row_calc_band_slot {N T i : Nat} (hacc : accepted N T) (hi : i < T) :
    (row_calc_band N T i).1 = 1 + i * slot_width N T ∧
    (row_calc_band N T i).1 < (row_calc_band N T i).2 ∧
    (row_calc_band N T i).2 ≤ 1 + (i + 1) * slot_width N T ∧
    1 ≤ slot_width N T := by
  have hN := hacc.fits
  have hT := hacc.le
  have hR : usub N 2 = N - 2 := usub_eq_sub hacc.lt (by have := hacc.three; omega)
  obtain ⟨h1, h2⟩ := mul_div_facts (N - 2) T i hi
  have hrem : (N - 2) % T < T := Nat.mod_lt _ (by omega)
  have hb : 1 ≤ (N - 2) / T := (Nat.one_le_div_iff (by omega)).2 hT
  unfold row_calc_band slot_width
  rw [hR]
  by_cases hr0 : (N - 2) % T = 0
  · simp only [hr0, if_true]
    generalize (N - 2) / T = b at *
    rw [Nat.succ_mul]
    generalize hu : i * b = u at *
    generalize T * b = w at *
    have hum : umul i b = u := by
      unfold umul; rw [hu]; apply Nat.mod_eq_of_lt; unfold ULONG at *; omega
    rw [hum]
    simp only [uadd]
    unfold ULONG at *
    omega
  · simp only [hr0, if_false]
    rw [Nat.succ_mul, Nat.mul_succ]
    generalize (N - 2) / T = b at *
    generalize (N - 2) % T = r at *
    generalize hu : i * b = u at *
    generalize T * b = w at *
    have hum : umul i b = u := by
      unfold umul; rw [hu]; apply Nat.mod_eq_of_lt; unfold ULONG at *; omega
    rw [hum]
    split_ifs <;> simp only [uadd, usub] at * <;> unfold ULONG at * <;> omega

theorem band_rows_disjoint {N T j k x : Nat} (hacc : accepted N T) (hj : j < T) (hk : k < T)
    (hjk : j ≠ k) (hx : x ∈ band_rows N T j) : x ∉ band_rows N T k := by
  intro hxk
  unfold band_rows at hx hxk
  rw [mem_row_range] at hx hxk
  obtain ⟨sj, -, lj, -⟩ := row_calc_band_slot hacc hj
  obtain ⟨sk, -, lk, -⟩ := row_calc_band_slot hacc hk
  rcases Nat.lt_or_gt_of_ne hjk with h | h
  · have := Nat.mul_le_mul_right (slot_width N T) (show j + 1 ≤ k from h)
    omega
  · have := Nat.mul_le_mul_right (slot_width N T) (show k + 1 ≤ j from h)
    omega

theorem band_rows_ne_nil {N T i : Nat} (hacc : accepted N T) (hi : i < T) :
    (row_calc_band N T i).1 ∈ band_rows N T i := by
  unfold band_rows
  rw [mem_row_range]
  have := (row_calc_band_slot hacc hi).2.1
  omega

/-- In every accepted configuration the band of a section starts at row 1 only for section 0. -/
theorem start_row_eq_one_iff_accepted {N T i : Nat} (hacc : accepted N T) (hi : i < T) :
    (row_calc_band N T i).1 = 1 ↔ i = 0 := by
  obtain ⟨hs, -, -, hw⟩ := row_calc_band_slot hacc hi
  rw [hs]
  constructor
  · intro h
    by_contra h0
    have : i * 1 ≤ i * slot_width N T := Nat.mul_le_mul_left i hw
    omega
  · intro h; subst h; simp

theorem decide_phase_skip {N T : Nat} (hacc : accepted N T) (i : Nat) :
    ∀ (order : List Nat) (m : args), m.length = N → m.thread_count = T →
      (∀ tn ∈ order, tn < T) → 0 ∉ order → decide_phase order i m = some m := by
  intro order
  induction order with
  | nil => intro m _ _ _ _; rfl
  | cons a l ih =>
    intro m hN hT ho h0
    have ha : a < T := ho a (List.mem_cons_self a l)
    have ha0 : a ≠ 0 := fun h => h0 (by rw [h]; exact List.mem_cons_self 0 l)
    have hw : worker_decide m i a = some m := by
      unfold worker_decide
      rw [hN, hT, if_neg (fun h => ha0 ((start_row_eq_one_iff_accepted hacc ha).1 h))]
    unfold decide_phase
    rw [List.foldlM_cons, hw]
    exact ih m hN hT (fun tn h => ho tn (List.mem_cons_of_mem a h))
      (fun h => h0 (List.mem_cons_of_mem a h))

/-- In every accepted configuration the decision phase is one run of the coordinator code, by
the worker of section 0. -/
theorem decide_phase_once {N T : Nat} (hacc : accepted N T) (i : Nat) :
    ∀ (order : List Nat) (m : args), m.length = N → m.thread_count = T →
      m.largest_difference.length = T →
      (∀ tn ∈ order, tn < T) → order.Nodup → 0 ∈ order →
      decide_phase order i m = coordinator m i := by
  intro order
  induction order with
  | nil => intro m _ _ _ _ _ h0; cases h0
  | cons a l ih =>
    intro m hN hT hld ho hnd h0
    have ha : a < T := ho a (List.mem_cons_self a l)
    rw [List.nodup_cons] at hnd
    by_cases ha0 : a = 0
    · subst ha0
      have hw : worker_decide m i 0 = coordinator m i := by
        unfold worker_decide
        rw [hN, hT, if_pos ((start_row_eq_one_iff_accepted hacc ha).2 rfl)]
      obtain ⟨m1, h1, -, -, -, -, -, -, hl1, -, -, ht1⟩ := coordinator_spec m i (by rw [hld, hT])
      unfold decide_phase
      rw [List.foldlM_cons, hw, h1]
      exact decide_phase_skip hacc i l m1 (by rw [hl1, hN]) (by rw [ht1, hT])
        (fun tn h => ho tn (List.mem_cons_of_mem 0 h)) hnd.1
    · have hw : worker_decide m i a = some m := by
        unfold worker_decide
        rw [hN, hT, if_neg (fun h => ha0 ((start_row_eq_one_iff_accepted hacc ha).1 h))]
      have h0l : 0 ∈ l := by
        rcases List.mem_cons.1 h0 with h | h
        · exact absurd h.symm ha0
        · exact h
      unfold decide_phase
      rw [List.foldlM_cons, hw]
      exact ih m hN hT hld (fun tn h => ho tn (List.mem_cons_of_mem a h)) hnd.2 h0l

/-- What `row_calc` computes when the division leaves a remainder: the sections below the
remainder and the sections above it are widened and shifted by their own index, the section
equal to the remainder keeps the base size. -/
theorem row_calc_band_remainder {N T i : Nat} (hacc : accepted N T) (hi : i < T)
    (hr : (N - 2) % T ≠ 0) :
    (i ≠ (N - 2) % T →
      row_calc_band N T i = (1 + i * ((N - 2) / T) + i, 1 + i * ((N - 2) / T) + i + (N - 2) / T + 1)) ∧
    (i = (N - 2) % T →
      row_calc_band N T i =
        (1 + i * ((N - 2) / T) + (N - 2) % T, 1 + i * ((N - 2) / T) + (N - 2) % T + (N - 2) / T)) := by
  have hN := hacc.fits
  have hT := hacc.le
  have hR : usub N 2 = N - 2 := usub_eq_sub hacc.lt (by have := hacc.three; omega)
  obtain ⟨h1, h2⟩ := mul_div_facts (N - 2) T i hi
  have hrem : (N - 2) % T < T := Nat.mod_lt _ (by omega)
  unfold row_calc_band
  rw [hR]
  generalize (N - 2) / T = b at *
  generalize (N - 2) % T = r at *
  generalize hu : i * b = u at *
  generalize T * b = w at *
  have hum : umul i b = u := by
    unfold umul; rw [hu]; apply Nat.mod_eq_of_lt; unfold ULONG at *; omega
  rw [hum]
  constructor
  · intro hne
    split_ifs <;> simp only [uadd, usub, Prod.mk.injEq] at * <;> unfold ULONG at * <;> omega
  · intro he
    split_ifs <;> simp only [uadd, usub, Prod.mk.injEq] at * <;> unfold ULONG at * <;> omega

/-! ## The cells accessed by the compute steps -/

theorem mem_worker_writes {N T i tn : Nat} {c : Loc} :
    c ∈ worker_writes N T i tn ↔
      ∃ x ∈ band_rows N T tn, ∃ y ∈ col_range N, c = (if i = 0 then 0 else 1, x, y) := by
  unfold worker_writes cell_writes
  simp only [List.mem_flatMap]
  constructor
  · rintro ⟨x, hx, y, hy, hc⟩
    refine ⟨x, hx, y, hy, ?_⟩
    by_cases h : i = 0 <;> simp [h] at hc ⊢ <;> exact hc
  · rintro ⟨x, hx, y, hy, hc⟩
    refine ⟨x, hx, y, hy, ?_⟩
    by_cases h : i = 0 <;> simp [h] at hc ⊢ <;> exact hc

theorem mem_worker_reads {N T i tn : Nat} {c : Loc} :
    c ∈ worker_reads N T i tn ↔
      ∃ x ∈ band_rows N T tn, ∃ y ∈ col_range N, c ∈ cell_reads i x y := by
  unfold worker_reads
  simp only [List.mem_flatMap]

/-- A cell of the destination matrix that the loop body at `(x, y)` reads is the cell
`(x, y)` itself. -/
theorem cell_reads_dst {i x y a b : Nat}
    (h : ((if i = 0 then 0 else 1 : Nat), a, b) ∈ cell_reads i x y) : a = x ∧ b = y := by
  unfold cell_reads at h
  by_cases hi : i = 0
  · simp [hi] at h; exact h
  · simp [hi] at h; exact h

/-- In every accepted configuration, a cell written by one worker in a compute step is neither
written nor read by another worker in that step. -/
theorem writes_separate {N T i j k : Nat} (hacc : accepted N T) (hj : j < T) (hk : k < T)
    (hjk : j ≠ k) (c : Loc) (hc : c ∈ worker_writes N T i j) :
    c ∉ worker_writes N T i k ∧ c ∉ worker_reads N T i k := by
  rw [mem_worker_writes] at hc
  obtain ⟨x, hx, y, hy, rfl⟩ := hc
  constructor
  · intro h
    rw [mem_worker_writes] at h
    obtain ⟨x1, hx1, y1, -, e⟩ := h
    simp only [Prod.mk.injEq, true_and] at e
    rw [e.1] at hx
    exact band_rows_disjoint hacc hj hk hjk hx hx1
  · intro h
    rw [mem_worker_reads] at h
    obtain ⟨x1, hx1, y1, -, e⟩ := h
    have := cell_reads_dst e
    rw [this.1] at hx
    exact band_rows_disjoint hacc hj hk hjk hx hx1

/-- With exact bands every cell that a compute step reads or writes lies inside the
matrices. -/
theorem accesses_in_bounds_of_exact_split {N T i tn : Nat} (hacc : accepted N T)
    (hg : exact_split N T) (htn : tn < T) (c : Loc)
    (hc : c ∈ worker_reads N T i tn ∨ c ∈ worker_writes N T i tn) : Loc.in_bounds N c := by
  have hcol : ∀ y, y ∈ col_range N → 1 ≤ y ∧ y + 1 < N := fun y hy =>
    (mem_col_range (by have := hacc.three; omega) hacc.lt).1 hy
  unfold Loc.in_bounds
  rcases hc with hc | hc
  · rw [mem_worker_reads] at hc
    obtain ⟨x, hx, y, hy, hc⟩ := hc
    obtain ⟨hx1, hx2⟩ := band_rows_interior hacc hg htn hx
    obtain ⟨hy1, hy2⟩ := hcol y hy
    have hu : usub x 1 = x - 1 := usub_one hx1 (by have := hacc.lt; omega)
    unfold cell_reads at hc
    rw [hu] at hc
    by_cases hi : i = 0
    · simp only [hi, if_true, List.mem_cons, List.mem_singleton, List.not_mem_nil, or_false] at hc
      rcases hc with h | h | h | h | h | h <;> rw [h] <;> simp only <;> omega
    · simp only [hi, if_false, List.mem_cons, List.mem_singleton, List.not_mem_nil, or_false] at hc
      rcases hc with h | h | h | h | h | h <;> rw [h] <;> simp only <;> omega
  · rw [mem_worker_writes] at hc
    obtain ⟨x, hx, y, hy, rfl⟩ := hc
    obtain ⟨hx1, hx2⟩ := band_rows_interior hacc hg htn hx
    obtain ⟨hy1, hy2⟩ := hcol y hy
    simp only
    omega

/-! ## The scratch value of a worker -/

theorem cell_of_readCell {g : Grid} {x y : Nat} {v : ℚ} (h : readCell g x y = some v) :
    cell g x y = v := by
  unfold cell; rw [h]; rfl

/-- One execution of the inner loop body: the scratch value becomes the larger of its old
value and the difference found at this cell. -/
theorem relax_cell_scratch {src : Grid} {tn x y : Nat} {p p1 : Grid × List ℚ} {d : ℚ}
    (h : relax_cell src tn x y p = some p1) (hd : p.2[tn]? = some d) :
    ∃ d1, p1.2[tn]? = some d1 ∧ d ≤ d1 ∧ |cell p1.1 x y - cell src x y| ≤ d1 ∧
      (d1 = d ∨ d1 = |cell p1.1 x y - cell src x y|) := by
  unfold relax_cell at h
  simp only [Option.bind_eq_bind] at h
  cases ha : readCell src (x + 1) y with
  | none => simp [ha] at h
  | some a =>
  cases hb : readCell src (usub x 1) y with
  | none => simp [ha, hb] at h
  | some b =>
  cases hc : readCell src x (y + 1) with
  | none => simp [ha, hb, hc] at h
  | some c =>
  cases he : readCell src x (y - 1) with
  | none => simp [ha, hb, hc, he] at h
  | some e =>
  cases hw : writeCell p.1 x y ((a + b + c + e) / 4) with
  | none => simp [ha, hb, hc, he, hw] at h
  | some g =>
  cases hn : readCell g x y with
  | none => simp [ha, hb, hc, he, hw, hn] at h
  | some n =>
  cases ho : readCell src x y with
  | none => simp [ha, hb, hc, he, hw, hn, ho] at h
  | some o =>
    simp only [ha, hb, hc, he, hw, hn, ho, hd, Option.some_bind] at h
    have htn : tn < p.2.length := (List.getElem?_eq_some.1 hd).1
    by_cases hgt : |n - o| > d
    · rw [if_pos hgt] at h
      cases h
      simp only [cell_of_readCell hn, cell_of_readCell ho]
      exact ⟨|n - o|, by simp [htn], le_of_lt hgt, le_refl _, Or.inr rfl⟩
    · rw [if_neg hgt] at h
      cases h
      simp only [cell_of_readCell hn, cell_of_readCell ho]
      exact ⟨d, hd, le_refl _, not_lt.1 hgt, Or.inl rfl⟩

theorem relax_cell_arr_scratch {m m1 : args} {tn x y : Nat} {d : ℚ}
    (h : relax_cell_arr m tn x y = some m1) (hd : m.largest_difference[tn]? = some d) :
    ∃ d1, m1.largest_difference[tn]? = some d1 ∧ d ≤ d1 ∧
      |cell m1.arr x y - cell m.arr2 x y| ≤ d1 ∧
      (d1 = d ∨ d1 = |cell m1.arr x y - cell m.arr2 x y|) := by
  have e := relax_cell_arr_eq m tn x y (dst_of 0 m, m.largest_difference)
  rw [with_dst_self] at e
  rw [e] at h
  cases hr : relax_cell m.arr2 tn x y (dst_of 0 m, m.largest_difference) with
  | none => rw [hr] at h; cases h
  | some p =>
    rw [hr] at h
    simp only [Option.map_some', Option.some.injEq] at h
    obtain ⟨d1, h1, h2, h3, h4⟩ := relax_cell_scratch hr hd
    refine ⟨d1, ?_, h2, ?_, ?_⟩
    · rw [← h]; exact h1
    · rw [← h]; exact h3
    · rw [← h]; exact h4

theorem relax_cell_arr2_scratch {m m1 : args} {tn x y : Nat} {d : ℚ}
    (h : relax_cell_arr2 m tn x y = some m1) (hd : m.largest_difference[tn]? = some d) :
    ∃ d1, m1.largest_difference[tn]? = some d1 ∧ d ≤ d1 ∧
      |cell m.arr x y - cell m1.arr2 x y| ≤ d1 ∧
      (d1 = d ∨ d1 = |cell m.arr x y - cell m1.arr2 x y|) := by
  have e := relax_cell_arr2_eq m tn x y (dst_of 1 m, m.largest_difference)
  rw [with_dst_self] at e
  rw [e] at h
  cases hr : relax_cell m.arr tn x y (dst_of 1 m, m.largest_difference) with
  | none => rw [hr] at h; cases h
  | some p =>
    rw [hr] at h
    simp only [Option.map_some', Option.some.injEq] at h
    obtain ⟨d1, h1, h2, h3, h4⟩ := relax_cell_scratch hr hd
    rw [abs_sub_comm] at h3 h4
    refine ⟨d1, ?_, h2, ?_, ?_⟩
    · rw [← h]; exact h1
    · rw [← h]; exact h3
    · rw [← h]; exact h4

/-- After a compute step the scratch value of the worker is at least its old value and at
least the difference at every cell of the band; it is the old value or the difference at
a cell of the band. -/
theorem compute_step_scratch {m m1 : args} {i tn s l : Nat} {d : ℚ} (h3 : 3 ≤ m.length)
    (hN : m.length < ULONG) (ha : wf_grid m.length m.arr) (ha2 : wf_grid m.length m.arr2)
    (hd : m.largest_difference[tn]? = some d) (h : compute_step m i tn s l = some m1) :
    ∃ d1, m1.largest_difference[tn]? = some d1 ∧ d ≤ d1 ∧
      (∀ x y, s ≤ x → x < l → 1 ≤ y → y ≤ m.length - 2 →
        |cell (dst_of i m1) x y - cell (src_of i m) x y| ≤ d1) ∧
      (d1 = d ∨ ∃ x y, s ≤ x ∧ x < l ∧ 1 ≤ y ∧ y ≤ m.length - 2 ∧
        d1 = |cell (dst_of i m1) x y - cell (src_of i m) x y|) := by
  have htn : tn < m.largest_difference.length := (List.getElem?_eq_some.1 hd).1
  obtain ⟨-, r⟩ := compute_step_relaxed h3 hN ha ha2 htn h
  obtain ⟨d1, hd1, hle⟩ := r.ld_le tn d hd
  have hcell : ∀ x y, s ≤ x → x < l → 1 ≤ y → y ≤ m.length - 2 →
      |cell (dst_of i m1) x y - cell (src_of i m) x y| = change (src_of i m) x y := by
    intro x y hx1 hx2 hy1 hy2
    have := r.cell_in tn x y ⟨rfl, mem_row_range.2 ⟨hx1, hx2⟩, hy1, by omega⟩
    simp only at this
    rw [this]; rfl
  have hmax := (hle d1).1 (le_refl d1)
  refine ⟨d1, hd1, hmax.1, ?_, ?_⟩
  · intro x y hx1 hx2 hy1 hy2
    rw [hcell x y hx1 hx2 hy1 hy2]
    exact hmax.2 x y ⟨rfl, mem_row_range.2 ⟨hx1, hx2⟩, hy1, by omega⟩
  · rcases r.ld_attained tn d1 hd1 with h0 | ⟨a, b, ⟨-, hab, hb1, hb2⟩, e⟩
    · left
      have h0 : m.largest_difference[tn]? = some d1 := h0
      rw [hd] at h0
      exact (Option.some.inj h0).symm
    · right
      rw [mem_row_range] at hab
      exact ⟨a, b, hab.1, hab.2, hb1, by omega, by rw [hcell a b hab.1 hab.2 hb1 (by omega)]; exact e⟩

/-- Started from 0 on a band that is not empty, the scratch value after the compute step is
the largest difference over the cells of the band. -/
theorem compute_step_scratch_max {m m1 : args} {i tn s l : Nat} (h3 : 3 ≤ m.length)
    (hN : m.length < ULONG) (ha : wf_grid m.length m.arr) (ha2 : wf_grid m.length m.arr2)
    (hd : m.largest_difference[tn]? = some 0) (hsl : s < l)
    (h : compute_step m i tn s l = some m1) :
    ∃ d1, m1.largest_difference[tn]? = some d1 ∧
      (∀ x y, s ≤ x → x < l → 1 ≤ y → y ≤ m.length - 2 →
        |cell (dst_of i m1) x y - cell (src_of i m) x y| ≤ d1) ∧
      ∃ x y, s ≤ x ∧ x < l ∧ 1 ≤ y ∧ y ≤ m.length - 2 ∧
        d1 = |cell (dst_of i m1) x y - cell (src_of i m) x y| := by
  obtain ⟨d1, h1, h2, h3', h4⟩ := compute_step_scratch h3 hN ha ha2 hd h
  refine ⟨d1, h1, h3', ?_⟩
  rcases h4 with h0 | h4
  · refine ⟨s, 1, le_refl s, hsl, le_refl 1, by omega, ?_⟩
    have hle := h3' s 1 (le_refl s) hsl (le_refl 1) (by omega)
    rw [h0] at hle ⊢
    exact le_antisymm (abs_nonneg _) hle
  · exact h4

/-! ## Runs of the worker loop -/

theorem worker_loop_of_stop (schedule : Nat → List Nat) (fuel done i : Nat) {m : args}
    (h : m.stop = 1) : worker_loop schedule fuel done i m = Outcome.finished done m := by
  unfold worker_loop
  rw [if_pos h]

theorem worker_loop_step (schedule : Nat → List Nat) (fuel done i : Nat) {m m1 : args}
    (h : m.stop ≠ 1) (hit : iteration (schedule done) i m = some m1) :
    worker_loop schedule (fuel + 1) done i m
      = worker_loop schedule fuel (done + 1) (flip i) m1 := by
  conv_lhs => unfold worker_loop
  rw [if_neg h]
  simp only [hit]

/-- More fuel does not change a run that has finished. -/
theorem worker_loop_more_fuel (schedule : Nat → List Nat) :
    ∀ (fuel n done i k : Nat) (m m1 : args),
      worker_loop schedule fuel done i m = Outcome.finished k m1 →
      worker_loop schedule (fuel + n) done i m = Outcome.finished k m1 := by
  intro fuel
  induction fuel with
  | zero =>
    intro n done i k m m1 h
    unfold worker_loop at h
    by_cases hs : m.stop = 1
    · rw [if_pos hs] at h
      rw [worker_loop_of_stop schedule _ done i hs]; exact h
    · rw [if_neg hs] at h; cases h
  | succ fuel ih =>
    intro n done i k m m1 h
    by_cases hs : m.stop = 1
    · rw [worker_loop_of_stop schedule _ done i hs] at h ⊢; exact h
    · cases hit : iteration (schedule done) i m with
      | none =>
        unfold worker_loop at h
        rw [if_neg hs] at h
        simp only [hit] at h
        cases h
      | some m2 =>
        rw [worker_loop_step schedule fuel done i hs hit] at h
        have : fuel + 1 + n = (fuel + n) + 1 := by omega
        rw [this, worker_loop_step schedule (fuel + n) done i hs hit]
        exact ih n (done + 1) (flip i) k m2 m1 h

theorem nth_flag_succ (i n : Nat) : nth_flag i (n + 1) = flip (nth_flag i n) := by
  induction n generalizing i with
  | zero => rfl
  | succ n ih =>
    show nth_flag (flip i) (n + 1) = flip (nth_flag (flip i) n)
    exact ih (flip i)

theorem nth_flag_zero_eq (n : Nat) : nth_flag 0 n = n % 2 := by
  induction n with
  | zero => rfl
  | succ n ih =>
    rw [nth_flag_succ, ih]
    unfold flip
    rcases Nat.mod_two_eq_zero_or_one n with h | h
    · rw [h, if_pos rfl]; omega
    · rw [h, if_neg (by decide)]; omega

/-- A run with exact bands that finishes either found the stop flag set at its start and did
nothing, or ends with an iteration that has set the stop flag. -/
theorem worker_loop_finished {N T : Nat} (schedule : Nat → List Nat) (hacc : accepted N T)
    (hg : exact_split N T) (ho : ∀ k, (schedule k).Perm (List.range T)) :
    ∀ (fuel done i k : Nat) (m m1 : args), wf_args m → m.length = N → m.thread_count = T →
      worker_loop schedule fuel done i m = Outcome.finished k m1 →
      (m.stop = 1 ∧ k = done ∧ m1 = m) ∨
      (m.stop ≠ 1 ∧ done < k ∧ m1.stop = 1 ∧
        ∃ mp, wf_args mp ∧ mp.length = N ∧ mp.thread_count = T ∧
          mp.minimal_difference = m.minimal_difference ∧
          iterated (nth_flag i (k - 1 - done)) mp m1) := by
  intro fuel
  induction fuel with
  | zero =>
    intro done i k m m1 _ _ _ h
    unfold worker_loop at h
    by_cases hs : m.stop = 1
    · rw [if_pos hs] at h
      cases h
      exact Or.inl ⟨hs, rfl, rfl⟩
    · rw [if_neg hs] at h; cases h
  | succ fuel ih =>
    intro done i k m m1 hwf hN hT h
    by_cases hs : m.stop = 1
    · rw [worker_loop_of_stop schedule _ done i hs] at h
      cases h
      exact Or.inl ⟨hs, rfl, rfl⟩
    · obtain ⟨m2, e2, r⟩ := @iteration_spec m (schedule done) i (by rw [hN, hT]; exact hacc)
        (by rw [hN, hT]; exact hg) hwf (by rw [hT]; exact ho done)
      rw [worker_loop_step schedule fuel done i hs e2] at h
      right
      rcases ih (done + 1) (flip i) k m2 m1 r.wf (by rw [r.length, hN])
        (by rw [r.thread_count, hT]) h with ⟨h1, h2, h3⟩ | ⟨h1, h2, h3, mp, h4, h5, h6, h7, h8⟩
      · subst h2 h3
        refine ⟨hs, by omega, h1, m, hwf, hN, hT, rfl, ?_⟩
        have : done + 1 - 1 - done = 0 := by omega
        rw [this]
        exact r
      · refine ⟨hs, by omega, h3, mp, h4, h5, h6, by rw [h7, r.minimal_difference], ?_⟩
        have : k - 1 - done = (k - 1 - (done + 1)) + 1 := by omega
        rw [this]
        exact h8

theorem reported_of_final_array {m : args} {j : Nat} (h : m.final_array = j) :
    reported_matrix m = dst_of j m ∧ other_matrix m = src_of j m := by
  unfold reported_matrix other_matrix dst_of src_of
  rw [h]
  exact ⟨rfl, rfl⟩

/-- What holds of the state left by an iteration that has set the stop flag. -/
theorem iterated_postcondition {j : Nat} {mp m1 : args} (r : iterated j mp m1)
    (hstop : m1.stop = 1) :
    reported_matrix m1 = dst_of j m1 ∧
    ∀ x y, interior mp.length x y →
      cell (reported_matrix m1) x y = neighbour_mean (other_matrix m1) x y ∧
      |cell (reported_matrix m1) x y - cell (other_matrix m1) x y| ≤ mp.minimal_difference := by
  obtain ⟨h1, h2⟩ := reported_of_final_array r.final_array
  refine ⟨h1, ?_⟩
  intro x y hxy
  rw [h1, h2, r.src, r.cell_in x y hxy]
  exact ⟨rfl, (r.stop_iff.1 hstop).2 x y hxy⟩

/-- With exact bands, a run that has performed at least one iteration reports the
destination of its last iteration, whose interior cells are the means of their neighbours in
the other matrix and differ from it by at most the threshold. -/
theorem finished_postcondition {N T : Nat} (schedule : Nat → List Nat) (hacc : accepted N T)
    (hg : exact_split N T) (ho : ∀ k, (schedule k).Perm (List.range T))
    {fuel k : Nat} {m m1 : args} (hwf : wf_args m) (hN : m.length = N)
    (hT : m.thread_count = T) (hs : m.stop ≠ 1)
    (h : worker_loop schedule fuel 0 0 m = Outcome.finished k m1) :
    1 ≤ k ∧ m1.final_array = (k - 1) % 2 ∧
    reported_matrix m1 = dst_of ((k - 1) % 2) m1 ∧
    ∀ x y, interior N x y →
      cell (reported_matrix m1) x y = neighbour_mean (other_matrix m1) x y ∧
      |cell (reported_matrix m1) x y - cell (other_matrix m1) x y| ≤ m.minimal_difference := by
  rcases worker_loop_finished schedule hacc hg ho fuel 0 0 k m m1 hwf hN hT h with
    ⟨h1, -, -⟩ | ⟨-, h2, h3, mp, -, h5, -, h7, r⟩
  · exact absurd h1 hs
  · have hf : nth_flag 0 (k - 1 - 0) = (k - 1) % 2 := by
      rw [Nat.sub_zero, nth_flag_zero_eq]
    rw [hf] at r
    obtain ⟨p1, p2⟩ := iterated_postcondition r h3
    refine ⟨h2, r.final_array, p1, ?_⟩
    intro x y hxy
    rw [← h7]
    exact p2 x y (by rw [h5]; exact hxy)

/-! ## The iterations do not depend on the initial contents of `stop` and `final_array` -/

theorem iterated_same_data {i : Nat} {m n m2 n2 : args} (hmn : same_data m n)
    (r1 : iterated i m m2) (r2 : iterated i n n2) : m2 = n2 := by
  obtain ⟨hs, hd⟩ := src_dst_of_arr_eq i hmn.arr hmn.arr2
  obtain ⟨hs2, hd2⟩ := iterated_src_dst hs hd rfl hmn.length.symm r1 r2
  obtain ⟨ha, ha2⟩ := arr_eq_of_src_dst hs2 hd2
  have hlen : m2.length = n2.length := by rw [r1.length, r2.length, hmn.length]
  have hmd : m2.minimal_difference = n2.minimal_difference := by
    rw [r1.minimal_difference, r2.minimal_difference, hmn.minimal_difference]
  have hav : m2.available = n2.available := by rw [r1.available, r2.available, hmn.available]
  have hld : m2.largest_difference = n2.largest_difference := by
    rw [r1.ld, r2.ld, hmn.thread_count]
  have htc : m2.thread_count = n2.thread_count := by
    rw [r1.thread_count, r2.thread_count, hmn.thread_count]
  have hf : m2.final_array = n2.final_array := by rw [r1.final_array, r2.final_array]
  have hiff : m2.stop = 1 ↔ n2.stop = 1 := by
    rw [r1.stop_iff, r2.stop_iff, hmn.largest_difference, hmn.minimal_difference, hmn.length, hs]
  have hstop : m2.stop = n2.stop := by
    rcases r1.stop_cases with h1 | h1
    · rw [h1, hiff.1 h1]
    · rcases r2.stop_cases with h2 | h2
      · rw [hiff.2 h2, h2]
      · rw [h1, h2]
  cases m2
  cases n2
  simp only at ha ha2 hlen hmd hav hld htc hf hstop
  simp only [args.mk.injEq]
  exact ⟨ha, ha2, hlen, hmd, hstop, hf, hav, hld, htc⟩

/-- With exact bands, two runs whose initial states differ only in `stop` and `final_array`,
neither of them with the stop flag set, are the same. -/
theorem worker_loop_same_data {N T : Nat} (schedule : Nat → List Nat) (hacc : accepted N T)
    (hg : exact_split N T) (ho : ∀ k, (schedule k).Perm (List.range T))
    (fuel done i : Nat) {m n : args} (hmn : same_data m n) (hwf : wf_args m) (hN : m.length = N)
    (hT : m.thread_count = T) (hm : m.stop ≠ 1) (hn : n.stop ≠ 1) :
    worker_loop schedule fuel done i m = worker_loop schedule fuel done i n := by
  have hwfn : wf_args n :=
    ⟨by rw [← hmn.length, ← hmn.arr]; exact hwf.arr, by rw [← hmn.length, ← hmn.arr2]; exact hwf.arr2,
      by rw [← hmn.largest_difference, ← hmn.thread_count]; exact hwf.ld⟩
  cases fuel with
  | zero =>
    unfold worker_loop
    rw [if_neg hm, if_neg hn]
  | succ fuel =>
    obtain ⟨m2, e1, r1⟩ := @iteration_spec m (schedule done) i (by rw [hN, hT]; exact hacc)
      (by rw [hN, hT]; exact hg) hwf (by rw [hT]; exact ho done)
    obtain ⟨n2, e2, r2⟩ := @iteration_spec n (schedule done) i
      (by rw [← hmn.length, ← hmn.thread_count, hN, hT]; exact hacc)
      (by rw [← hmn.length, ← hmn.thread_count, hN, hT]; exact hg) hwfn
      (by rw [← hmn.thread_count, hT]; exact ho done)
    rw [worker_loop_step schedule fuel done i hm e1, worker_loop_step schedule fuel done i hn e2,
      iterated_same_data hmn r1 r2]

/-! ## The order of the workers inside a compute phase does not matter -/

theorem compute_phase_some_eq {m m1 m2 : args} {order1 order2 : List Nat} {i : Nat}
    (hacc : accepted m.length m.thread_count) (hm : wf_args m)
    (ho1 : order1.Perm (List.range m.thread_count))
    (ho2 : order2.Perm (List.range m.thread_count))
    (h1 : compute_phase order1 i m = some m1) (h2 : compute_phase order2 i m = some m2) :
    m1 = m2 := by
  obtain ⟨e1, r1, -⟩ := compute_phase_relaxed hacc hm (fun tn h => (perm_range_mem ho1 tn).1 h) h1
  obtain ⟨e2, r2, -⟩ := compute_phase_relaxed hacc hm (fun tn h => (perm_range_mem ho2 tn).1 h) h2
  have hC : ∀ j a b, phase_cells m.length m.thread_count order1 j a b ↔
      phase_cells m.length m.thread_count order2 j a b := by
    intro j a b
    unfold phase_cells
    rw [perm_range_mem ho1, perm_range_mem ho2]
  have hdst : dst_of i m1 = dst_of i m2 := by
    apply grid_ext r1.wf r2.wf
    intro x y _ _
    by_cases hc : ∃ j, phase_cells m.length m.thread_count order1 j x y
    · obtain ⟨j, hj⟩ := hc
      exact (r1.cell_in j x y hj).trans (r2.cell_in j x y ((hC j x y).1 hj)).symm
    · have hc1 : ∀ j, ¬ phase_cells m.length m.thread_count order1 j x y :=
        fun j hj => hc ⟨j, hj⟩
      have hc2 : ∀ j, ¬ phase_cells m.length m.thread_count order2 j x y :=
        fun j hj => hc ⟨j, (hC j x y).2 hj⟩
      exact (r1.cell_out x y hc1).trans (r2.cell_out x y hc2).symm
  have hld : m1.largest_difference = m2.largest_difference := by
    apply List.ext_getElem?
    intro j
    by_cases hj : j < m.largest_difference.length
    · obtain ⟨d1, hd1, hle1⟩ := r1.ld_le j _ (List.getElem?_eq_getElem hj)
      obtain ⟨d2, hd2, hle2⟩ := r2.ld_le j _ (List.getElem?_eq_getElem hj)
      have hd1 : m1.largest_difference[j]? = some d1 := hd1
      have hd2 : m2.largest_difference[j]? = some d2 := hd2
      have h12 : d1 ≤ d2 := by
        rw [hle1 d2]
        have := (hle2 d2).1 (le_refl d2)
        exact ⟨this.1, fun a b hab => this.2 a b ((hC j a b).1 hab)⟩
      have h21 : d2 ≤ d1 := by
        rw [hle2 d1]
        have := (hle1 d1).1 (le_refl d1)
        exact ⟨this.1, fun a b hab => this.2 a b ((hC j a b).2 hab)⟩
      rw [hd1, hd2, le_antisymm h12 h21]
    · have l1 : m1.largest_difference.length = m.largest_difference.length := r1.ld_len
      have l2 : m2.largest_difference.length = m.largest_difference.length := r2.ld_len
      rw [List.getElem?_eq_none (by omega), List.getElem?_eq_none (by omega)]
  rw [e1, e2, hdst, hld]

/-- In every accepted configuration the compute phase gives the same result, or faults,
whatever the order in which the workers do their compute steps. -/
theorem compute_phase_order_independent {m : args} {order1 order2 : List Nat} (i : Nat)
    (hacc : accepted m.length m.thread_count) (hm : wf_args m)
    (ho1 : order1.Perm (List.range m.thread_count))
    (ho2 : order2.Perm (List.range m.thread_count)) :
    compute_phase order1 i m = compute_phase order2 i m := by
  have key : ∀ (o1 o2 : List Nat), o1.Perm (List.range m.thread_count) →
      o2.Perm (List.range m.thread_count) → ∀ m1, compute_phase o1 i m = some m1 →
      compute_phase o2 i m = some m1 := by
    intro o1 o2 p1 p2 m1 h1
    obtain ⟨-, -, hb⟩ := compute_phase_relaxed hacc hm (fun tn h => (perm_range_mem p1 tn).1 h) h1
    obtain ⟨m2, h2⟩ := compute_phase_total (i := i) hacc hm
      (fun tn h => (perm_range_mem p2 tn).1 h)
      (fun tn h => hb tn ((perm_range_mem p1 tn).2 ((perm_range_mem p2 tn).1 h)))
    rw [h2, compute_phase_some_eq hacc hm p1 p2 h1 h2]
  cases h1 : compute_phase order1 i m with
  | some m1 => exact (key order1 order2 ho1 ho2 m1 h1).symm
  | none =>
    cases h2 : compute_phase order2 i m with
    | none => rfl
    | some m2 =>
      have := key order2 order1 ho2 ho1 m2 h2
      rw [h1] at this
      cases this

/-! ## The run on matrix B of dimension 5 -/

theorem accepted_5_1 : accepted 5 1 := ⟨by decide, by decide, by decide, by decide⟩

theorem scenario_run_24 :
    worker_loop (fun _ => [0]) 24 0 0 (start_state 5 1 (matrix_B 5) (1 / 10000) 0 0)
      = Outcome.finished 24
        { start_state 5 1 (matrix_B 5) (1 / 10000) 1 1 with
          arr := scenario_arr, arr2 := scenario_arr2 } := by
  decide!

/-- Whatever `stop` (other than 1) and `final_array` hold at the start, the run on matrix B of
dimension 5 with one worker stops after exactly 24 iterations in the same state. -/
theorem scenario_run (stop final_array fuel : Nat) (hs : stop ≠ 1) (hf : 24 ≤ fuel) :
    worker_loop (fun _ => [0]) fuel 0 0
        (start_state 5 1 (matrix_B 5) (1 / 10000) stop final_array)
      = Outcome.finished 24
        { start_state 5 1 (matrix_B 5) (1 / 10000) 1 1 with
          arr := scenario_arr, arr2 := scenario_arr2 } := by
  have h1 := worker_loop_same_data (fun _ => [0]) accepted_5_1 (exact_split_one 5)
    (fun _ => List.Perm.refl _) fuel 0 0
    (m := start_state 5 1 (matrix_B 5) (1 / 10000) stop final_array)
    (n := start_state 5 1 (matrix_B 5) (1 / 10000) 0 0)
    ⟨rfl, rfl, rfl, rfl, rfl, rfl, rfl⟩
    ⟨wf_grid_matrix_B 5, wf_grid_matrix_B 5, rfl⟩ rfl rfl hs (by decide)
  rw [h1]
  have h2 := worker_loop_more_fuel (fun _ => [0]) 24 (fuel - 24) 0 0 24 _ _ scenario_run_24
  have : 24 + (fuel - 24) = fuel := by omega
  rw [this] at h2
  exact h2

/-! ## The claims -/

/-! ### C1: partition completeness -/

/-- C1 fails at `length = 6`, `thread_count = 3` (a configuration `main` accepts): the
bands computed by `row_calc` are `[1,3)`, `[3,4)` and `[5,7)`, so interior row 4 lies in no
band and the band of section 2 consists of the rows 5 and 6, both outside the interior rows
`1..4`.  The same happens for `length = 252` with the 3 threads that the automatic thread
count of `main` chooses: row 168 is in no band and the last band ends at row 252. -/
theorem row_calc_bands_6_3 :
    main 0 0 6 3 = main_result.threads_created 3 ∧
    (List.range 3).map (row_calc_band 6 3) = [(1, 3), (3, 4), (5, 7)] ∧
    (∀ i, i < 3 → 4 ∉ band_rows 6 3 i) ∧
    band_rows 6 3 2 = [5, 6] ∧
    (List.range 3).map (row_calc_band 252 3) = [(1, 85), (85, 168), (169, 253)] := by
  refine ⟨by decide, by decide, ?_, by decide, by decide⟩
  intro i hi
  interval_cases i <;> decide

/-! ### C2: boundary invariance -/

/-- C2 fails at `length = 6`, `thread_count = 3` (a configuration `main` accepts): the loop
nest of the worker of section 2 runs over the rows 5 and 6 and the columns 1 to 4, so its
first assignment targets the cell `(5, 1)` of the boundary row `length - 1`, and evaluating
that assignment reads row 6, which lies outside the matrices: the compute step of this
worker does not complete, and neither does the compute phase, in whatever order the three
workers do their steps. -/
theorem boundary_row_targeted_6_3 :
    main 0 0 6 3 = main_result.threads_created 3 ∧
    band_rows 6 3 2 = [5, 6] ∧ col_range 6 = [1, 2, 3, 4] ∧
    readCell (start_state 6 3 (matrix_B 6) (1 / 10000) 0 0).arr2 (5 + 1) 1 = none ∧
    relax_cell_arr (start_state 6 3 (matrix_B 6) (1 / 10000) 0 0) 2 5 1 = none ∧
    worker_compute (start_state 6 3 (matrix_B 6) (1 / 10000) 0 0) 0 2 = none ∧
    ∀ order ∈ [[0, 1, 2], [0, 2, 1], [1, 0, 2], [1, 2, 0], [2, 0, 1], [2, 1, 0]],
      compute_phase order 0 (start_state 6 3 (matrix_B 6) (1 / 10000) 0 0) = none := by
  refine ⟨by decide, by decide, by decide, by decide!, by decide!, by decide!, by decide!⟩

/-! ### C3: single relaxation -/

/-- C3: one compute step of a worker on the band `[s, l)`, in either buffer role, returns
whenever the band lies inside the matrix rows `1 .. length - 2`; whenever it returns, the
source matrix is unchanged and every cell `(x, y)` of the band with `1 ≤ y ≤ length - 2` of the
destination holds the mean of the four neighbours in the source; the same values result from
any other prior content `g` of the destination (and any other scratch values). -/
theorem single_relaxation (m : args) (i tn s l : Nat) (h3 : 3 ≤ m.length)
    (hN : m.length < ULONG) (ha : wf_grid m.length m.arr) (ha2 : wf_grid m.length m.arr2)
    (htn : tn < m.largest_difference.length) :
    (1 ≤ s → l < m.length → ∃ m1, compute_step m i tn s l = some m1) ∧
    ∀ m1, compute_step m i tn s l = some m1 →
      src_of i m1 = src_of i m ∧
      (∀ x y, s ≤ x → x < l → 1 ≤ y → y ≤ m.length - 2 →
        cell (dst_of i m1) x y =
          (cell (src_of i m) (x + 1) y + cell (src_of i m) (x - 1) y +
            cell (src_of i m) x (y + 1) + cell (src_of i m) x (y - 1)) / 4) ∧
      ∀ g ld, wf_grid m.length g → tn < ld.length →
        ∃ m2, compute_step (with_dst i m (g, ld)) i tn s l = some m2 ∧
          ∀ x y, s ≤ x → x < l → 1 ≤ y → y ≤ m.length - 2 →
            cell (dst_of i m2) x y = cell (dst_of i m1) x y := by
  refine ⟨fun hs1 hl => compute_step_total hN ha ha2 htn hs1 hl, ?_⟩
  intro m1 h
  obtain ⟨-, r⟩ := compute_step_relaxed h3 hN ha ha2 htn h
  have hcell : ∀ x y, s ≤ x → x < l → 1 ≤ y → y ≤ m.length - 2 →
      cell (dst_of i m1) x y = neighbour_mean (src_of i m) x y := fun x y hx1 hx2 hy1 hy2 =>
    r.cell_in tn x y ⟨rfl, mem_row_range.2 ⟨hx1, hx2⟩, hy1, by omega⟩
  refine ⟨compute_step_src h, hcell, ?_⟩
  intro g ld hg hld
  have hs : wf_grid m.length (src_of i m) := by
    unfold src_of; by_cases hi : i = 0 <;> simp [hi, ha, ha2]
  have hd : wf_grid m.length (dst_of i m) := by
    unfold dst_of; by_cases hi : i = 0 <;> simp [hi, ha, ha2]
  -- the rows of the band lie inside the matrix, because the step on `m` has returned
  have hrows : ∀ x ∈ row_range s l, 1 ≤ x ∧ x + 1 < m.length := by
    rw [compute_step_eq] at h
    cases hr : relax_band m.length (src_of i m) tn s l (dst_of i m, m.largest_difference) with
    | none => rw [hr] at h; cases h
    | some p => exact relax_band_some_bounds h3 hN hs hr
  obtain ⟨p, hp, rp⟩ := relax_band_spec (n := ld.length) hN hs hrows hld (g, ld) ⟨hg, rfl⟩
  refine ⟨with_dst i m p, ?_, ?_⟩
  · rw [compute_step_eq, with_dst_length, with_dst_src, with_dst_dst, with_dst_ld, hp]
    simp [with_dst_with_dst]
  · intro x y hx1 hx2 hy1 hy2
    rw [with_dst_dst, hcell x y hx1 hx2 hy1 hy2]
    exact rp.cell_in tn x y ⟨rfl, mem_row_range.2 ⟨hx1, hx2⟩, hy1, by omega⟩

/-- Witness of `single_relaxation`: the single worker of a grid of dimension 4, writing `arr2`. -/
theorem single_relaxation_witness :
    (1 ≤ 1 → 3 < (start_state 4 1 (matrix_B 4) (1 / 10000) 0 0).length →
      ∃ m1, compute_step (start_state 4 1 (matrix_B 4) (1 / 10000) 0 0) 1 0 1 3 = some m1) ∧
    ∀ m1, compute_step (start_state 4 1 (matrix_B 4) (1 / 10000) 0 0) 1 0 1 3 = some m1 →
      src_of 1 m1 = src_of 1 (start_state 4 1 (matrix_B 4) (1 / 10000) 0 0) ∧
      (∀ x y, 1 ≤ x → x < 3 → 1 ≤ y →
        y ≤ (start_state 4 1 (matrix_B 4) (1 / 10000) 0 0).length - 2 →
        cell (dst_of 1 m1) x y =
          (cell (src_of 1 (start_state 4 1 (matrix_B 4) (1 / 10000) 0 0)) (x + 1) y +
            cell (src_of 1 (start_state 4 1 (matrix_B 4) (1 / 10000) 0 0)) (x - 1) y +
            cell (src_of 1 (start_state 4 1 (matrix_B 4) (1 / 10000) 0 0)) x (y + 1) +
            cell (src_of 1 (start_state 4 1 (matrix_B 4) (1 / 10000) 0 0)) x (y - 1)) / 4) ∧
      ∀ g ld, wf_grid (start_state 4 1 (matrix_B 4) (1 / 10000) 0 0).length g → 0 < ld.length →
        ∃ m2, compute_step (with_dst 1 (start_state 4 1 (matrix_B 4) (1 / 10000) 0 0) (g, ld))
            1 0 1 3 = some m2 ∧
          ∀ x y, 1 ≤ x → x < 3 → 1 ≤ y →
            y ≤ (start_state 4 1 (matrix_B 4) (1 / 10000) 0 0).length - 2 →
            cell (dst_of 1 m2) x y = cell (dst_of 1 m1) x y :=
  single_relaxation (start_state 4 1 (matrix_B 4) (1 / 10000) 0 0) 1 0 1 3 (by decide)
    (by decide) (wf_grid_matrix_B 4) (wf_grid_matrix_B 4) (by decide)

/-! ### C4: one worker and two workers -/

/-- C4: for every grid dimension `N ≥ 4` (whose allocation size fits a machine word), every
threshold and every initial matrix `g` copied into both buffers, the run with two workers,
in whatever order they work inside each iteration, never faults and is observed exactly as
the run with one worker: for every bound on the iterations both stop or neither does, and
when they stop they have performed the same number of iterations, hold the same
`final_array` and the same two matrices. -/
theorem partition_invariance (N : Nat) (g : Grid) (t : ℚ) (stop final_array : Nat)
    (schedule : Nat → List Nat) (fuel : Nat) (h4 : 4 ≤ N) (h8 : 8 * N < ULONG)
    (hg : wf_grid N g) (ho : ∀ k, (schedule k).Perm [0, 1]) :
    (worker_loop schedule fuel 0 0 (start_state N 2 g t stop final_array)).observe =
      (worker_loop (fun _ => [0]) fuel 0 0 (start_state N 1 g t stop final_array)).observe ∧
    worker_loop schedule fuel 0 0 (start_state N 2 g t stop final_array) ≠ Outcome.fault :=
  sim_1_2_loop schedule h4 h8 ho fuel 0 0 (start_state N 1 g t stop final_array)
    (start_state N 2 g t stop final_array)
    ⟨rfl, rfl, rfl, rfl, rfl, rfl, rfl, rfl, rfl, rfl, rfl, hg, hg⟩

/-- Witness of `partition_invariance`: matrix B of dimension 5, the second worker first. -/
theorem partition_invariance_witness :
    (worker_loop (fun _ => [1, 0]) 100 0 0 (start_state 5 2 (matrix_B 5) (1 / 10000) 0 0)).observe =
      (worker_loop (fun _ => [0]) 100 0 0 (start_state 5 1 (matrix_B 5) (1 / 10000) 0 0)).observe ∧
    worker_loop (fun _ => [1, 0]) 100 0 0 (start_state 5 2 (matrix_B 5) (1 / 10000) 0 0)
      ≠ Outcome.fault :=
  partition_invariance 5 (matrix_B 5) (1 / 10000) 0 0 (fun _ => [1, 0]) 100 (by decide)
    (by decide) (wf_grid_matrix_B 5) (fun _ => List.Perm.swap 0 1 [])

/-! ### C5: the decision of the coordinator -/

/-- C5: whatever the scratch values and the threshold are, the coordinator code sets `stop` to
1 exactly when every scratch value is at most `minimal_difference` and to 0 otherwise, sets
`final_array` to the buffer flag `i` of the iteration, whose destination matrix `dst_of i`
(the compute step with flag `i` leaves the other matrix `src_of i` untouched) is the one
`main` reports for this value, and leaves all scratch values equal to 0. -/
theorem coordinator_decision (m : args) (i : Nat)
    (hlen : m.largest_difference.length = m.thread_count) :
    ∃ m1, coordinator m i = some m1 ∧
      (m1.stop = 1 ↔ ∀ d ∈ m.largest_difference, d ≤ m.minimal_difference) ∧
      ((¬ ∀ d ∈ m.largest_difference, d ≤ m.minimal_difference) → m1.stop = 0) ∧
      m1.final_array = i ∧
      reported_matrix m1 = dst_of i m ∧
      (∀ m0 tn s l, compute_step m0 i tn s l = some m → src_of i m = src_of i m0) ∧
      m1.largest_difference = List.replicate m.thread_count 0 := by
  obtain ⟨m1, h1, hs1, hs0, hf, hld, ha, ha2, -⟩ := coordinator_spec m i hlen
  refine ⟨m1, h1, hs1, hs0, hf, ?_, fun m0 tn s l h => compute_step_src h, hld⟩
  unfold reported_matrix dst_of
  rw [hf, ha, ha2]

/-- Witness of `coordinator_decision`: two workers, one of them above the threshold. -/
theorem coordinator_decision_witness :
    ∃ m1, coordinator { start_state 4 2 (matrix_B 4) (1 / 10000) 0 0 with
        largest_difference := [1 / 4, 0] } 1 = some m1 ∧
      (m1.stop = 1 ↔ ∀ d ∈ [(1 / 4 : ℚ), 0], d ≤ 1 / 10000) ∧
      ((¬ ∀ d ∈ [(1 / 4 : ℚ), 0], d ≤ 1 / 10000) → m1.stop = 0) ∧
      m1.final_array = 1 ∧
      reported_matrix m1 = dst_of 1 { start_state 4 2 (matrix_B 4) (1 / 10000) 0 0 with
        largest_difference := [1 / 4, 0] } ∧
      (∀ m0 tn s l, compute_step m0 1 tn s l = some { start_state 4 2 (matrix_B 4) (1 / 10000) 0 0
          with largest_difference := [1 / 4, 0] } →
        src_of 1 { start_state 4 2 (matrix_B 4) (1 / 10000) 0 0 with
          largest_difference := [1 / 4, 0] } = src_of 1 m0) ∧
      m1.largest_difference = List.replicate 2 0 :=
  coordinator_decision { start_state 4 2 (matrix_B 4) (1 / 10000) 0 0 with
    largest_difference := [1 / 4, 0] } 1 rfl

/-! ### C6: idempotent convergence -/

/-- C7 fails at `length = 6`, `thread_count = 3` (a configuration `main` accepts) with
matrix B and the threshold `1 / 10000`: in whatever order the three workers do their
compute steps, the first iteration faults (the worker of section 2 reads row 6 of a matrix
with 6 rows), so that the loop never sets the stop flag, whatever the number of iterations
allowed. -/
theorem no_termination_6_3 :
    main 0 0 6 3 = main_result.threads_created 3 ∧
    (∀ order ∈ [[0, 1, 2], [0, 2, 1], [1, 0, 2], [1, 2, 0], [2, 0, 1], [2, 1, 0]],
      iteration order 0 (start_state 6 3 (matrix_B 6) (1 / 10000) 0 0) = none) ∧
    ∀ (schedule : Nat → List Nat) (fuel : Nat),
      schedule 0 ∈ [[0, 1, 2], [0, 2, 1], [1, 0, 2], [1, 2, 0], [2, 0, 1], [2, 1, 0]] →
      worker_loop schedule (fuel + 1) 0 0 (start_state 6 3 (matrix_B 6) (1 / 10000) 0 0)
        = Outcome.fault := by
  have h : ∀ order ∈ [[0, 1, 2], [0, 2, 1], [1, 0, 2], [1, 2, 0], [2, 0, 1], [2, 1, 0]],
      iteration order 0 (start_state 6 3 (matrix_B 6) (1 / 10000) 0 0) = none := by
    decide!
  refine ⟨by decide, h, ?_⟩
  intro schedule fuel hs
  unfold worker_loop
  rw [if_neg (by decide)]
  simp only [h (schedule 0) hs]

/-! ### C8: rejected configurations -/

/-- C8: when `length < 3` or `thread_count > length - 2`, `main` returns the error exit
before the matrices are allocated and before a thread is created; `length = 2` is rejected
for every thread count. -/
theorem configuration_rejection (mutex_rc barrier_rc length thread_count : Nat)
    (hN : length < ULONG) (h : length < 3 ∨ length - 2 < thread_count) :
    ((main mutex_rc barrier_rc length thread_count).exit_code = some 1 ∧
      (main mutex_rc barrier_rc length thread_count).buffers_allocated = false ∧
      (main mutex_rc barrier_rc length thread_count).threads = 0) ∧
    ∀ T, (main mutex_rc barrier_rc 2 T).exit_code = some 1 ∧
      (main mutex_rc barrier_rc 2 T).buffers_allocated = false ∧
      (main mutex_rc barrier_rc 2 T).threads = 0 := by
  constructor
  · unfold main
    by_cases hm : mutex_rc ≠ 0
    · rw [if_pos hm]; exact ⟨rfl, rfl, rfl⟩
    · rw [if_neg hm]
      by_cases ht : thread_count > usub length 2
      · rw [if_pos ht]; exact ⟨rfl, rfl, rfl⟩
      · rw [if_neg ht]
        by_cases hl : length < 3
        · rw [if_pos hl]; exact ⟨rfl, rfl, rfl⟩
        · exfalso
          rw [usub_eq_sub hN (by omega)] at ht
          omega
  · intro T
    unfold main
    by_cases hm : mutex_rc ≠ 0
    · rw [if_pos hm]; exact ⟨rfl, rfl, rfl⟩
    · rw [if_neg hm]
      by_cases ht : T > usub 2 2
      · rw [if_pos ht]; exact ⟨rfl, rfl, rfl⟩
      · rw [if_neg ht, if_pos (by decide)]; exact ⟨rfl, rfl, rfl⟩

/-- Witness of `configuration_rejection`: five threads on a grid of dimension 6. -/
theorem configuration_rejection_witness :
    ((main 0 0 6 5).exit_code = some 1 ∧ (main 0 0 6 5).buffers_allocated = false ∧
      (main 0 0 6 5).threads = 0) ∧
    ∀ T, (main 0 0 2 T).exit_code = some 1 ∧ (main 0 0 2 T).buffers_allocated = false ∧
      (main 0 0 2 T).threads = 0 :=
  configuration_rejection 0 0 6 5 (by decide) (Or.inr (by decide))

/-! ### C9: what the validation establishes -/

/-- C9 as stated fails: `length = 3`, `thread_count = 0` passes both validation checks of
`main`, although `1 ≤ thread_count` does not hold. -/
theorem validation_passes_zero_threads :
    main 0 0 3 0 ≠ main_result.too_many_threads ∧ main 0 0 3 0 ≠ main_result.invalid_length ∧
    ¬ (3 ≤ 3 ∧ 1 ≤ 0 ∧ 0 ≤ 3 - 2) := by
  decide

/-- C9 amended: a configuration that passes both validation checks of `main` satisfies
`3 ≤ length` and `thread_count ≤ length - 2`; `1 ≤ thread_count` holds as soon as the
barrier initialisation has succeeded as well, which `main` checks before it creates a
thread. -/
theorem validation_precondition (barrier_rc length thread_count : Nat) (hN : length < ULONG)
    (h1 : main 0 barrier_rc length thread_count ≠ main_result.too_many_threads)
    (h2 : main 0 barrier_rc length thread_count ≠ main_result.invalid_length) :
    3 ≤ length ∧ thread_count ≤ length - 2 ∧
    (main 0 barrier_rc length thread_count ≠ main_result.barrier_failed →
      1 ≤ thread_count ∧
      main 0 barrier_rc length thread_count = main_result.threads_created thread_count) := by
  unfold main at h1 h2 ⊢
  simp only [ne_eq, not_true_eq_false, if_false] at h1 h2 ⊢
  by_cases ht : thread_count > usub length 2
  · simp [ht] at h1
  · by_cases hl : length < 3
    · simp [ht, hl] at h2
    · rw [usub_eq_sub hN (by omega)] at ht
      refine ⟨by omega, by omega, ?_⟩
      rw [usub_eq_sub hN (by omega), if_neg ht, if_neg hl]
      unfold pthread_barrier_init
      by_cases h0 : thread_count = 0
      · simp [h0]
      · by_cases hb : barrier_rc = 0
        · simp [h0, hb]; omega
        · simp [h0, hb]

/-- Witness of `validation_precondition`: `length = 6`, `thread_count = 3`. -/
theorem validation_precondition_witness :
    3 ≤ 6 ∧ 3 ≤ 6 - 2 ∧
    (main 0 0 6 3 ≠ main_result.barrier_failed →
      1 ≤ 3 ∧ main 0 0 6 3 = main_result.threads_created 3) :=
  validation_precondition 0 6 3 (by decide) (by decide) (by decide)

/-! ### C10: balanced bands -/

/-- C10: for `length < 2 ^ 64` and `1 ≤ thread_count ≤ length - 2`, every band computed by
`row_calc` has size `last_row - start_row` equal to `(length - 2) / thread_count` or to
`(length - 2) / thread_count + 1`, so the sizes of two bands differ by at most one; when
the allocation size `8 * length` fits a machine word the row loop visits that many rows. -/
theorem balanced_bands (length thread_count i j : Nat) (hN : length < ULONG)
    (hT : 1 ≤ thread_count) (hTR : thread_count ≤ length - 2) (hi : i < thread_count)
    (hj : j < thread_count) :
    (band_size length thread_count i = (length - 2) / thread_count ∨
      band_size length thread_count i = (length - 2) / thread_count + 1) ∧
    band_size length thread_count i ≤ band_size length thread_count j + 1 ∧
    band_size length thread_count j ≤ band_size length thread_count i + 1 ∧
    (8 * length < ULONG →
      (band_rows length thread_count i).length = band_size length thread_count i) := by
  have hci := band_size_cases length thread_count i hN (by omega)
  have hcj := band_size_cases length thread_count j hN (by omega)
  refine ⟨hci, by omega, by omega, ?_⟩
  intro h8
  have hR : usub length 2 = length - 2 := usub_eq_sub hN (by omega)
  obtain ⟨h1, h2⟩ := mul_div_facts (length - 2) thread_count i hi
  have hrem : (length - 2) % thread_count < thread_count := Nat.mod_lt _ (by omega)
  unfold band_rows row_range band_size row_calc_band
  rw [hR, List.length_range']
  generalize (length - 2) / thread_count = b at *
  generalize (length - 2) % thread_count = r at *
  generalize hu : i * b = u at *
  generalize thread_count * b = w at *
  have hum : umul i b = u := by
    unfold umul; rw [hu]; apply Nat.mod_eq_of_lt; unfold ULONG at *; omega
  rw [hum]
  clear hj hci hcj
  split_ifs <;> simp only [uadd, usub] at * <;> unfold ULONG at * <;> omega

/-- Witness of `balanced_bands`: the bands 0 and 2 of `length = 6`, `thread_count = 3`. -/
theorem balanced_bands_witness :
    (band_size 6 3 0 = (6 - 2) / 3 ∨ band_size 6 3 0 = (6 - 2) / 3 + 1) ∧
    band_size 6 3 0 ≤ band_size 6 3 2 + 1 ∧
    band_size 6 3 2 ≤ band_size 6 3 0 + 1 ∧
    (8 * 6 < ULONG → (band_rows 6 3 0).length = band_size 6 3 0) :=
  balanced_bands 6 3 0 2 (by decide) (by decide) (by decide) (by decide) (by decide)

/-! ### C11: claiming the section indices -/

/-- C11: with the claim under the lock as one atomic step, a claim on a table whose smallest
free index is `i` (the slots below `i` are taken, slot `i` holds 0) returns `i` and changes
only this slot, to 1; and `T` successive claims on the table of `T` zeros that `main` sets up
return the indices `0, 1, .., T - 1`, each once, and leave every slot equal to 1. -/
theorem unique_index_assignment (m : args) (i : Nat) (hi : i < m.thread_count)
    (h0 : m.available[i]? = some 0)
    (hlt : ∀ j, j < i → ∃ v, m.available[j]? = some v ∧ v ≠ 0) :
    claim_section m = some (i, { m with available := m.available.set i 1 }) ∧
    ∀ N T g t s f, claim_sections T (start_state N T g t s f)
      = some (List.range T, { start_state N T g t s f with available := List.replicate T 1 }) := by
  refine ⟨claim_section_spec m i hi h0 hlt, ?_⟩
  intro N T g t s f
  have h := claim_sections_spec T 0 (start_state N T g t s f) (by simp [start_state])
    (by simp [start_state])
  rw [h, List.range_eq_range', Nat.zero_add]

/-- Witness of `unique_index_assignment`: three sections, the first of them taken. -/
theorem unique_index_assignment_witness :
    claim_section { start_state 6 3 (matrix_B 6) (1 / 10000) 0 0 with available := [1, 0, 0] }
      = some (1, { { start_state 6 3 (matrix_B 6) (1 / 10000) 0 0 with available := [1, 0, 0] }
          with available := [1, 0, 0].set 1 1 }) ∧
    ∀ N T g t s f, claim_sections T (start_state N T g t s f)
      = some (List.range T, { start_state N T g t s f with available := List.replicate T 1 }) :=
  unique_index_assignment
    { start_state 6 3 (matrix_B 6) (1 / 10000) 0 0 with available := [1, 0, 0] } 1 (by decide)
    (by decide) (fun j hj => ⟨1, by interval_cases j; decide, by decide⟩)

/-! ### C12: the stop flag at the start -/

/-- C12 fails: `main` never assigns `stop` and `final_array` (the start state takes them as
they happen to be), although it zeroes `available` and `largest_difference`.  When `stop`
holds 1 as the workers start, in a configuration `main` accepts such as `length = 5` with one
thread, the loop is left at once: no iteration is performed and `final_array` keeps its
initial content, here 7, which is neither 0 nor 1 and was not written by the coordinator. -/
theorem stop_flag_not_initialised :
    main 0 0 5 1 = main_result.threads_created 1 ∧
    (∀ N T g t f schedule fuel,
      worker_loop schedule fuel 0 0 (start_state N T g t 1 f)
        = Outcome.finished 0 (start_state N T g t 1 f)) ∧
    (start_state 5 1 (matrix_B 5) (1 / 10000) 1 7).final_array = 7 := by
  refine ⟨by decide, ?_, rfl⟩
  intro N T g t f schedule fuel
  exact worker_loop_of_stop schedule fuel 0 0 rfl

/-! ### C13: the run on matrix B of dimension 5 -/

/-- C13 fails when the uninitialised `stop` holds 1 as the workers start (the defect of C12):
the run on matrix B of dimension 5 with one worker and the threshold `1 / 10000` then
performs no iteration, and the reported matrix is matrix B itself, whose interior cell
`(1, 1)` holds 0 while the mean of its neighbours in the other matrix is `1 / 2`.  For every
other initial content of `stop` the run stops after exactly 24 iterations, in the same state:
`main` reports `arr2`, whose boundary cells are 1 on row 0 and column 0 and 0 on the rest of
row 4 and column 4, and whose interior cells are the means of their four neighbours in `arr`
and differ from `arr` by at most `1 / 10000`. -/
theorem scenario_5_1 :
    (∀ fuel final_array,
      worker_loop (fun _ => [0]) fuel 0 0 (start_state 5 1 (matrix_B 5) (1 / 10000) 1 final_array)
        = Outcome.finished 0 (start_state 5 1 (matrix_B 5) (1 / 10000) 1 final_array)) ∧
    (∀ final_array,
      reported_matrix (start_state 5 1 (matrix_B 5) (1 / 10000) 1 final_array) = matrix_B 5 ∧
      other_matrix (start_state 5 1 (matrix_B 5) (1 / 10000) 1 final_array) = matrix_B 5) ∧
    cell (matrix_B 5) 1 1 = 0 ∧ neighbour_mean (matrix_B 5) 1 1 = 1 / 2 ∧
    (∀ stop final_array fuel, stop ≠ 1 → 24 ≤ fuel →
      worker_loop (fun _ => [0]) fuel 0 0
          (start_state 5 1 (matrix_B 5) (1 / 10000) stop final_array)
        = Outcome.finished 24
          { start_state 5 1 (matrix_B 5) (1 / 10000) 1 1 with
            arr := scenario_arr, arr2 := scenario_arr2 }) ∧
    reported_matrix { start_state 5 1 (matrix_B 5) (1 / 10000) 1 1 with
      arr := scenario_arr, arr2 := scenario_arr2 } = scenario_arr2 ∧
    other_matrix { start_state 5 1 (matrix_B 5) (1 / 10000) 1 1 with
      arr := scenario_arr, arr2 := scenario_arr2 } = scenario_arr ∧
    (∀ x, x < 5 → ∀ y, y < 5 → (x = 0 ∨ x = 4 ∨ y = 0 ∨ y = 4) →
      cell scenario_arr2 x y = if x = 0 ∨ y = 0 then 1 else 0) ∧
    (∀ x, x < 5 → ∀ y, y < 5 → (1 ≤ x ∧ x ≤ 3 ∧ 1 ≤ y ∧ y ≤ 3) →
      cell scenario_arr2 x y = neighbour_mean scenario_arr x y ∧
      |cell scenario_arr2 x y - cell scenario_arr x y| ≤ 1 / 10000) := by
  refine ⟨fun fuel f => worker_loop_of_stop _ fuel 0 0 rfl, ?_, by decide!, by decide!,
    fun stop f fuel hs hf => scenario_run stop f fuel hs hf, rfl, rfl, by decide!, by decide!⟩
  intro f
  unfold reported_matrix other_matrix
  by_cases h : f = 0 <;> simp [start_state, h]

/-! ### C14: phase separation -/

/-- C14: in every accepted configuration and for either buffer flag, a cell written by the
compute step of one worker is neither written nor read by the compute step of another
worker; every write goes to the destination matrix, in a row of the band of the worker, and a
cell of the destination matrix that a worker reads is one it writes itself; accordingly the
compute phase gives the same result (or faults) in whatever order the workers do their
steps. -/
theorem phase_separation (N T i j k : Nat) (hacc : accepted N T) (hj : j < T) (hk : k < T)
    (hjk : j ≠ k) :
    (∀ c ∈ worker_writes N T i j, c ∉ worker_writes N T i k ∧ c ∉ worker_reads N T i k) ∧
    (∀ c ∈ worker_writes N T i j, c.1 = (if i = 0 then 0 else 1) ∧ c.2.1 ∈ band_rows N T j) ∧
    (∀ c ∈ worker_reads N T i j, c.1 = (if i = 0 then 0 else 1) → c ∈ worker_writes N T i j) ∧
    ∀ (m : args) (order1 order2 : List Nat), m.length = N → m.thread_count = T → wf_args m →
      order1.Perm (List.range T) → order2.Perm (List.range T) →
      compute_phase order1 i m = compute_phase order2 i m := by
  refine ⟨fun c hc => writes_separate hacc hj hk hjk c hc, ?_, ?_, ?_⟩
  · intro c hc
    rw [mem_worker_writes] at hc
    obtain ⟨x, hx, y, -, rfl⟩ := hc
    exact ⟨rfl, hx⟩
  · intro c hc hdst
    rw [mem_worker_reads] at hc
    obtain ⟨x, hx, y, hy, hc⟩ := hc
    obtain ⟨t, a, b⟩ := c
    simp only at hdst
    subst hdst
    obtain ⟨rfl, rfl⟩ := cell_reads_dst hc
    exact mem_worker_writes.2 ⟨a, hx, b, hy, rfl⟩
  · intro m order1 order2 hN hT hm ho1 ho2
    subst hN hT
    exact compute_phase_order_independent i hacc hm ho1 ho2

/-- Witness of `phase_separation`: the first two workers of `length = 6`, `thread_count = 3`. -/
theorem phase_separation_witness :
    (∀ c ∈ worker_writes 6 3 0 0, c ∉ worker_writes 6 3 0 1 ∧ c ∉ worker_reads 6 3 0 1) ∧
    (∀ c ∈ worker_writes 6 3 0 0, c.1 = (if 0 = 0 then 0 else 1) ∧ c.2.1 ∈ band_rows 6 3 0) ∧
    (∀ c ∈ worker_reads 6 3 0 0, c.1 = (if 0 = 0 then 0 else 1) → c ∈ worker_writes 6 3 0 0) ∧
    ∀ (m : args) (order1 order2 : List Nat), m.length = 6 → m.thread_count = 3 → wf_args m →
      order1.Perm (List.range 3) → order2.Perm (List.range 3) →
      compute_phase order1 0 m = compute_phase order2 0 m :=
  phase_separation 6 3 0 0 1 ⟨by decide, by decide, by decide, by decide⟩ (by decide)
    (by decide) (by decide)

/-! ### C15: the widened prefix -/

/-- C15 fails at `length = 6`, `thread_count = 3`: the remainder is 1 and the base size is 1,
and for section 2, which is not below the remainder, `row_calc` computes the band `[5, 7)`
of size 2, where the claim gives the start row `1 + 2 * 1 + 1 = 4` and the size 1: the
sections 0 and 2 both get an extra row, not only the first one.  In general, when the
remainder is not 0, `row_calc` gives every section `i` other than the remainder the start row
`1 + i * base + i` and the size `base + 1`, and the section `i = rem` the start row
`1 + i * base + rem` and the size `base`. -/
theorem widened_prefix_6_3 :
    main 0 0 6 3 = main_result.threads_created 3 ∧
    (6 - 2) % 3 = 1 ∧ (6 - 2) / 3 = 1 ∧
    row_calc_band 6 3 2 = (5, 7) ∧ spec_band 6 3 2 = (4, 5) ∧
    band_size 6 3 2 = (6 - 2) / 3 + 1 ∧
    (List.range 3).map (band_size 6 3) = [2, 1, 2] ∧
    ∀ N T i, accepted N T → i < T → (N - 2) % T ≠ 0 →
      (i ≠ (N - 2) % T → row_calc_band N T i
        = (1 + i * ((N - 2) / T) + i, 1 + i * ((N - 2) / T) + i + (N - 2) / T + 1)) ∧
      (i = (N - 2) % T → row_calc_band N T i
        = (1 + i * ((N - 2) / T) + (N - 2) % T,
          1 + i * ((N - 2) / T) + (N - 2) % T + (N - 2) / T)) := by
  refine ⟨by decide, by decide, by decide, by decide, by decide, by decide, by decide, ?_⟩
  intro N T i hacc hi hr
  exact row_calc_band_remainder hacc hi hr

/-! ### C16: exactly one coordinator -/

/-- C16: in every accepted configuration the band of section 0 starts at row 1 and the band of
no other section does, so that in each iteration, whatever the order of the workers, the
decision phase is exactly one run of the coordinator code. -/
theorem exactly_one_coordinator (N T : Nat) (hacc : accepted N T) :
    (row_calc_band N T 0).1 = 1 ∧
    (∀ i, 1 ≤ i → i < T → (row_calc_band N T i).1 ≠ 1) ∧
    ∀ (order : List Nat) (i : Nat) (m : args), order.Perm (List.range T) → m.length = N →
      m.thread_count = T → m.largest_difference.length = T →
      decide_phase order i m = coordinator m i := by
  refine ⟨(start_row_eq_one_iff_accepted hacc hacc.one).2 rfl, ?_, ?_⟩
  · intro i h1 hi h
    have := (start_row_eq_one_iff_accepted hacc hi).1 h
    omega
  · intro order i m ho hN hT hld
    exact decide_phase_once hacc i order m hN hT hld (fun tn h => (perm_range_mem ho tn).1 h)
      (perm_range_nodup ho) ((perm_range_mem ho 0).2 hacc.one)

/-- Witness of `exactly_one_coordinator`: `length = 6`, `thread_count = 3`. -/
theorem exactly_one_coordinator_witness :
    (row_calc_band 6 3 0).1 = 1 ∧
    (∀ i, 1 ≤ i → i < 3 → (row_calc_band 6 3 i).1 ≠ 1) ∧
    ∀ (order : List Nat) (i : Nat) (m : args), order.Perm (List.range 3) → m.length = 6 →
      m.thread_count = 3 → m.largest_difference.length = 3 →
      decide_phase order i m = coordinator m i :=
  exactly_one_coordinator 6 3 ⟨by decide, by decide, by decide, by decide⟩

/-! ### C17: largest-change tracking -/

/-- C17: the scratch values are all 0 in the state `main` sets up and again after every run of
the coordinator.  For a worker whose band lies inside the matrix and whose scratch value is
0, the compute step returns, and the scratch value is then the maximum of
`|new value - old value|` over the cells `(x, y)` of its band with `1 ≤ y ≤ N - 2`: it bounds
every one of these differences and is equal to one of them.  At every single cell the
scratch value only grows, so a smaller later difference never replaces a larger one. -/
theorem largest_change_tracking (N T : Nat) (m : args) (i tn : Nat) (hacc : accepted N T)
    (hN : m.length = N) (hT : m.thread_count = T) (hm : wf_args m) (htn : tn < T)
    (hb : (row_calc_band N T tn).2 < N) (hd : m.largest_difference[tn]? = some 0) :
    (∀ g t s f, (start_state N T g t s f).largest_difference = List.replicate T 0) ∧
    (∀ j, ∃ m2, coordinator m j = some m2 ∧ m2.largest_difference = List.replicate T 0) ∧
    (∃ m1 d1, worker_compute m i tn = some m1 ∧ m1.largest_difference[tn]? = some d1 ∧
      (∀ x ∈ band_rows N T tn, ∀ y, 1 ≤ y → y ≤ N - 2 →
        |cell (dst_of i m1) x y - cell (src_of i m) x y| ≤ d1) ∧
      ∃ x ∈ band_rows N T tn, ∃ y, 1 ≤ y ∧ y ≤ N - 2 ∧
        d1 = |cell (dst_of i m1) x y - cell (src_of i m) x y|) ∧
    ∀ (n n1 : args) (x y : Nat) (d : ℚ), n.largest_difference[tn]? = some d →
      (relax_cell_arr n tn x y = some n1 ∨ relax_cell_arr2 n tn x y = some n1) →
      ∃ d1, n1.largest_difference[tn]? = some d1 ∧ d ≤ d1 := by
  subst hN hT
  obtain ⟨hs1, hsl, -, -⟩ := row_calc_band_slot hacc htn
  refine ⟨fun g t s f => rfl, ?_, ?_, ?_⟩
  · intro j
    obtain ⟨m2, h1, -, -, -, h2, -⟩ := coordinator_spec m j hm.ld
    exact ⟨m2, h1, h2⟩
  · have htn1 : tn < m.largest_difference.length := by rw [hm.ld]; exact htn
    obtain ⟨m1, h1⟩ := @compute_step_total m i tn (row_calc_band m.length m.thread_count tn).1
      (row_calc_band m.length m.thread_count tn).2 hacc.lt hm.arr hm.arr2 htn1 (by omega) hb
    obtain ⟨d1, h2, h3, x, y, h4, h5, h6, h7, h8⟩ :=
      compute_step_scratch_max hacc.three hacc.lt hm.arr hm.arr2 hd hsl h1
    refine ⟨m1, d1, h1, h2, ?_, x, ?_, y, h6, h7, h8⟩
    · intro a ha b hb1 hb2
      unfold band_rows at ha
      rw [mem_row_range] at ha
      exact h3 a b ha.1 ha.2 hb1 hb2
    · unfold band_rows
      rw [mem_row_range]
      exact ⟨h4, h5⟩
  · intro n n1 x y d hd1 h
    rcases h with h | h
    · obtain ⟨d1, h1, h2, -⟩ := relax_cell_arr_scratch h hd1
      exact ⟨d1, h1, h2⟩
    · obtain ⟨d1, h1, h2, -⟩ := relax_cell_arr2_scratch h hd1
      exact ⟨d1, h1, h2⟩

/-- Witness of `largest_change_tracking`: the worker of section 0 on matrix B of dimension 6
with three threads. -/
theorem largest_change_tracking_witness :
    (∀ g t s f, (start_state 6 3 g t s f).largest_difference = List.replicate 3 0) ∧
    (∀ j, ∃ m2, coordinator (start_state 6 3 (matrix_B 6) (1 / 10000) 0 0) j = some m2 ∧
      m2.largest_difference = List.replicate 3 0) ∧
    (∃ m1 d1, worker_compute (start_state 6 3 (matrix_B 6) (1 / 10000) 0 0) 0 0 = some m1 ∧
      m1.largest_difference[0]? = some d1 ∧
      (∀ x ∈ band_rows 6 3 0, ∀ y, 1 ≤ y → y ≤ 6 - 2 →
        |cell (dst_of 0 m1) x y
          - cell (src_of 0 (start_state 6 3 (matrix_B 6) (1 / 10000) 0 0)) x y| ≤ d1) ∧
      ∃ x ∈ band_rows 6 3 0, ∃ y, 1 ≤ y ∧ y ≤ 6 - 2 ∧
        d1 = |cell (dst_of 0 m1) x y
          - cell (src_of 0 (start_state 6 3 (matrix_B 6) (1 / 10000) 0 0)) x y|) ∧
    ∀ (n n1 : args) (x y : Nat) (d : ℚ), n.largest_difference[0]? = some d →
      (relax_cell_arr n 0 x y = some n1 ∨ relax_cell_arr2 n 0 x y = some n1) →
      ∃ d1, n1.largest_difference[0]? = some d1 ∧ d ≤ d1 :=
  largest_change_tracking 6 3 (start_state 6 3 (matrix_B 6) (1 / 10000) 0 0) 0 0
    ⟨by decide, by decide, by decide, by decide⟩ rfl rfl
    ⟨wf_grid_matrix_B 6, wf_grid_matrix_B 6, rfl⟩ (by decide) (by decide) rfl

/-! ### C18: in-bounds access -/

/-- C18 fails at `length = 6`, `thread_count = 3` (a configuration `main` accepts), by the
defect of C1: the band of section 2 is `[5, 7)`, so the compute step of its worker uses the
rows 5 and 6, neither of which satisfies `1 ≤ x ≤ 4`; it reads the cells `(6, 1)` and
`(7, 1)` of `arr2` and writes the cell `(6, 1)` of `arr`, all outside the 6 x 6 matrices, and
the step does not complete.  In the accepted configurations whose remainder is 0 or
`thread_count - 1`, every cell a worker reads or writes is inside the matrices. -/
theorem out_of_bounds_6_3 :
    main 0 0 6 3 = main_result.threads_created 3 ∧
    row_calc_band 6 3 2 = (5, 7) ∧ band_rows 6 3 2 = [5, 6] ∧
    (1, 6, 1) ∈ worker_reads 6 3 0 2 ∧ ¬ Loc.in_bounds 6 (1, 6, 1) ∧
    (1, 7, 1) ∈ worker_reads 6 3 0 2 ∧ ¬ Loc.in_bounds 6 (1, 7, 1) ∧
    (0, 6, 1) ∈ worker_writes 6 3 0 2 ∧ ¬ Loc.in_bounds 6 (0, 6, 1) ∧
    worker_compute (start_state 6 3 (matrix_B 6) (1 / 10000) 0 0) 0 2 = none ∧
    ∀ N T i tn c, accepted N T → exact_split N T → tn < T →
      (c ∈ worker_reads N T i tn ∨ c ∈ worker_writes N T i tn) → Loc.in_bounds N c := by
  refine ⟨by decide, by decide, by decide, by decide, by unfold Loc.in_bounds; decide,
    by decide, by unfold Loc.in_bounds; decide, by decide, by unfold Loc.in_bounds; decide,
    by decide!, ?_⟩
  intro N T i tn c hacc hg htn hc
  exact accesses_in_bounds_of_exact_split hacc hg htn c hc

/-! ### C19: the end-to-end postcondition -/

/-- C19 fails when the uninitialised `stop` holds 1 as the workers start (the defect of C12),
for instance at `length = 4` with two threads on matrix B, where the bands `[1, 2)` and
`[2, 3)` cover the interior rows exactly: the run terminates without an iteration, and the
matrix `main` reports is matrix B, whose interior cell `(1, 1)` holds 0 while the mean of its
four neighbours in the other matrix is `1 / 2`.  For every other initial content of `stop`
the claim holds: a run with an exact split that terminates has performed `k ≥ 1` iterations,
the reported matrix is the destination of the last one, and every interior cell of it is the
mean of its four neighbours in the other matrix and differs from the cell of the other
matrix by at most `minimal_difference`. -/
theorem postcondition_4_2 :
    main 0 0 4 2 = main_result.threads_created 2 ∧
    exact_split 4 2 ∧ (List.range 2).map (band_rows 4 2) = [[1], [2]] ∧
    (∀ schedule fuel f,
      worker_loop schedule fuel 0 0 (start_state 4 2 (matrix_B 4) (1 / 10000) 1 f)
        = Outcome.finished 0 (start_state 4 2 (matrix_B 4) (1 / 10000) 1 f)) ∧
    (∀ f, reported_matrix (start_state 4 2 (matrix_B 4) (1 / 10000) 1 f) = matrix_B 4 ∧
      other_matrix (start_state 4 2 (matrix_B 4) (1 / 10000) 1 f) = matrix_B 4) ∧
    interior 4 1 1 ∧ cell (matrix_B 4) 1 1 = 0 ∧ neighbour_mean (matrix_B 4) 1 1 = 1 / 2 ∧
    ∀ (N T : Nat) (schedule : Nat → List Nat) (fuel k : Nat) (m m1 : args),
      accepted N T → exact_split N T → (∀ n, (schedule n).Perm (List.range T)) →
      wf_args m → m.length = N → m.thread_count = T → m.stop ≠ 1 →
      worker_loop schedule fuel 0 0 m = Outcome.finished k m1 →
      1 ≤ k ∧ m1.final_array = (k - 1) % 2 ∧
      reported_matrix m1 = dst_of ((k - 1) % 2) m1 ∧
      ∀ x y, interior N x y →
        cell (reported_matrix m1) x y = neighbour_mean (other_matrix m1) x y ∧
        |cell (reported_matrix m1) x y - cell (other_matrix m1) x y| ≤ m.minimal_difference := by
  refine ⟨by decide, exact_split_two 4, by decide,
    fun schedule fuel f => worker_loop_of_stop schedule fuel 0 0 rfl, ?_,
    by unfold interior; decide, by decide!, by decide!, ?_⟩
  · intro f
    unfold reported_matrix other_matrix
    by_cases h : f = 0 <;> simp [start_state, h]
  · intro N T schedule fuel k m m1 hacc hg ho hwf hN hT hs h
    exact finished_postcondition schedule hacc hg ho hwf hN hT hs h

end CM30225CW1
